import Mathlib

/-!
# EspruinoTools `plugins/compiler.js`: a shallow embedding

The plugin rewrites every top-level function whose body starts with the
`"compiled"` marker into an `E.asm(...)` declaration holding Thumb assembly.
The embedding follows the source function by function:

* JavaScript strings are sequences of UTF-16 code units (`codeUnits`);
* JavaScript numbers are IEEE-754 binary64 bit patterns (`JsNumber`);
* the closure variables of `compileFunction` (`locals`, `constData`,
  `assembly`, `exportNames`) form the record `Ctx`, threaded explicitly;
* a JavaScript `TypeError` is the `Outcome.threw` result.
-/

namespace Compiler

/-! ## JavaScript strings -/

/-- UTF-16 code units of a string: what `charCodeAt`, `length` and `substr` see. -/
def codeUnits (s : String) : List Nat :=
  s.toList.flatMap fun c =>
    if c.toNat < 0x10000 then [c.toNat]
    else [0xD800 + (c.toNat - 0x10000) / 1024, 0xDC00 + (c.toNat - 0x10000) % 1024]

/-- The white space removed by `String.prototype.trim`. -/
def isJsWhitespace (c : Char) : Bool :=
  c.toNat ∈ [0x09, 0x0A, 0x0B, 0x0C, 0x0D, 0x20, 0xA0, 0x1680, 0x2028, 0x2029, 0x202F,
    0x205F, 0x3000, 0xFEFF] || (0x2000 ≤ c.toNat && c.toNat ≤ 0x200A)

/-- The result of `line.trim()`, as a list of characters. -/
def trim (cs : List Char) : List Char :=
  (((cs.dropWhile isJsWhitespace).reverse).dropWhile isJsWhitespace).reverse

/-- The result of `s.split(" ")[0]`: the characters before the first space. -/
def firstToken (cs : List Char) : List Char :=
  cs.takeWhile fun c => c != ' '

/-- The result of `s.split(",")` on a list of characters. -/
def splitComma : List Char → List (List Char)
  | [] => [[]]
  | c :: cs =>
    match splitComma cs with
    | [] => [[c]]
    | w :: ws => if c = ',' then [] :: w :: ws else (c :: w) :: ws

/-! ## JavaScript numbers -/

/-- A JavaScript number, given by its IEEE-754 binary64 bit pattern
(`bits` is read modulo `2^64`). -/
structure JsNumber where
  bits : Nat
deriving DecidableEq, Repr

namespace JsNumber

/-- The sign bit. -/
def sign (n : JsNumber) : Nat := n.bits / 2 ^ 63 % 2

/-- The biased exponent field. -/
def expo (n : JsNumber) : Nat := n.bits / 2 ^ 52 % 2048

/-- The fraction field. -/
def frac (n : JsNumber) : Nat := n.bits % 2 ^ 52

/-- Not-a-number test. -/
def isNaN (n : JsNumber) : Bool := n.expo == 2047 && n.frac != 0

/-- Finite test: neither NaN nor an infinity. -/
def isFinite (n : JsNumber) : Bool := n.expo != 2047

/-- Absolute value of the truncation toward zero of a finite number. -/
def magnitudeTrunc (n : JsNumber) : Nat :=
  if n.expo = 0 then 0
  else if 1075 ≤ n.expo then (2 ^ 52 + n.frac) * 2 ^ (n.expo - 1075)
  else (2 ^ 52 + n.frac) / 2 ^ (1075 - n.expo)

/-- Whether the number is finite with an integral value. -/
def isInteger (n : JsNumber) : Bool :=
  n.isFinite &&
    (if n.expo = 0 then n.frac == 0
     else if 1075 ≤ n.expo then true
     else (2 ^ 52 + n.frac) % 2 ^ (1075 - n.expo) == 0)

/-- Attach the sign of `n` to a magnitude. -/
def applySign (n : JsNumber) (m : Nat) : Int :=
  if n.sign = 1 then -(m : Int) else (m : Int)

/-- The mathematical value of an integral number, `none` for every other number. -/
def intValue? (n : JsNumber) : Option Int :=
  if n.isInteger then some (n.applySign n.magnitudeTrunc) else none

/-- Reduction of an integer into the signed 32-bit range. -/
def wrap32 (v : Int) : Int :=
  if 2 ^ 31 ≤ v % 2 ^ 32 then v % 2 ^ 32 - 2 ^ 32 else v % 2 ^ 32

/-- The abstract operation `ToInt32`, the value of `n|0`. -/
def toInt32 (n : JsNumber) : Int :=
  if n.isFinite then wrap32 (n.applySign n.magnitudeTrunc) else 0

end JsNumber

/-- Source `isFloat(n)`: `n === +n && n !== (n|0)`. -/
def isFloat (n : JsNumber) : Bool :=
  !n.isNaN && n.intValue? != some n.toInt32

/-- The `k` low bytes of `v`, least significant first. -/
def bytesLE (k v : Nat) : List Nat :=
  (List.range k).map fun i => v / 256 ^ i % 256

/-- The bytes read back from `new Int32Array(b)[0] = data`, on a little-endian
host. -/
def int32Bytes (n : JsNumber) : List Nat :=
  bytesLE 4 (n.toInt32 % 2 ^ 32).toNat

/-- The bytes read back from `new Float64Array(b)[0] = data`, on a
little-endian host. -/
def float64Bytes (n : JsNumber) : List Nat :=
  bytesLE 8 (n.bits % 2 ^ 64)

/-! ## Values and the compiler context -/

/-- The values that flow through `handle` and `call`: `undefined`, a string
(the stack marker or a constant reference), or the number produced by
`charCodeAt(0)` (`none` is `NaN`). -/
inductive JsVal where
  | undefined
  | str (s : String)
  | num (n : Option Nat)
deriving DecidableEq, Repr

/-- The argument of `addBinaryData`: a string (an identifier name or the value
of a string literal) or a number (the value of a numeric literal); the handlers
pass nothing else. -/
inductive Data where
  | str (s : String)
  | num (n : JsNumber)
deriving DecidableEq, Repr

/-- The closure variables of one `compileFunction` run. `locals` lists the
`(name, offset)` assignments, the latest first. -/
structure Ctx where
  exportNames : List String
  locals : List (String × Nat)
  constData : List (List Nat)
  assembly : List String
deriving DecidableEq, Repr

/-- Result of running a piece of the compiler: it returns `v` in context `x`,
or a `TypeError` propagates out of it with the context as it was left. -/
inductive Outcome (α : Type) where
  | ok (v : α) (x : Ctx)
  | threw (x : Ctx)
deriving DecidableEq, Repr

/-- The context in which an outcome leaves the compiler. -/
def Outcome.ctx {α : Type} : Outcome α → Ctx
  | .ok _ x => x
  | .threw x => x

/-- Source `stackValue()`. -/
def stackValue : JsVal := .str "[stack]"

/-- Source `isStackValue(x)`: `x == "[stack]"`. -/
def isStackValue : JsVal → Bool
  | .str s => s == "[stack]"
  | _ => false

/-- JavaScript truthiness, the test of `if (v)`. -/
def truthy : JsVal → Bool
  | .undefined => false
  | .str s => s != ""
  | .num none => false
  | .num (some n) => n != 0

/-- Number-to-string conversion of a `charCodeAt` result. -/
def numToString : Option Nat → String
  | none => "NaN"
  | some n => toString n

/-- Source `getLocalOffset(name)`. -/
def getLocalOffset (x : Ctx) (name : String) : Option Nat :=
  x.locals.lookup name

/-- Source `out(data, comment)`: the line is appended to `assembly`. -/
def out (line : String) (x : Ctx) : Ctx :=
  { x with assembly := x.assembly ++ [line] }

/-! ## The constant pool -/

/-- The string compared against the pool: a string gets its zero terminator, a
number is replaced by the characters of its 4 or 8 bytes. -/
def encode : Data → List Nat
  | .str s => codeUnits s ++ [0]
  | .num n => if isFloat n then float64Bytes n else int32Bytes n

/-- The `prefix` variable of `addBinaryData`: `*` marks a pointer. -/
def pointerMark : Data → String
  | .str _ => "*"
  | .num _ => ""

/-- The index of the first element equal to `a`: the search loop of
`addBinaryData` over `constData`, and `Array.prototype.indexOf`. -/
def firstIndex? {α : Type} [DecidableEq α] (a : α) : List α → Option Nat
  | [] => none
  | b :: l => if a = b then some 0 else (firstIndex? a l).map fun n => n + 1

/-- The index `addBinaryData` puts in the reference: that of the first entry
equal to the data, or the index the data gets when pushed. -/
def poolIndex (bytes : List Nat) (constData : List (List Nat)) : Nat :=
  match firstIndex? bytes constData with
  | some n => n
  | none => constData.length

/-- Source `addBinaryData(data)`: the reference and the updated context. -/
def addBinaryData (data : Data) (x : Ctx) : String × Ctx :=
  match firstIndex? (encode data) x.constData with
  | some n => (pointerMark data ++ "const_" ++ toString n, x)
  | none =>
    (pointerMark data ++ "const_" ++ toString x.constData.length,
      { x with constData := x.constData ++ [encode data] })

/-! ## Code size -/

/-- Whether `line.trim().substr(-1)` is `":"`. -/
def isLabel (line : String) : Bool :=
  (trim line.toList).getLast? == some ':'

/-- The `bigOnes` table: mnemonics of 4-byte instructions. -/
def bigOnes : List (List Char) := ["bl".toList, "movw".toList, ".word".toList]

/-- What one line adds to `s` inside `getCodeSize`. -/
def lineSize (line : String) : Nat :=
  if isLabel line then 0
  else if firstToken (trim line.toList) ∈ bigOnes then 4 else 2

/-- Source `getCodeSize()` over the lines emitted so far. -/
def getCodeSize (assembly : List String) : Nat :=
  assembly.foldl (fun s line => s + lineSize line) 0

/-- The statement `if (x.getCodeSize()&2) x.out("  nop")`. -/
def alignPad (x : Ctx) : Ctx :=
  if getCodeSize x.assembly &&& 2 ≠ 0 then out "  nop" x else x

/-! ## Call lowering -/

/-- One turn of the argument loop of `call`, for the argument `arg` at position
`i`. On `undefined` the pad statement runs and `arg[0]` then raises. -/
def loadArg (i : Nat) (arg : JsVal) (x : Ctx) : Outcome Unit :=
  if isStackValue arg then
    .ok () (out ("  pop \x7br" ++ toString i ++ "\x7d") x)
  else
    match arg with
    | .num n => .ok () (out ("  movs r" ++ toString i ++ ", #" ++ numToString n) x)
    | .undefined => .threw (alignPad x)
    | .str s =>
      if s.toList.head? = some '*' then
        .ok () (out ("  adr r" ++ toString i ++ ", " ++ String.mk (s.toList.drop 1)) (alignPad x))
      else
        .ok () (out ("  ldr r" ++ toString i ++ ", " ++ s) (alignPad x))

/-- The loop `for (var i=arguments.length-2;i>=0;i--)` over the arguments from
position `i` on: the later arguments are loaded first. -/
def loadArgs (i : Nat) : List JsVal → Ctx → Outcome Unit
  | [], x => .ok () x
  | arg :: rest, x =>
    match loadArgs (i + 1) rest x with
    | .threw x1 => .threw x1
    | .ok _ x1 => loadArg i arg x1

/-- The branch of `call` on `exportNames.indexOf(name)`. -/
def emitBranch (name : String) (x : Ctx) : Ctx :=
  match firstIndex? name x.exportNames with
  | some exportIdx =>
    out "  bl     trampoline"
      (out ("  ldr    r7, [r7, #" ++ toString (exportIdx * 4) ++ "]")
        (out "  ldr    r7, exports" (alignPad x)))
  | none => out ("  bl " ++ name) x

/-- Source `call(name, ...args)`. -/
def call (name : String) (args : List JsVal) (x : Ctx) : Outcome JsVal :=
  match loadArgs 0 args x with
  | .threw x1 => .threw x1
  | .ok _ x1 =>
    if name != "jsvUnLock" then .ok stackValue (out "  push \x7br0\x7d" (emitBranch name x1))
    else .ok .undefined (emitBranch name x1)

/-! ## The syntax tree and the handlers -/

/-- The `value` of a `Literal` node by `typeof`: a string, a number, or anything
else (boolean, `null`, regular expression). -/
inductive LitValue where
  | str (s : String)
  | num (n : JsNumber)
  | other
deriving DecidableEq, Repr

/-- The nodes of the parsed program that `handle` can meet. `Other` stands for
every node type without an entry in `handlers`. -/
inductive Node where
  | BlockStatement (body : List Node)
  | ReturnStatement (argument : Option Node)
  | ExpressionStatement (expression : Node)
  | AssignmentExpression (operator : String) (left right : Node)
  | BinaryExpression (operator : String) (left right : Node)
  | Literal (value : LitValue)
  | Identifier (name : String)
  | Other (type : String)

/-- Source `node.operator.charCodeAt(0)`. -/
def charCodeAt0 (operator : String) : Option Nat :=
  (codeUnits operator).head?

mutual
/-- Source `handle(node)` with the entries of `handlers` inlined. A
`ReturnStatement` without argument passes `null` to `handle`, where `node.type`
raises. -/
def handle : Node → Ctx → Outcome JsVal
  | .BlockStatement body, x =>
    match handleEach body x with
    | .threw x1 => .threw x1
    | .ok _ x1 => .ok .undefined x1
  | .ReturnStatement none, x => .threw x
  | .ReturnStatement (some argument), x =>
    match handle argument x with
    | .threw x1 => .threw x1
    | .ok v x1 =>
      .ok .undefined (out "  b end_of_fn" (if truthy v then out "  pop \x7br0\x7d" x1 else x1))
  | .ExpressionStatement expression, x => handle expression x
  | .AssignmentExpression _ left right, x =>
    match handle left x with
    | .threw x1 => .threw x1
    | .ok l x1 =>
      match handle right x1 with
      | .threw x2 => .threw x2
      | .ok r x2 => call "jspReplaceWith" [l, r] x2
  | .BinaryExpression operator left right, x =>
    match handle left x with
    | .threw x1 => .threw x1
    | .ok l x1 =>
      match handle right x1 with
      | .threw x2 => .threw x2
      | .ok r x2 => call "jsvMathsOp" [l, r, .num (charCodeAt0 operator)] x2
  | .Literal (.str s), x =>
    call "jsvNewFromString" [.str (addBinaryData (.str s) x).1] (addBinaryData (.str s) x).2
  | .Literal (.num n), x =>
    if isFloat n then
      call "jsvNewFromFloat" [.str (addBinaryData (.num n) x).1] (addBinaryData (.num n) x).2
    else
      call "jsvNewFromInteger" [.str (addBinaryData (.num n) x).1] (addBinaryData (.num n) x).2
  | .Literal .other, x => .ok .undefined x
  | .Identifier name, x =>
    match getLocalOffset x name with
    | some localOffset =>
      .ok stackValue (out "  push \x7br0\x7d" (out ("  ldr r0, [sp,#" ++ toString localOffset ++ "]") x))
    | none =>
      call "jspeiFindInScopes" [.str (addBinaryData (.str name) x).1] (addBinaryData (.str name) x).2
  | .Other _, x => .ok .undefined x
/-- The statement loop shared by the `BlockStatement` handler and the body
traversal of `compileFunction`: handle each statement, release its value. -/
def handleEach : List Node → Ctx → Outcome Unit
  | [], x => .ok () x
  | s :: rest, x =>
    match handle s x with
    | .threw x1 => .threw x1
    | .ok v x1 =>
      if truthy v then
        match call "jsvUnLock" [v] x1 with
        | .threw x2 => .threw x2
        | .ok _ x2 => handleEach rest x2
      else handleEach rest x1
end

/-! ## The function compiler -/

/-- A top-level `FunctionDeclaration`: its source span (`start`, and `stop` for
the source `end`), `id.name`, the `name` of each parameter node (the key under
which `locals` records it) and the statements `body.body`. -/
structure FunctionDeclaration where
  start : Nat
  stop : Nat
  id : String
  params : List String
  body : List Node

/-- The first `node.params.forEach`, from parameter index `idx` on. -/
def pushParams : List String → Nat → Ctx → Ctx
  | [], _, x => x
  | p :: ps, idx, x =>
    pushParams ps (idx + 1)
      (out ("  push \x7br" ++ toString idx ++ "\x7d") { x with locals := (p, idx) :: x.locals })

/-- The second `node.params.forEach`: one `pop {r3}` per parameter. -/
def popParams : List String → Ctx → Ctx
  | [], x => x
  | _ :: ps, x => popParams ps (out "  pop \x7br3\x7d" x)

/-- The 32-bit pattern of `c.charCodeAt(i) << k`; `NaN` shifts to 0. -/
def shiftedCode (c : List Nat) (i k : Nat) : Nat :=
  match c.get? i with
  | none => 0
  | some v => v * 2 ^ k % 2 ^ 32

/-- The value of `word` for the four characters of `c` from `i`: the bitwise
or of JavaScript is a signed 32-bit integer. -/
def word (c : List Nat) (i : Nat) : Int :=
  JsNumber.wrap32 ((shiftedCode c i 0 ||| shiftedCode c (i + 1) 8 |||
    shiftedCode c (i + 2) 16 ||| shiftedCode c (i + 3) 24 : Nat) : Int)

/-- Source `word.toString(16)`. -/
def toString16 (w : Int) : String :=
  if w < 0 then "-" ++ String.mk (Nat.toDigits 16 w.natAbs)
  else String.mk (Nat.toDigits 16 w.toNat)

/-- The `.word` lines of one entry: the loop `for (var i=0;i<c.length;i+=4)`. -/
def wordLines (c : List Nat) : List String :=
  (List.range ((c.length + 3) / 4)).map fun j => "  .word 0x" ++ toString16 (word c (4 * j))

/-- Source `constData.forEach(function(c,n) {...})`, from index `n` on. -/
def emitConstants : List (List Nat) → Nat → Ctx → Ctx
  | [], _, x => x
  | c :: cs, n, x =>
    emitConstants cs (n + 1)
      ((wordLines c).foldl (fun x1 line => out line x1) (out ("const_" ++ toString n ++ ":") x))

/-- The board data: `EXPORT[0]`, the comma separated names, and `EXPORT[1]`. -/
structure Export where
  names : String
  ptr : Nat
deriving DecidableEq, Repr

/-- The context at the start of `compileFunction`. -/
def initialCtx (e : Export) : Ctx :=
  { exportNames := (splitComma e.names.toList).map String.mk
    locals := []
    constData := []
    assembly := [] }

/-- The part of `compileFunction` after the body traversal, from `end_of_fn:`
to the constants. -/
def finishFunction (e : Export) (node : FunctionDeclaration) (x : Ctx) : Ctx :=
  let x1 := out "  bx r7" (out "trampoline:" (out "  bx lr" (out "  pop \x7br7,lr\x7d"
    (popParams node.params (out "end_of_fn:" x)))))
  let x2 := out ("  .word " ++ toString e.ptr) (out "exports:" (alignPad x1))
  emitConstants x2.constData 0 x2

/-- The emitting part of `compileFunction`: everything up to the constants. The
body traversal skips the statement of index 0. -/
def compileAssembly (e : Export) (node : FunctionDeclaration) : Outcome Unit :=
  match handleEach (node.body.drop 1)
      (pushParams node.params 0 (out "  push \x7br7,lr\x7d" (initialCtx e))) with
  | .threw x => .threw x
  | .ok _ x => .ok () (finishFunction e node x)

/-- One character inside `JSON.stringify` of a string. -/
def jsonEscape (c : Char) : List Char :=
  if c = Char.ofNat 34 then [Char.ofNat 92, Char.ofNat 34]
  else if c = Char.ofNat 92 then [Char.ofNat 92, Char.ofNat 92]
  else if c = Char.ofNat 8 then [Char.ofNat 92, 'b']
  else if c = Char.ofNat 12 then [Char.ofNat 92, 'f']
  else if c = Char.ofNat 10 then [Char.ofNat 92, 'n']
  else if c = Char.ofNat 13 then [Char.ofNat 92, 'r']
  else if c = Char.ofNat 9 then [Char.ofNat 92, 't']
  else if c.toNat < 32 then
    [Char.ofNat 92, 'u', '0', '0', Nat.digitChar (c.toNat / 16), Nat.digitChar (c.toNat % 16)]
  else [c]

/-- Source `JSON.stringify` on a line. -/
def jsonStringify (line : String) : String :=
  String.mk ([Char.ofNat 34] ++ line.toList.flatMap jsonEscape ++ [Char.ofNat 34])

/-- Source `paramSpec`: one `JsVar` per parameter, joined by commas. -/
def paramSpec (node : FunctionDeclaration) : String :=
  "JsVar (" ++ String.intercalate "," (node.params.map fun _ => "JsVar") ++ ")"

/-- The declaration `compileFunction` returns for the emitted lines. -/
def wrapAsm (node : FunctionDeclaration) (assembly : List String) : String :=
  "var " ++ node.id ++ " = " ++ "E.asm(\"" ++ paramSpec node ++ "\",\n  " ++
    String.intercalate ",\n  " (assembly.map jsonStringify) ++ ");"

/-- How a JavaScript function ends: it returns a value or an exception leaves it. -/
inductive Completion (α : Type) where
  | returned (v : α)
  | threw
deriving DecidableEq, Repr

/-- Source `compileFunction(node)`: `undefined` without board `EXPORT`. -/
def compileFunction (board : Option Export) (node : FunctionDeclaration) :
    Completion (Option String) :=
  match board with
  | none => .returned none
  | some e =>
    match compileAssembly e node with
    | .threw _ => .threw
    | .ok _ x => .returned (some (wrapAsm node x.assembly))

/-! ## The driver -/

/-- A statement of the program body: a function declaration or anything else. -/
inductive TopLevel where
  | FunctionDeclaration (f : FunctionDeclaration)
  | Other

/-- The test of `compileCode` on a function declaration: its first statement is
the expression statement of the literal `"compiled"`. -/
def eligible (node : FunctionDeclaration) : Bool :=
  match node.body with
  | .ExpressionStatement (.Literal (.str s)) :: _ => s == "compiled"
  | _ => false

/-- The loop `ast.body.forEach` of `compileCode` on the running `code` and
`offset`; the result is the text handed to the callback. -/
def compileLoop (board : Option Export) :
    List TopLevel → List Nat → Nat → Completion (List Nat)
  | [], code, _ => .returned code
  | .Other :: rest, code, offset => compileLoop board rest code offset
  | .FunctionDeclaration node :: rest, code, offset =>
    if eligible node then
      match compileFunction board node with
      | .threw => .threw
      | .returned none => compileLoop board rest code offset
      | .returned (some asm) =>
        if asm != "" then
          compileLoop board rest
            (code.take (node.start + offset) ++ codeUnits asm ++ code.drop (node.stop + offset))
            (offset + ((node.stop - node.start) + (codeUnits asm).length))
        else compileLoop board rest code offset
    else compileLoop board rest code offset

/-- Source `compileCode(code, callback)` on the text `code` and the program body
`ast` that the parser returns for it: the text passed to `callback`, or `threw`
when an exception leaves `compileCode` before the callback is reached. -/
def compileCode (board : Option Export) (code : List Nat) (ast : List TopLevel) :
    Completion (List Nat) :=
  compileLoop board ast code 0

/-! ## Specification vocabulary -/

/-- A pc-relative load line: `adr rN, <label>` or `ldr rN, <label>` (an `ldr`
without a bracketed address), which includes `ldr r7, exports`. -/
def isPcRelLoad (line : String) : Bool :=
  line.toList.take 6 == "  adr ".toList ||
    (line.toList.take 6 == "  ldr ".toList && !line.toList.contains '[')

/-- The alignment invariant of a stream: the code size before every pc-relative
load is a multiple of 4, and the code size before every `nop` is 2 modulo 4. -/
def AlignedStream (lines : List String) : Prop :=
  ∀ (i : Nat) (line : String), lines.get? i = some line →
    (isPcRelLoad line = true → getCodeSize (lines.take i) % 4 = 0) ∧
    (line = "  nop" → getCodeSize (lines.take i) % 4 = 2)

/-- A line that is neither a pc-relative load nor a pad. -/
def isPlainLine (line : String) : Bool :=
  !isPcRelLoad line && line.toList.take 3 != "  n".toList

/-- What a property of the context must respect to survive every step of the
compiler: a plain line, the pad statement, a line emitted right after the pad
statement, and an insertion into the constant pool. -/
structure StepInvariant (P : Ctx → Prop) : Prop where
  plain : ∀ (line : String) (x : Ctx), isPlainLine line = true → P x → P (out line x)
  pad : ∀ (x : Ctx), P x → P (alignPad x)
  load : ∀ (line : String) (x : Ctx), (line.toList.take 3 != "  n".toList) = true →
    P x → P (out line (alignPad x))
  pool : ∀ (d : Data) (x : Ctx), P x → P (addBinaryData d x).2

/-- Successive `addBinaryData` calls on the values `ds`, in order. -/
def internAll (ds : List Data) (x : Ctx) : Ctx :=
  ds.foldl (fun x1 d => (addBinaryData d x1).2) x

/-- The distinct elements of a list in the order of their first occurrence. -/
def firstSeen : List (List Nat) → List (List Nat)
  | [] => []
  | a :: l => a :: (firstSeen l).filter fun b => b != a

/-- The lines of the emitted constant pool for the entries `cs`, the first of
which has index `n`: a label and the words of each entry. -/
def constantLines : List (List Nat) → Nat → List String
  | [], _ => []
  | c :: cs, n => ("const_" ++ toString n ++ ":") :: (wordLines c ++ constantLines cs (n + 1))

/-- The unsigned little-endian value of the four bytes of `b` from position
`4 * j`, bytes past the end counting as zero. -/
def leWord (b : List Nat) (j : Nat) : Nat :=
  (b.get? (4 * j)).getD 0 + 2 ^ 8 * (b.get? (4 * j + 1)).getD 0 +
    2 ^ 16 * (b.get? (4 * j + 2)).getD 0 + 2 ^ 24 * (b.get? (4 * j + 3)).getD 0

mutual
/-- Expressions built from the node kinds that have a handler and yield a value. -/
def supportedExpr : Node → Bool
  | .Identifier _ => true
  | .Literal (.str _) => true
  | .Literal (.num _) => true
  | .BinaryExpression _ left right => supportedExpr left && supportedExpr right
  | .AssignmentExpression _ left right => supportedExpr left && supportedExpr right
  | _ => false
/-- Statements built from the node kinds that have a handler. -/
def supportedStmt : Node → Bool
  | .ExpressionStatement expression => supportedExpr expression
  | .ReturnStatement (some argument) => supportedExpr argument
  | .BlockStatement body => supportedStmts body
  | _ => false
/-- Statement lists of supported statements. -/
def supportedStmts : List Node → Bool
  | [] => true
  | s :: rest => supportedStmt s && supportedStmts rest
end

/-- The context in which the body traversal of `compileFunction` starts. -/
def bodyStart (e : Export) (node : FunctionDeclaration) : Ctx :=
  pushParams node.params 0 (out "  push \x7br7,lr\x7d" (initialCtx e))

/-- The context in which the body traversal of `compileFunction` ends. -/
def bodyEnd (e : Export) (node : FunctionDeclaration) : Ctx :=
  (handleEach (node.body.drop 1) (bodyStart e node)).ctx

/-- The lines the body traversal emits: the lowering of the statements after
the marker. -/
def bodyLowering (e : Export) (node : FunctionDeclaration) : List String :=
  (bodyEnd e node).assembly.drop (node.params.length + 1)

/-- The instruction stream of a compiled function, part by part, with the
optional pad `pad` before the export table. -/
def expectedStream (e : Export) (node : FunctionDeclaration) (pad : List String) : List String :=
  ["  push \x7br7,lr\x7d"] ++
    (List.range node.params.length).map (fun i => "  push \x7br" ++ toString i ++ "\x7d") ++
    bodyLowering e node ++
    ["end_of_fn:"] ++
    List.replicate node.params.length "  pop \x7br3\x7d" ++
    ["  pop \x7br7,lr\x7d", "  bx lr", "trampoline:", "  bx r7"] ++
    pad ++
    ["exports:", "  .word " ++ toString e.ptr] ++
    constantLines (bodyEnd e node).constData 0

/-! ## Sample inputs -/

/-- The marker statement `"compiled";`. -/
def marker : Node := .ExpressionStatement (.Literal (.str "compiled"))

/-- The export table of the scenario: `jsvMathsOp,jsvNewFromInteger` at `0x1000`. -/
def sampleExport : Export := { names := "jsvMathsOp,jsvNewFromInteger", ptr := 0x1000 }

/-- The function `function foo(a,b){"compiled"; return a+b;}`. -/
def fooDecl : FunctionDeclaration :=
  { start := 0, stop := 42, id := "foo", params := ["a", "b"],
    body := [marker,
      .ReturnStatement (some (.BinaryExpression "+" (.Identifier "a") (.Identifier "b")))] }

/-- The number `0.1`. -/
def oneTenth : JsNumber := { bits := 0x3FB999999999999A }

/-- The text `function f(){"compiled";}function g(){"compiled";}`. -/
def twoFunctionsText : List Nat :=
  codeUnits "function f()\x7b\"compiled\";\x7dfunction g()\x7b\"compiled\";\x7d"

/-- The declaration of `f` in `twoFunctionsText`. -/
def fDecl : FunctionDeclaration :=
  { start := 0, stop := 25, id := "f", params := [], body := [marker] }

/-- The declaration of `g` in `twoFunctionsText`. -/
def gDecl : FunctionDeclaration :=
  { start := 25, stop := 50, id := "g", params := [], body := [marker] }

/-- The declaration `function h(a){"compiled"; return a+k(a);}`; the call
`k(a)` is a `CallExpression`, a node type without handler. -/
def callOperandDecl : FunctionDeclaration :=
  { start := 0, stop := 41, id := "h", params := ["a"],
    body := [marker, .ReturnStatement (some
      (.BinaryExpression "+" (.Identifier "a") (.Other "CallExpression")))] }

/-- The declaration `function h(x){"compiled"; x = true;}`. -/
def boolAssignDecl : FunctionDeclaration :=
  { start := 0, stop := 36, id := "h", params := ["x"],
    body := [marker, .ExpressionStatement
      (.AssignmentExpression "=" (.Identifier "x") (.Literal .other))] }

/-- The declaration `function h(){"compiled"; return;}`. -/
def bareReturnDecl : FunctionDeclaration :=
  { start := 0, stop := 33, id := "h", params := [], body := [marker, .ReturnStatement none] }

/-- The declaration `function h(){"compiled"; return 0.1;}`. -/
def tenthDecl : FunctionDeclaration :=
  { start := 0, stop := 37, id := "h", params := [],
    body := [marker, .ReturnStatement (some (.Literal (.num oneTenth)))] }

/-! ## Vocabulary for call lowering -/

/-- The kinds of argument `call` is given: the on-stack value, a number, a
pointer constant reference `*const_k`, a scalar constant reference `const_k`. -/
inductive ArgKind where
  | onStack
  | number (n : Option Nat)
  | pointerRef (k : Nat)
  | scalarRef (k : Nat)
deriving DecidableEq, Repr

/-- The JavaScript value of an argument of each kind. -/
def ArgKind.toJsVal : ArgKind → JsVal
  | .onStack => stackValue
  | .number n => .num n
  | .pointerRef k => .str ("*const_" ++ toString k)
  | .scalarRef k => .str ("const_" ++ toString k)

/-- Whether the argument is a constant reference, loaded after the pad
statement. -/
def ArgKind.isRef : ArgKind → Bool
  | .pointerRef _ => true
  | .scalarRef _ => true
  | _ => false

/-- The line that loads an argument of each kind into register `r<i>`. -/
def ArgKind.loadLine (i : Nat) : ArgKind → String
  | .onStack => "  pop \x7br" ++ toString i ++ "\x7d"
  | .number n => "  movs r" ++ toString i ++ ", #" ++ numToString n
  | .pointerRef k => "  adr r" ++ toString i ++ ", " ++ ("const_" ++ toString k)
  | .scalarRef k => "  ldr r" ++ toString i ++ ", " ++ ("const_" ++ toString k)

/-- The load lines of the arguments `args`, the first of which has position
`i`, in the order last argument first. -/
def expectedLoads (i : Nat) : List ArgKind → List String
  | [] => []
  | a :: rest => expectedLoads (i + 1) rest ++ [a.loadLine i]

/-! ## More sample inputs -/

/-- The declaration `function h(a,b){"compiled"; a += b;}`. -/
def compoundAssignDecl : FunctionDeclaration :=
  { start := 0, stop := 37, id := "h", params := ["a", "b"],
    body := [marker, .ExpressionStatement
      (.AssignmentExpression "+=" (.Identifier "a") (.Identifier "b"))] }

/-- The declaration `function h(a,b){"compiled"; a = b;}`. -/
def plainAssignDecl : FunctionDeclaration :=
  { start := 0, stop := 36, id := "h", params := ["a", "b"],
    body := [marker, .ExpressionStatement
      (.AssignmentExpression "=" (.Identifier "a") (.Identifier "b"))] }

/-- The declaration `function h(a,b){"compiled"; return a<=b;}`. -/
def lessEqualDecl : FunctionDeclaration :=
  { start := 0, stop := 42, id := "h", params := ["a", "b"],
    body := [marker, .ReturnStatement (some
      (.BinaryExpression "<=" (.Identifier "a") (.Identifier "b")))] }

/-- The declaration `function h(a,b){"compiled"; return a<b;}`. -/
def lessDecl : FunctionDeclaration :=
  { start := 0, stop := 41, id := "h", params := ["a", "b"],
    body := [marker, .ReturnStatement (some
      (.BinaryExpression "<" (.Identifier "a") (.Identifier "b")))] }

/-- The declaration `function h(a,b,c){"compiled"; return b;}`. -/
def threeParamsDecl : FunctionDeclaration :=
  { start := 0, stop := 39, id := "h", params := ["a", "b", "c"],
    body := [marker, .ReturnStatement (some (.Identifier "b"))] }

/-- The number `1`. -/
def one : JsNumber := { bits := 0x3FF0000000000000 }

/-- The number `2147483648`, the first integer above the signed 32-bit range. -/
def twoPow31 : JsNumber := { bits := 0x41E0000000000000 }

/-! ## Vocabulary for labels and references -/

/-- An indented line: an instruction or a directive, not a label. -/
def isIndented (line : String) : Bool :=
  line.toList.take 2 == "  ".toList

/-- A data label: `exports:` or a line starting with `const_`. -/
def isDataLabel (line : String) : Bool :=
  line == "exports:" || line.toList.take 6 == "const_".toList

/-- Data alignment of a stream: the code size before every data label is a
multiple of 4. -/
def DataAligned (lines : List String) : Prop :=
  ∀ (i : Nat) (line : String), lines.get? i = some line → isDataLabel line = true →
    getCodeSize (lines.take i) % 4 = 0

/-- The line loads the constant label `const_k` into a register:
`adr rN, const_k` or `ldr rN, const_k`. -/
def RefersTo (line : String) (k : Nat) : Prop :=
  ∃ i : Nat, line = "  adr r" ++ toString i ++ ", " ++ ("const_" ++ toString k) ∨
    line = "  ldr r" ++ toString i ++ ", " ++ ("const_" ++ toString k)

/-- The text after `const_` in a line of the shape `adr rN, const_...` or
`ldr rN, const_...`, where `N` is a run of digits. -/
def refTarget (line : String) : Option (List Char) :=
  if line.toList.take 7 == "  adr r".toList || line.toList.take 7 == "  ldr r".toList then
    if (((line.toList.drop 7).dropWhile Char.isDigit).take 8) == ", const_".toList then
      some (((line.toList.drop 7).dropWhile Char.isDigit).drop 8)
    else none
  else none

/-- A line that may stand in the body of a function when the pool has `n`
entries: it is indented, and if it loads a constant label, the label is that
of an entry below `n`. -/
def GoodLine (n : Nat) (line : String) : Prop :=
  isIndented line = true ∧
    ∀ t : List Char, refTarget line = some t → ∃ k : Nat, k < n ∧ t = (toString k).toList

/-- Every line emitted so far is good for the current pool. -/
def BodyGood (x : Ctx) : Prop :=
  ∀ l ∈ x.assembly, GoodLine x.constData.length l

/-- The values `handle` returns: the on-stack value or `undefined`. -/
def ValueOk : Outcome JsVal → Prop
  | .ok v _ => v = stackValue ∨ v = JsVal.undefined
  | .threw _ => True

/-- The arguments `call` gets from the handlers besides constant references:
a value returned by `handle`, or a number. -/
def IsValueArg (a : JsVal) : Prop :=
  a = stackValue ∨ a = JsVal.undefined ∨ ∃ n : Option Nat, a = JsVal.num n

/-! ## Vocabulary for the stack balance -/

/-- A single-register push: `push {rN}` with `N` a run of digits. -/
def isSinglePush (line : String) : Bool :=
  line.toList.take 9 == "  push \x7br".toList &&
    ((line.toList.drop 9).dropWhile Char.isDigit == ['\x7d'])

/-- A single-register pop: `pop {rN}` with `N` a run of digits. -/
def isSinglePop (line : String) : Bool :=
  line.toList.take 8 == "  pop \x7br".toList &&
    ((line.toList.drop 8).dropWhile Char.isDigit == ['\x7d'])

/-- What a line adds to the number of values on the stack. -/
def stackEffect (line : String) : Int :=
  if isSinglePush line then 1 else if isSinglePop line then -1 else 0

/-- Single-register pushes minus single-register pops of a list of lines. -/
def stackDelta (lines : List String) : Int :=
  (lines.map stackEffect).sum

/-- Starting with `s` values on the stack, the lines `lines` never pop from an
empty stack and change the number of values by `d`. -/
def Runs (s : Int) (lines : List String) (d : Int) : Prop :=
  stackDelta lines = d ∧ ∀ k : Nat, 0 ≤ s + stackDelta (lines.take k)

/-! # Theorems -/

/-! ## Code size and the pad statement -/

theorem lineSize_even (line : String) : lineSize line % 2 = 0 := by
  unfold lineSize
  split_ifs <;> rfl

theorem getCodeSize_snoc (lines : List String) (line : String) :
    getCodeSize (lines ++ [line]) = getCodeSize lines + lineSize line := by
  simp [getCodeSize, List.foldl_append]

theorem getCodeSize_even (lines : List String) : getCodeSize lines % 2 = 0 := by
  induction lines using List.reverseRecOn with
  | nil => rfl
  | append_singleton l a ih =>
    rw [getCodeSize_snoc]
    have := lineSize_even a
    omega

theorem and_two_eq (n : Nat) : n &&& 2 = 2 * (n / 2 % 2) := by
  have h1 : (n &&& 2) / 2 = n / 2 % 2 := by
    rw [Nat.and_div_two]; simp
  have h2 : (n &&& 2) % 2 = 0 := by
    have h := @Nat.and_mod_two_eq_one n 2
    have h3 : ¬ ((n &&& 2) % 2 = 1) := by
      rw [h]; simp
    omega
  omega

theorem and_two_ne_zero_iff (n : Nat) (h : n % 2 = 0) : (n &&& 2 ≠ 0) ↔ n % 4 = 2 := by
  rw [and_two_eq]; omega

@[simp] theorem out_assembly (line : String) (x : Ctx) :
    (out line x).assembly = x.assembly ++ [line] := rfl

@[simp] theorem out_constData (line : String) (x : Ctx) :
    (out line x).constData = x.constData := rfl

@[simp] theorem out_exportNames (line : String) (x : Ctx) :
    (out line x).exportNames = x.exportNames := rfl

@[simp] theorem out_locals (line : String) (x : Ctx) :
    (out line x).locals = x.locals := rfl

theorem alignPad_cases (x : Ctx) :
    (getCodeSize x.assembly % 4 = 0 ∧ alignPad x = x) ∨
    (getCodeSize x.assembly % 4 = 2 ∧ alignPad x = out "  nop" x) := by
  have he := getCodeSize_even x.assembly
  have hiff := and_two_ne_zero_iff _ he
  unfold alignPad
  split_ifs with hc
  · exact Or.inr ⟨hiff.mp hc, rfl⟩
  · refine Or.inl ⟨?_, rfl⟩
    have : ¬ getCodeSize x.assembly % 4 = 2 := fun h2 => hc (hiff.mpr h2)
    omega

theorem getCodeSize_alignPad (x : Ctx) : getCodeSize (alignPad x).assembly % 4 = 0 := by
  rcases alignPad_cases x with ⟨h, e⟩ | ⟨h, e⟩
  · rw [e]; exact h
  · rw [e, out_assembly, getCodeSize_snoc]
    have : lineSize "  nop" = 2 := by decide
    omega

@[simp] theorem alignPad_constData (x : Ctx) : (alignPad x).constData = x.constData := by
  rcases alignPad_cases x with ⟨_, e⟩ | ⟨_, e⟩ <;> simp [e]

@[simp] theorem alignPad_exportNames (x : Ctx) : (alignPad x).exportNames = x.exportNames := by
  rcases alignPad_cases x with ⟨_, e⟩ | ⟨_, e⟩ <;> simp [e]

@[simp] theorem alignPad_locals (x : Ctx) : (alignPad x).locals = x.locals := by
  rcases alignPad_cases x with ⟨_, e⟩ | ⟨_, e⟩ <;> simp [e]

/-! ## The constant pool: basic facts -/

theorem firstIndex?_eq_none {α : Type} [DecidableEq α] (a : α) (l : List α) :
    firstIndex? a l = none ↔ a ∉ l := by
  induction l with
  | nil => simp [firstIndex?]
  | cons b l ih =>
    unfold firstIndex?
    split_ifs with h
    · simp [h]
    · simp [ih, h]

theorem firstIndex?_eq_some {α : Type} [DecidableEq α] (a : α) (l : List α) (n : Nat) :
    firstIndex? a l = some n ↔ l.get? n = some a ∧ a ∉ l.take n := by
  induction l generalizing n with
  | nil => simp [firstIndex?]
  | cons b l ih =>
    unfold firstIndex?
    split_ifs with h
    · subst h
      cases n with
      | zero => simp
      | succ n => simp
    · cases n with
      | zero =>
        simp only [Option.map_eq_some', List.get?_cons_zero, Option.some.injEq, List.take_zero,
          List.not_mem_nil, not_false_eq_true, and_true]
        constructor
        · rintro ⟨k, _, hk⟩
          omega
        · intro hb
          exact absurd hb.symm h
      | succ n =>
        simp only [Option.map_eq_some', List.get?_cons_succ, List.take_succ_cons, List.mem_cons,
          not_or]
        constructor
        · rintro ⟨k, hk, hkn⟩
          have : k = n := by omega
          subst this
          exact ⟨((ih k).mp hk).1, h, ((ih k).mp hk).2⟩
        · rintro ⟨h1, _, h3⟩
          exact ⟨n, (ih n).mpr ⟨h1, h3⟩, rfl⟩

theorem firstIndex?_append_of_mem {α : Type} [DecidableEq α] {a : α} {l : List α} (t : List α)
    (h : a ∈ l) : firstIndex? a (l ++ t) = firstIndex? a l := by
  induction l with
  | nil => simp at h
  | cons b l ih =>
    simp only [List.cons_append, firstIndex?]
    split_ifs with hab
    · rfl
    · have : a ∈ l := by
        rcases List.mem_cons.mp h with h1 | h1
        · exact absurd h1 hab
        · exact h1
      have ih2 := ih this
      simp only [List.append_eq] at ih2 ⊢
      rw [ih2]

theorem firstIndex?_snoc_self {α : Type} [DecidableEq α] {a : α} {l : List α} (h : a ∉ l) :
    firstIndex? a (l ++ [a]) = some l.length := by
  rw [firstIndex?_eq_some]
  simp [h]

theorem addBinaryData_fst (d : Data) (x : Ctx) :
    (addBinaryData d x).1 =
      pointerMark d ++ "const_" ++ toString (poolIndex (encode d) x.constData) := by
  unfold addBinaryData poolIndex
  cases firstIndex? (encode d) x.constData <;> rfl

theorem addBinaryData_snd_of_mem (d : Data) (x : Ctx) (h : encode d ∈ x.constData) :
    (addBinaryData d x).2 = x := by
  unfold addBinaryData
  cases hf : firstIndex? (encode d) x.constData with
  | none => exact absurd h ((firstIndex?_eq_none _ _).mp hf)
  | some n => rfl

theorem addBinaryData_constData_of_not_mem (d : Data) (x : Ctx) (h : encode d ∉ x.constData) :
    (addBinaryData d x).2.constData = x.constData ++ [encode d] := by
  unfold addBinaryData
  rw [(firstIndex?_eq_none _ _).mpr h]

@[simp] theorem addBinaryData_assembly (d : Data) (x : Ctx) :
    (addBinaryData d x).2.assembly = x.assembly := by
  unfold addBinaryData
  cases firstIndex? (encode d) x.constData <;> rfl

@[simp] theorem addBinaryData_exportNames (d : Data) (x : Ctx) :
    (addBinaryData d x).2.exportNames = x.exportNames := by
  unfold addBinaryData
  cases firstIndex? (encode d) x.constData <;> rfl

@[simp] theorem addBinaryData_locals (d : Data) (x : Ctx) :
    (addBinaryData d x).2.locals = x.locals := by
  unfold addBinaryData
  cases firstIndex? (encode d) x.constData <;> rfl

theorem addBinaryData_constData (d : Data) (x : Ctx) :
    (addBinaryData d x).2.constData =
      if encode d ∈ x.constData then x.constData else x.constData ++ [encode d] := by
  split_ifs with h
  · rw [addBinaryData_snd_of_mem d x h]
  · exact addBinaryData_constData_of_not_mem d x h

theorem addBinaryData_mem (d : Data) (x : Ctx) : encode d ∈ (addBinaryData d x).2.constData := by
  rw [addBinaryData_constData]
  split_ifs with h
  · exact h
  · simp

theorem addBinaryData_extends (d : Data) (x : Ctx) :
    x.constData <+: (addBinaryData d x).2.constData := by
  rw [addBinaryData_constData]
  split_ifs with h
  · exact List.prefix_refl _
  · exact List.prefix_append _ _

/-- The index returned by a call is the first index of the data in every pool
that extends the pool left by the call. -/
theorem poolIndex_stable (d : Data) (x : Ctx) {q : List (List Nat)}
    (hq : (addBinaryData d x).2.constData <+: q) :
    firstIndex? (encode d) q = some (poolIndex (encode d) x.constData) := by
  obtain ⟨t, rfl⟩ := hq
  rw [firstIndex?_append_of_mem t (addBinaryData_mem d x)]
  unfold poolIndex
  cases hf : firstIndex? (encode d) x.constData with
  | some n =>
    have hm : encode d ∈ x.constData := by
      by_contra hc
      rw [(firstIndex?_eq_none _ _).mpr hc] at hf
      cases hf
    rw [addBinaryData_snd_of_mem d x hm, hf]
  | none =>
    have hm := (firstIndex?_eq_none _ _).mp hf
    rw [addBinaryData_constData_of_not_mem d x hm]
    exact firstIndex?_snoc_self hm

theorem wordLines_plain (c : List Nat) : ∀ l ∈ wordLines c, isPlainLine l = true := by
  intro l hl
  unfold wordLines at hl
  rw [List.mem_map] at hl
  obtain ⟨j, _, rfl⟩ := hl
  rfl

/-! ## Invariants of the emitted stream -/

theorem ne_nop_of_take {line : String} (h : (line.toList.take 3 != "  n".toList) = true) :
    line ≠ "  nop" := by
  intro hl
  subst hl
  revert h
  decide

theorem alignedStream_nil : AlignedStream [] := by
  intro i line h
  simp at h

theorem alignedStream_snoc {lines : List String} {line : String} (h : AlignedStream lines)
    (h1 : isPcRelLoad line = true → getCodeSize lines % 4 = 0)
    (h2 : line = "  nop" → getCodeSize lines % 4 = 2) :
    AlignedStream (lines ++ [line]) := by
  intro i l hl
  rcases Nat.lt_or_ge i lines.length with hi | hi
  · have e1 : (lines ++ [line]).get? i = lines.get? i := by
      simp [List.getElem?_append_left hi]
    have e2 : (lines ++ [line]).take i = lines.take i := by
      rw [List.take_append_of_le_length (Nat.le_of_lt hi)]
    rw [e1] at hl
    rw [e2]
    exact h i l hl
  · have hi2 : i = lines.length := by
      have : i < (lines ++ [line]).length := by
        by_contra hc
        have : (lines ++ [line]).get? i = none := by
          simp only [List.get?_eq_getElem?]
          exact List.getElem?_eq_none (Nat.le_of_not_lt hc)
        rw [this] at hl
        cases hl
      simp at this
      omega
    subst hi2
    have e1 : (lines ++ [line]).get? lines.length = some line := by
      simp
    have e2 : (lines ++ [line]).take lines.length = lines := by
      simp
    rw [e1] at hl
    cases hl
    rw [e2]
    exact ⟨h1, h2⟩

/-- The lines recognised as pc-relative loads: the three load shapes of `call`
are, the stack-relative and register-relative `ldr` lines are not. -/
theorem isPcRelLoad_samples :
    isPcRelLoad "  ldr r0, const_0" = true ∧ isPcRelLoad "  adr r1, const_2" = true ∧
    isPcRelLoad "  ldr    r7, exports" = true ∧ isPcRelLoad "  ldr r0, [sp,#0]" = false ∧
    isPcRelLoad "  ldr    r7, [r7, #4]" = false ∧ isPcRelLoad "  nop" = false := by
  decide

/-- The alignment invariant survives every step of the compiler. -/
theorem aligned_stepInvariant : StepInvariant fun x => AlignedStream x.assembly where
  plain := by
    intro line x hp h
    simp only [isPlainLine, Bool.and_eq_true, Bool.not_eq_true'] at hp
    refine alignedStream_snoc h ?_ ?_
    · intro hc
      rw [hp.1] at hc
      cases hc
    · intro hc
      exact absurd hc (ne_nop_of_take hp.2)
  pad := by
    intro x h
    rcases alignPad_cases x with ⟨_, e⟩ | ⟨h2, e⟩
    · rw [e]; exact h
    · rw [e]
      refine alignedStream_snoc h ?_ ?_
      · intro hl
        have hf : isPcRelLoad "  nop" = false := by decide
        rw [hf] at hl
        cases hl
      · intro _
        exact h2
  load := by
    intro line x hn h
    have hp : AlignedStream (alignPad x).assembly := by
      rcases alignPad_cases x with ⟨_, e⟩ | ⟨h2, e⟩
      · rw [e]; exact h
      · rw [e]
        refine alignedStream_snoc h ?_ ?_
        · intro hl
          have hf : isPcRelLoad "  nop" = false := by decide
          rw [hf] at hl
          cases hl
        · intro _
          exact h2
    refine alignedStream_snoc hp ?_ ?_
    · intro _
      exact getCodeSize_alignPad x
    · intro hc
      exact absurd hc (ne_nop_of_take hn)
  pool := by
    intro d x h
    rw [addBinaryData_assembly]
    exact h

/-! ## Every step of the compiler preserves a step invariant -/

section Invariant

variable {P : Ctx → Prop} (hP : StepInvariant P)
include hP

theorem loadArg_invariant (i : Nat) (arg : JsVal) (x : Ctx) (h : P x) :
    P (loadArg i arg x).ctx := by
  unfold loadArg
  split_ifs with hs
  · exact hP.plain _ _ rfl h
  · cases arg with
    | undefined => exact hP.pad _ h
    | num n => exact hP.plain _ _ rfl h
    | str s =>
      simp only
      split_ifs with hh
      · exact hP.load _ _ rfl h
      · exact hP.load _ _ rfl h

theorem loadArgs_invariant (args : List JsVal) :
    ∀ (i : Nat) (x : Ctx), P x → P (loadArgs i args x).ctx := by
  induction args with
  | nil => intro i x h; exact h
  | cons a rest ih =>
    intro i x h
    have h1 := ih (i + 1) x h
    unfold loadArgs
    cases hr : loadArgs (i + 1) rest x with
    | threw x1 => rw [hr] at h1; exact h1
    | ok v x1 =>
      rw [hr] at h1
      exact loadArg_invariant hP i a x1 h1

theorem emitBranch_invariant (name : String) (x : Ctx) (h : P x) :
    P (emitBranch name x) := by
  unfold emitBranch
  cases firstIndex? name x.exportNames with
  | some exportIdx => exact hP.plain _ _ rfl (hP.plain _ _ rfl (hP.load _ _ rfl h))
  | none => exact hP.plain _ _ rfl h

theorem call_invariant (name : String) (args : List JsVal) (x : Ctx) (h : P x) :
    P (call name args x).ctx := by
  have h1 := loadArgs_invariant hP args 0 x h
  unfold call
  cases hr : loadArgs 0 args x with
  | threw x1 => rw [hr] at h1; exact h1
  | ok v x1 =>
    rw [hr] at h1
    simp only
    split_ifs
    · exact hP.plain _ _ rfl (emitBranch_invariant hP name x1 h1)
    · exact emitBranch_invariant hP name x1 h1

mutual
theorem handle_invariant : ∀ (node : Node) (x : Ctx), P x → P (handle node x).ctx
  | .BlockStatement body, x, h => by
    have h1 := handleEach_invariant body x h
    rw [handle]
    cases hr : handleEach body x with
    | threw x1 => rw [hr] at h1; exact h1
    | ok v x1 => rw [hr] at h1; exact h1
  | .ReturnStatement none, x, h => by
    rw [handle]; exact h
  | .ReturnStatement (some a), x, h => by
    have h1 := handle_invariant a x h
    rw [handle]
    cases hr : handle a x with
    | threw x1 => rw [hr] at h1; exact h1
    | ok v x1 =>
      rw [hr] at h1
      simp only [Outcome.ctx]
      split_ifs
      · exact hP.plain _ _ rfl (hP.plain _ _ rfl h1)
      · exact hP.plain _ _ rfl h1
  | .ExpressionStatement e, x, h => by
    rw [handle]; exact handle_invariant e x h
  | .AssignmentExpression op l r, x, h => by
    have h1 := handle_invariant l x h
    rw [handle]
    cases hl : handle l x with
    | threw x1 => rw [hl] at h1; exact h1
    | ok lv x1 =>
      rw [hl] at h1
      have h2 := handle_invariant r x1 h1
      simp only
      cases hr : handle r x1 with
      | threw x2 => rw [hr] at h2; exact h2
      | ok rv x2 =>
        rw [hr] at h2
        exact call_invariant hP _ _ x2 h2
  | .BinaryExpression op l r, x, h => by
    have h1 := handle_invariant l x h
    rw [handle]
    cases hl : handle l x with
    | threw x1 => rw [hl] at h1; exact h1
    | ok lv x1 =>
      rw [hl] at h1
      have h2 := handle_invariant r x1 h1
      simp only
      cases hr : handle r x1 with
      | threw x2 => rw [hr] at h2; exact h2
      | ok rv x2 =>
        rw [hr] at h2
        exact call_invariant hP _ _ x2 h2
  | .Literal (.str s), x, h => by
    rw [handle]
    exact call_invariant hP _ _ _ (hP.pool _ _ h)
  | .Literal (.num n), x, h => by
    rw [handle]
    split_ifs
    · exact call_invariant hP _ _ _ (hP.pool _ _ h)
    · exact call_invariant hP _ _ _ (hP.pool _ _ h)
  | .Literal .other, x, h => by
    rw [handle]; exact h
  | .Identifier name, x, h => by
    rw [handle]
    cases hg : getLocalOffset x name with
    | some off => exact hP.plain _ _ rfl (hP.plain _ _ rfl h)
    | none => exact call_invariant hP _ _ _ (hP.pool _ _ h)
  | .Other t, x, h => by
    rw [handle]; exact h
theorem handleEach_invariant : ∀ (body : List Node) (x : Ctx), P x → P (handleEach body x).ctx
  | [], x, h => by rw [handleEach]; exact h
  | s :: rest, x, h => by
    have h1 := handle_invariant s x h
    rw [handleEach]
    cases hs : handle s x with
    | threw x1 => rw [hs] at h1; exact h1
    | ok v x1 =>
      rw [hs] at h1
      simp only
      split_ifs
      · have h2 := call_invariant hP "jsvUnLock" [v] x1 h1
        cases hc : call "jsvUnLock" [v] x1 with
        | threw x2 => rw [hc] at h2; exact h2
        | ok w x2 =>
          rw [hc] at h2
          exact handleEach_invariant rest x2 h2
      · exact handleEach_invariant rest x1 h1
end

theorem pushParams_invariant (ps : List String) :
    ∀ (idx : Nat) (x : Ctx), (∀ (l : List (String × Nat)) (y : Ctx), P y → P { y with locals := l }) →
      P x → P (pushParams ps idx x) := by
  induction ps with
  | nil => intro idx x _ h; exact h
  | cons p ps ih =>
    intro idx x hl h
    unfold pushParams
    exact ih (idx + 1) _ hl (hP.plain _ _ rfl (hl _ _ h))

theorem popParams_invariant (ps : List String) : ∀ (x : Ctx), P x → P (popParams ps x) := by
  induction ps with
  | nil => intro x h; exact h
  | cons p ps ih =>
    intro x h
    unfold popParams
    exact ih _ (hP.plain _ _ rfl h)

theorem outAll_invariant (lines : List String) (hl : ∀ l ∈ lines, isPlainLine l = true) :
    ∀ (x : Ctx), P x → P (lines.foldl (fun x1 line => out line x1) x) := by
  induction lines with
  | nil => intro x h; exact h
  | cons a rest ih =>
    intro x h
    rw [List.foldl_cons]
    exact ih (fun l hm => hl l (List.mem_cons_of_mem _ hm)) _
      (hP.plain _ _ (hl a (List.mem_cons_self _ _)) h)

theorem emitConstants_invariant (cs : List (List Nat)) :
    ∀ (n : Nat) (x : Ctx), P x → P (emitConstants cs n x) := by
  induction cs with
  | nil => intro n x h; exact h
  | cons c cs ih =>
    intro n x h
    unfold emitConstants
    exact ih (n + 1) _ (outAll_invariant hP _ (wordLines_plain c) _ (hP.plain _ _ rfl h))

theorem finishFunction_invariant (e : Export) (node : FunctionDeclaration) (x : Ctx) (h : P x) :
    P (finishFunction e node x) := by
  unfold finishFunction
  simp only
  exact emitConstants_invariant hP _ _ _ (hP.plain _ _ rfl (hP.plain _ _ rfl (hP.pad _
    (hP.plain _ _ rfl (hP.plain _ _ rfl (hP.plain _ _ rfl (hP.plain _ _ rfl
      (popParams_invariant hP _ _ (hP.plain _ _ rfl h)))))))))

theorem compileAssembly_invariant (e : Export) (node : FunctionDeclaration)
    (hl : ∀ (l : List (String × Nat)) (y : Ctx), P y → P { y with locals := l })
    (h0 : P (initialCtx e)) : P (compileAssembly e node).ctx := by
  have h1 : P (pushParams node.params 0 (out "  push \x7br7,lr\x7d" (initialCtx e))) :=
    pushParams_invariant hP _ 0 _ hl (hP.plain _ _ rfl h0)
  have h2 := handleEach_invariant hP (node.body.drop 1) _ h1
  unfold compileAssembly
  cases hr : handleEach (node.body.drop 1)
      (pushParams node.params 0 (out "  push \x7br7,lr\x7d" (initialCtx e))) with
  | threw x1 => rw [hr] at h2; exact h2
  | ok v x1 =>
    rw [hr] at h2
    exact finishFunction_invariant hP e node x1 h2

end Invariant

/-- C2. In the stream emitted for any function, whether the compilation
completes or an exception stops it, the code size before every pc-relative load
line (`adr rN, label`, `ldr rN, label`, `ldr r7, exports`) is a multiple of 4,
and the code size before every `nop` line is 2 modulo 4: the pad is emitted
exactly where it is needed. -/
theorem compileAssembly_aligned (e : Export) (node : FunctionDeclaration) :
    AlignedStream (compileAssembly e node).ctx.assembly :=
  compileAssembly_invariant aligned_stepInvariant e node (fun _ _ h => h) alignedStream_nil


/-! ## The constant pool: dedup and indices -/

/-- The pool only grows at its end, whatever the compiler does on a node. -/
theorem pool_prefix_stepInvariant (p : List (List Nat)) :
    StepInvariant fun x => p <+: x.constData where
  plain := fun _ _ _ h => h
  pad := fun x h => by rw [alignPad_constData]; exact h
  load := fun _ x _ h => by rw [out_constData, alignPad_constData]; exact h
  pool := fun d x h => List.IsPrefix.trans h (addBinaryData_extends d x)

/-- Handling a node leaves every pool entry where it is. -/
theorem handle_pool_extends (node : Node) (x : Ctx) :
    x.constData <+: (handle node x).ctx.constData :=
  handle_invariant (pool_prefix_stepInvariant x.constData) node x (List.prefix_refl _)

/-- Two calls return the same index exactly when their data are equal, the
second call being made on any extension of the pool left by the first. -/
theorem poolIndex_eq_iff (d1 d2 : Data) (x y : Ctx)
    (hy : (addBinaryData d1 x).2.constData <+: y.constData) :
    poolIndex (encode d1) x.constData = poolIndex (encode d2) y.constData ↔
      encode d1 = encode d2 := by
  have h1 := poolIndex_stable d1 x (List.IsPrefix.trans hy (addBinaryData_extends d2 y))
  have h2 := poolIndex_stable d2 y (List.prefix_refl _)
  generalize poolIndex (encode d1) x.constData = k1 at h1 ⊢
  generalize poolIndex (encode d2) y.constData = k2 at h2 ⊢
  constructor
  · intro he
    rw [he] at h1
    have g1 := ((firstIndex?_eq_some _ _ _).mp h1).1
    have g2 := ((firstIndex?_eq_some _ _ _).mp h2).1
    rw [g1] at g2
    exact Option.some.inj g2
  · intro he
    rw [he, h2] at h1
    exact (Option.some.inj h1).symm

/-- C5. Two `addBinaryData` calls of one compilation, the second made when the
pool extends the pool left by the first: each reference is the pointer mark,
`const_` and the pool index; values with the same mark and the same encoding
get the same reference and the second call leaves the context unchanged;
values with different encodings get different pool indices. -/
theorem addBinaryData_dedup (d1 d2 : Data) (x y : Ctx)
    (hy : (addBinaryData d1 x).2.constData <+: y.constData) :
    (addBinaryData d1 x).1 =
      pointerMark d1 ++ "const_" ++ toString (poolIndex (encode d1) x.constData) ∧
    (addBinaryData d2 y).1 =
      pointerMark d2 ++ "const_" ++ toString (poolIndex (encode d2) y.constData) ∧
    (pointerMark d1 = pointerMark d2 → encode d1 = encode d2 →
      (addBinaryData d2 y).1 = (addBinaryData d1 x).1 ∧ (addBinaryData d2 y).2 = y) ∧
    (encode d1 ≠ encode d2 →
      poolIndex (encode d1) x.constData ≠ poolIndex (encode d2) y.constData) := by
  refine ⟨addBinaryData_fst d1 x, addBinaryData_fst d2 y, ?_, ?_⟩
  · intro hm he
    constructor
    · rw [addBinaryData_fst, addBinaryData_fst, hm, ← (poolIndex_eq_iff d1 d2 x y hy).mpr he, he]
    · apply addBinaryData_snd_of_mem
      rw [← he]
      exact hy.subset (addBinaryData_mem d1 x)
  · intro hne hidx
    exact hne ((poolIndex_eq_iff d1 d2 x y hy).mp hidx)

/-- C5, witness: the string `"hi"` referenced twice resolves both times to
`const_0`, and the second reference adds nothing to the pool. -/
theorem addBinaryData_dedup_witness :
    (addBinaryData (.str "hi") (initialCtx sampleExport)).2.constData <+:
      (addBinaryData (.str "hi") (initialCtx sampleExport)).2.constData ∧
    (addBinaryData (.str "hi") (initialCtx sampleExport)).1 = "*const_0" ∧
    (addBinaryData (.str "hi") (addBinaryData (.str "hi") (initialCtx sampleExport)).2).1 =
      (addBinaryData (.str "hi") (initialCtx sampleExport)).1 ∧
    (addBinaryData (.str "hi") (addBinaryData (.str "hi") (initialCtx sampleExport)).2).2 =
      (addBinaryData (.str "hi") (initialCtx sampleExport)).2 :=
  ⟨List.prefix_refl _, by decide,
    ((addBinaryData_dedup (.str "hi") (.str "hi") (initialCtx sampleExport)
      (addBinaryData (.str "hi") (initialCtx sampleExport)).2 (List.prefix_refl _)).2.2.1
        rfl rfl).1,
    ((addBinaryData_dedup (.str "hi") (.str "hi") (initialCtx sampleExport)
      (addBinaryData (.str "hi") (initialCtx sampleExport)).2 (List.prefix_refl _)).2.2.1
        rfl rfl).2⟩

/-- C6, counterexample: the string of three NUL characters and the number 0
are interned in one compilation and share the pool entry 0; the pool holds the
single entry of four zero bytes. -/
theorem string_number_share_entry :
    (addBinaryData (.str "\x00\x00\x00") (initialCtx sampleExport)).1 = "*const_0" ∧
    (addBinaryData (.num ⟨0⟩)
      (addBinaryData (.str "\x00\x00\x00") (initialCtx sampleExport)).2).1 = "const_0" ∧
    poolIndex (encode (.str "\x00\x00\x00")) (initialCtx sampleExport).constData =
      poolIndex (encode (.num ⟨0⟩))
        (addBinaryData (.str "\x00\x00\x00") (initialCtx sampleExport)).2.constData ∧
    (addBinaryData (.num ⟨0⟩)
      (addBinaryData (.str "\x00\x00\x00") (initialCtx sampleExport)).2).2.constData =
        [[0, 0, 0, 0]] := by
  decide

/-- C6, amended. A string and a number interned in one compilation, in either
order, get the same pool index exactly when the code units of the string
followed by the zero terminator equal the bytes of the number; their
references always differ, the one of the string starting with `*`. -/
theorem string_number_entry_iff (s : String) (v : JsNumber) (x y : Ctx) :
    ((addBinaryData (.str s) x).2.constData <+: y.constData →
      (poolIndex (encode (.str s)) x.constData = poolIndex (encode (.num v)) y.constData ↔
        codeUnits s ++ [0] = encode (.num v))) ∧
    ((addBinaryData (.num v) x).2.constData <+: y.constData →
      (poolIndex (encode (.num v)) x.constData = poolIndex (encode (.str s)) y.constData ↔
        encode (.num v) = codeUnits s ++ [0])) ∧
    (addBinaryData (.str s) x).1 ≠ (addBinaryData (.num v) y).1 := by
  refine ⟨fun hy => poolIndex_eq_iff (.str s) (.num v) x y hy,
    fun hy => poolIndex_eq_iff (.num v) (.str s) x y hy, ?_⟩
  intro h
  have h1 : (addBinaryData (.str s) x).1.toList.head? = some '*' := by
    rw [addBinaryData_fst]; rfl
  have h2 : (addBinaryData (.num v) y).1.toList.head? = some 'c' := by
    rw [addBinaryData_fst]; rfl
  rw [h, h2] at h1
  revert h1
  decide

/-- C6, witness of the amended statement at the string of three NUL characters
and the number 0. -/
theorem string_number_entry_iff_witness :
    (addBinaryData (.str "\x00\x00\x00") (initialCtx sampleExport)).2.constData <+:
      (addBinaryData (.str "\x00\x00\x00") (initialCtx sampleExport)).2.constData ∧
    (poolIndex (encode (.str "\x00\x00\x00")) (initialCtx sampleExport).constData =
      poolIndex (encode (.num ⟨0⟩))
        (addBinaryData (.str "\x00\x00\x00") (initialCtx sampleExport)).2.constData ↔
      codeUnits "\x00\x00\x00" ++ [0] = encode (.num ⟨0⟩)) :=
  ⟨List.prefix_refl _,
    (string_number_entry_iff "\x00\x00\x00" ⟨0⟩ (initialCtx sampleExport)
      (addBinaryData (.str "\x00\x00\x00") (initialCtx sampleExport)).2).1 (List.prefix_refl _)⟩

theorem internAll_cons (d : Data) (ds : List Data) (x : Ctx) :
    internAll (d :: ds) x = internAll ds (addBinaryData d x).2 := rfl

theorem firstSeen_nodup (l : List (List Nat)) : (firstSeen l).Nodup := by
  induction l with
  | nil => exact List.nodup_nil
  | cons a l ih =>
    unfold firstSeen
    refine List.nodup_cons.mpr ⟨?_, ih.filter _⟩
    intro hm
    have := (List.mem_filter.mp hm).2
    simp at this

theorem internAll_constData (ds : List Data) : ∀ (x : Ctx),
    (internAll ds x).constData =
      x.constData ++ (firstSeen (ds.map encode)).filter fun b => decide (b ∉ x.constData) := by
  induction ds with
  | nil => intro x; simp [internAll, firstSeen]
  | cons d ds ih =>
    intro x
    rw [internAll_cons, ih, addBinaryData_constData]
    simp only [List.map_cons, firstSeen]
    by_cases h : encode d ∈ x.constData
    · rw [if_pos h, List.filter_cons_of_neg (by simpa using h), List.filter_filter]
      congr 1
      apply List.filter_congr
      intro b _
      by_cases hb : b ∈ x.constData
      · simp [hb]
      · have : b ≠ encode d := fun hc => hb (hc ▸ h)
        simp [hb, this]
    · rw [if_neg h, List.filter_cons_of_pos (by simpa using h), List.filter_filter,
        List.append_assoc, List.singleton_append]
      congr 2
      apply List.filter_congr
      intro b _
      by_cases hb : b ∈ x.constData
      · simp [hb]
      · by_cases hd : b = encode d
        · simp [hb, hd]
        · simp [hb, hd]

/-- C7. After any sequence of `addBinaryData` calls of one compilation the pool
is the list of the distinct encodings in first-seen order, so its entries are
pairwise distinct; and every call either finds its data in the pool, returns
the index of that entry and leaves the context unchanged, or appends the data
as the one new last entry and returns its index. -/
theorem pool_first_seen (e : Export) (ds : List Data) :
    (internAll ds (initialCtx e)).constData = firstSeen (ds.map encode) ∧
    (internAll ds (initialCtx e)).constData.Nodup ∧
    ∀ (d : Data) (x : Ctx),
      (encode d ∈ x.constData ∧ (addBinaryData d x).2 = x ∧
        x.constData.get? (poolIndex (encode d) x.constData) = some (encode d)) ∨
      (encode d ∉ x.constData ∧
        (addBinaryData d x).2.constData = x.constData ++ [encode d] ∧
        poolIndex (encode d) x.constData = x.constData.length) := by
  have h1 : (internAll ds (initialCtx e)).constData = firstSeen (ds.map encode) := by
    rw [internAll_constData]
    simp [initialCtx]
  refine ⟨h1, h1 ▸ firstSeen_nodup _, ?_⟩
  intro d x
  by_cases h : encode d ∈ x.constData
  · refine Or.inl ⟨h, addBinaryData_snd_of_mem d x h, ?_⟩
    have hs := poolIndex_stable d x (List.prefix_refl _)
    rw [addBinaryData_snd_of_mem d x h] at hs
    exact ((firstIndex?_eq_some _ _ _).mp hs).1
  · refine Or.inr ⟨h, addBinaryData_constData_of_not_mem d x h, ?_⟩
    unfold poolIndex
    rw [(firstIndex?_eq_none _ _).mpr h]

/-! ## The emitted words -/

theorem lor_eq_add_of_lt {a b i : Nat} (hb : b < 2 ^ i) : b ||| 2 ^ i * a = b + 2 ^ i * a := by
  rw [Nat.lor_comm, ← Nat.mul_add_lt_is_or hb a, Nat.add_comm]

/-- For bytes, the bitwise or of the shifted character codes is the unsigned
little-endian value. -/
theorem lor_bytes_eq (a b c d : Nat) (ha : a < 256) (hb : b < 256) (hc : c < 256)
    (hd : d < 256) :
    a * 2 ^ 0 % 2 ^ 32 ||| b * 2 ^ 8 % 2 ^ 32 ||| c * 2 ^ 16 % 2 ^ 32 ||| d * 2 ^ 24 % 2 ^ 32 =
      a + 2 ^ 8 * b + 2 ^ 16 * c + 2 ^ 24 * d := by
  have e0 : a * 2 ^ 0 % 2 ^ 32 = a := by omega
  have e1 : b * 2 ^ 8 % 2 ^ 32 = 2 ^ 8 * b := by omega
  have e2 : c * 2 ^ 16 % 2 ^ 32 = 2 ^ 16 * c := by omega
  have e3 : d * 2 ^ 24 % 2 ^ 32 = 2 ^ 24 * d := by omega
  rw [e0, e1, e2, e3]
  rw [lor_eq_add_of_lt (show a < 2 ^ 8 by omega),
    lor_eq_add_of_lt (show a + 2 ^ 8 * b < 2 ^ 16 by omega),
    lor_eq_add_of_lt (show a + 2 ^ 8 * b + 2 ^ 16 * c < 2 ^ 24 by omega)]

theorem shiftedCode_eq (c : List Nat) (i k : Nat) :
    shiftedCode c i k = (c.get? i).getD 0 * 2 ^ k % 2 ^ 32 := by
  unfold shiftedCode
  cases c.get? i <;> simp

theorem getD_lt_of_bytes {c : List Nat} (hc : ∀ b ∈ c, b < 256) (i : Nat) :
    (c.get? i).getD 0 < 256 := by
  cases h : c.get? i with
  | none => simp
  | some v =>
    simp only [Option.getD_some]
    exact hc v (List.get?_mem h)

/-- The value of `word` for an entry of bytes: the little-endian value read as
a signed 32-bit integer. -/
theorem word_eq_wrap32 (c : List Nat) (hc : ∀ b ∈ c, b < 256) (j : Nat) :
    word c (4 * j) = JsNumber.wrap32 (leWord c j : Nat) := by
  unfold word leWord
  rw [shiftedCode_eq, shiftedCode_eq, shiftedCode_eq, shiftedCode_eq,
    lor_bytes_eq _ _ _ _ (getD_lt_of_bytes hc _) (getD_lt_of_bytes hc _)
      (getD_lt_of_bytes hc _) (getD_lt_of_bytes hc _)]

theorem leWord_lt (c : List Nat) (hc : ∀ b ∈ c, b < 256) (j : Nat) : leWord c j < 2 ^ 32 := by
  unfold leWord
  have h0 := getD_lt_of_bytes hc (4 * j)
  have h1 := getD_lt_of_bytes hc (4 * j + 1)
  have h2 := getD_lt_of_bytes hc (4 * j + 2)
  have h3 := getD_lt_of_bytes hc (4 * j + 3)
  omega

/-- A word whose fourth byte is below 0x80 is printed as the hexadecimal
numeral of its unsigned little-endian value. -/
theorem toString16_word_of_small (c : List Nat) (hc : ∀ b ∈ c, b < 256) (j : Nat)
    (h : (c.get? (4 * j + 3)).getD 0 < 128) :
    toString16 (word c (4 * j)) = String.mk (Nat.toDigits 16 (leWord c j)) := by
  have hlt : leWord c j < 2 ^ 31 := by
    unfold leWord
    have h0 := getD_lt_of_bytes hc (4 * j)
    have h1 := getD_lt_of_bytes hc (4 * j + 1)
    have h2 := getD_lt_of_bytes hc (4 * j + 2)
    omega
  rw [word_eq_wrap32 c hc j]
  unfold JsNumber.wrap32 toString16
  have e : ((leWord c j : Nat) : Int) % 2 ^ 32 = (leWord c j : Nat) := by omega
  rw [e]
  have h1 : ¬ ((2 : Int) ^ 31 ≤ (leWord c j : Nat)) := by omega
  have h2 : ¬ (((leWord c j : Nat) : Int) < 0) := by omega
  rw [if_neg h1, if_neg h2]
  simp

/-- A word whose fourth byte is 0x80 or more is printed as a minus sign and the
hexadecimal numeral of `2^32` minus its unsigned little-endian value. -/
theorem toString16_word_of_big (c : List Nat) (hc : ∀ b ∈ c, b < 256) (j : Nat)
    (h : 128 ≤ (c.get? (4 * j + 3)).getD 0) :
    toString16 (word c (4 * j)) = "-" ++ String.mk (Nat.toDigits 16 (2 ^ 32 - leWord c j)) := by
  have hge : 2 ^ 31 ≤ leWord c j := by
    unfold leWord
    omega
  have hlt := leWord_lt c hc j
  rw [word_eq_wrap32 c hc j]
  unfold JsNumber.wrap32 toString16
  have e : ((leWord c j : Nat) : Int) % 2 ^ 32 = (leWord c j : Nat) := by omega
  rw [e]
  have h1 : ((2 : Int) ^ 31 ≤ (leWord c j : Nat)) := by omega
  have h2 : (((leWord c j : Nat) : Int) - 2 ^ 32 < 0) := by omega
  rw [if_pos h1, if_pos h2]
  congr 3
  omega

theorem wordLines_length (c : List Nat) : (wordLines c).length = (c.length + 3) / 4 := by
  simp [wordLines]

/-- C8, failing input `function h(){"compiled"; return 0.1;}`: the number 0.1
is stored as the bytes 9A 99 99 99 99 99 B9 3F, whose first little-endian word
is 0x9999999A, but the emitted line is `.word 0x-66666666`. -/
theorem tenth_pool_words :
    encode (.num oneTenth) = [0x9A, 0x99, 0x99, 0x99, 0x99, 0x99, 0xB9, 0x3F] ∧
    leWord (encode (.num oneTenth)) 0 = 0x9999999A ∧
    wordLines (encode (.num oneTenth)) = ["  .word 0x-66666666", "  .word 0x3fb99999"] ∧
    (compileAssembly sampleExport tenthDecl).ctx.assembly.drop 13 =
      ["exports:", "  .word 4096", "const_0:", "  .word 0x-66666666", "  .word 0x3fb99999"] := by
  decide


/-! ## The driver: text preservation -/

theorem compileLoop_unchanged (board : Option Export) (ast : List TopLevel)
    (h : (∀ f, TopLevel.FunctionDeclaration f ∈ ast → eligible f = false) ∨ board = none) :
    ∀ (code : List Nat) (offset : Nat), compileLoop board ast code offset = .returned code := by
  induction ast with
  | nil => intro code offset; rfl
  | cons t rest ih =>
    have hrest : (∀ f, TopLevel.FunctionDeclaration f ∈ rest → eligible f = false) ∨
        board = none := by
      rcases h with h | h
      · exact Or.inl fun f hf => h f (List.mem_cons_of_mem _ hf)
      · exact Or.inr h
    intro code offset
    cases t with
    | Other => exact ih hrest code offset
    | FunctionDeclaration node =>
      unfold compileLoop
      split_ifs with he
      · rcases h with h | h
        · rw [h node (List.mem_cons_self _ _)] at he
          cases he
        · subst h
          exact ih hrest code offset
      · exact ih hrest code offset

/-- C9. When no top-level function declaration is eligible, or when the board
has no `EXPORT`, `compileCode` hands the input text to the callback unchanged. -/
theorem compileCode_unchanged (board : Option Export) (code : List Nat) (ast : List TopLevel)
    (h : (∀ f, TopLevel.FunctionDeclaration f ∈ ast → eligible f = false) ∨ board = none) :
    compileCode board code ast = .returned code :=
  compileLoop_unchanged board ast h code 0

/-- C9, witness: the text of two eligible functions is unchanged without
`EXPORT`. -/
theorem compileCode_unchanged_witness :
    ((∀ f, TopLevel.FunctionDeclaration f ∈
        [TopLevel.FunctionDeclaration fDecl, TopLevel.FunctionDeclaration gDecl] →
        eligible f = false) ∨ (none : Option Export) = none) ∧
    compileCode none twoFunctionsText
      [TopLevel.FunctionDeclaration fDecl, TopLevel.FunctionDeclaration gDecl] =
        .returned twoFunctionsText :=
  ⟨Or.inr rfl, compileCode_unchanged none twoFunctionsText
    [TopLevel.FunctionDeclaration fDecl, TopLevel.FunctionDeclaration gDecl] (Or.inr rfl)⟩

theorem compileLoop_skip (board : Option Export) (pre rest : List TopLevel)
    (h : ∀ f, TopLevel.FunctionDeclaration f ∈ pre → eligible f = false) :
    ∀ (code : List Nat) (offset : Nat),
      compileLoop board (pre ++ rest) code offset = compileLoop board rest code offset := by
  induction pre with
  | nil => intro code offset; rfl
  | cons t pre ih =>
    have hpre : ∀ f, TopLevel.FunctionDeclaration f ∈ pre → eligible f = false :=
      fun f hf => h f (List.mem_cons_of_mem _ hf)
    intro code offset
    cases t with
    | Other =>
      rw [List.cons_append, compileLoop]
      exact ih hpre code offset
    | FunctionDeclaration node =>
      rw [List.cons_append, compileLoop, h node (List.mem_cons_self _ _)]
      exact ih hpre code offset

theorem wrapAsm_ne_empty (node : FunctionDeclaration) (assembly : List String) :
    (wrapAsm node assembly != "") = true := by
  have h : (wrapAsm node assembly).toList.head? = some 'v' := rfl
  cases hw : wrapAsm node assembly with
  | mk l =>
    rw [hw] at h
    cases l with
    | nil => cases h
    | cons a l => rfl

/-- With a single eligible function the splice is the one intended: the span of
the function is replaced by its declaration and the rest of the text is kept. -/
theorem compileCode_single (e : Export) (pre post : List TopLevel)
    (node : FunctionDeclaration) (x : Ctx)
    (hpre : ∀ f, TopLevel.FunctionDeclaration f ∈ pre → eligible f = false)
    (hpost : ∀ f, TopLevel.FunctionDeclaration f ∈ post → eligible f = false)
    (hel : eligible node = true) (hasm : compileAssembly e node = .ok () x) (code : List Nat) :
    compileCode (some e) code (pre ++ TopLevel.FunctionDeclaration node :: post) =
      .returned (code.take node.start ++ codeUnits (wrapAsm node x.assembly) ++
        code.drop node.stop) := by
  unfold compileCode
  rw [compileLoop_skip (some e) pre _ hpre, compileLoop, if_pos hel]
  unfold compileFunction
  simp only [hasm]
  rw [if_pos (wrapAsm_ne_empty node x.assembly)]
  exact compileLoop_unchanged (some e) post (Or.inl hpost) _ _

/-! ## The driver: failing inputs -/

set_option maxRecDepth 1000000 in
/-- C1, failing input `function f(){"compiled";}function g(){"compiled";}`:
both functions compile to the eight lines of an empty body, the text handed to
the callback is the declaration of `f`, then the untouched source of `g`, then
the declaration of `g`; it is not the text with both spans replaced. -/
theorem second_function_misplaced :
    compileFunction (some sampleExport) fDecl = .returned (some (wrapAsm fDecl
      ["  push \x7br7,lr\x7d", "end_of_fn:", "  pop \x7br7,lr\x7d", "  bx lr", "trampoline:",
        "  bx r7", "exports:", "  .word 4096"])) ∧
    compileFunction (some sampleExport) gDecl = .returned (some (wrapAsm gDecl
      ["  push \x7br7,lr\x7d", "end_of_fn:", "  pop \x7br7,lr\x7d", "  bx lr", "trampoline:",
        "  bx r7", "exports:", "  .word 4096"])) ∧
    compileCode (some sampleExport) twoFunctionsText
      [TopLevel.FunctionDeclaration fDecl, TopLevel.FunctionDeclaration gDecl] =
      .returned (codeUnits (wrapAsm fDecl
        ["  push \x7br7,lr\x7d", "end_of_fn:", "  pop \x7br7,lr\x7d", "  bx lr", "trampoline:",
          "  bx r7", "exports:", "  .word 4096"]) ++
        twoFunctionsText.drop 25 ++
        codeUnits (wrapAsm gDecl
        ["  push \x7br7,lr\x7d", "end_of_fn:", "  pop \x7br7,lr\x7d", "  bx lr", "trampoline:",
          "  bx r7", "exports:", "  .word 4096"])) ∧
    compileCode (some sampleExport) twoFunctionsText
      [TopLevel.FunctionDeclaration fDecl, TopLevel.FunctionDeclaration gDecl] ≠
      .returned (codeUnits (wrapAsm fDecl
        ["  push \x7br7,lr\x7d", "end_of_fn:", "  pop \x7br7,lr\x7d", "  bx lr", "trampoline:",
          "  bx r7", "exports:", "  .word 4096"]) ++
        codeUnits (wrapAsm gDecl
        ["  push \x7br7,lr\x7d", "end_of_fn:", "  pop \x7br7,lr\x7d", "  bx lr", "trampoline:",
          "  bx r7", "exports:", "  .word 4096"])) := by
  decide

theorem loadArgs_undefined_second (i : Nat) (a : JsVal) (rest : List JsVal) (x : Ctx) :
    ∃ x1, loadArgs i (a :: JsVal.undefined :: rest) x = .threw x1 := by
  unfold loadArgs
  have h2 : ∃ x1, loadArgs (i + 1) (JsVal.undefined :: rest) x = .threw x1 := by
    unfold loadArgs
    cases loadArgs (i + 1 + 1) rest x with
    | threw x1 => exact ⟨x1, rfl⟩
    | ok v x1 => exact ⟨alignPad x1, rfl⟩
  obtain ⟨x1, h1⟩ := h2
  rw [h1]
  exact ⟨x1, rfl⟩

/-- C3, failing inputs `function h(a){"compiled"; return a+k(a);}` and
`function h(x){"compiled"; x = true;}`: a binary expression or an assignment
whose right operand has no handler, or is a literal that is neither a string
nor a number, always ends in an exception, so `compileFunction` and then
`compileCode` are left by the exception and the callback is never reached. -/
theorem unsupported_operand_throws :
    (∀ (op t : String) (l : Node) (x : Ctx),
      ∃ x1, handle (.BinaryExpression op l (.Other t)) x = .threw x1) ∧
    (∀ (op : String) (l : Node) (x : Ctx),
      ∃ x1, handle (.AssignmentExpression op l (.Literal .other)) x = .threw x1) ∧
    compileFunction (some sampleExport) callOperandDecl = .threw ∧
    compileCode (some sampleExport)
      (codeUnits "function h(a)\x7b\"compiled\"; return a+k(a);\x7d")
      [TopLevel.FunctionDeclaration callOperandDecl] = .threw ∧
    compileFunction (some sampleExport) boolAssignDecl = .threw ∧
    compileCode (some sampleExport)
      (codeUnits "function h(x)\x7b\"compiled\"; x = true;\x7d")
      [TopLevel.FunctionDeclaration boolAssignDecl] = .threw := by
  refine ⟨?_, ?_, by decide, by decide, by decide, by decide⟩
  · intro op t l x
    rw [handle]
    cases handle l x with
    | threw x1 => exact ⟨x1, rfl⟩
    | ok lv x1 =>
      simp only [handle]
      obtain ⟨x2, h2⟩ := loadArgs_undefined_second 0 lv [.num (charCodeAt0 op)] x1
      unfold call
      rw [h2]
      exact ⟨x2, rfl⟩
  · intro op l x
    rw [handle]
    cases handle l x with
    | threw x1 => exact ⟨x1, rfl⟩
    | ok lv x1 =>
      simp only [handle]
      obtain ⟨x2, h2⟩ := loadArgs_undefined_second 0 lv [] x1
      unfold call
      rw [h2]
      exact ⟨x2, rfl⟩

/-- C4, failing input `function h(){"compiled"; return;}`: the handler of a
`ReturnStatement` without argument ends in an exception before it emits
anything, so no `b end_of_fn` is emitted and `compileFunction` and
`compileCode` are left by the exception. -/
theorem bare_return_throws :
    (∀ (x : Ctx), handle (.ReturnStatement none) x = .threw x) ∧
    compileFunction (some sampleExport) bareReturnDecl = .threw ∧
    compileCode (some sampleExport) (codeUnits "function h()\x7b\"compiled\"; return;\x7d")
      [TopLevel.FunctionDeclaration bareReturnDecl] = .threw := by
  refine ⟨?_, by decide, by decide⟩
  intro x
  rw [handle]


/-! ## The shape of a compiled function -/

/-- Lines are only ever appended to the stream. -/
theorem assembly_prefix_stepInvariant (l : List String) :
    StepInvariant fun x => l <+: x.assembly where
  plain := fun line x _ h => List.IsPrefix.trans h (List.prefix_append _ _)
  pad := fun x h => by
    rcases alignPad_cases x with ⟨_, e⟩ | ⟨_, e⟩
    · rw [e]; exact h
    · rw [e]; exact List.IsPrefix.trans h (List.prefix_append _ _)
  load := fun line x _ h => by
    refine List.IsPrefix.trans ?_ (List.prefix_append _ _)
    rcases alignPad_cases x with ⟨_, e⟩ | ⟨_, e⟩
    · rw [e]; exact h
    · rw [e]; exact List.IsPrefix.trans h (List.prefix_append _ _)
  pool := fun d x h => by rw [addBinaryData_assembly]; exact h

theorem handleEach_assembly_extends (body : List Node) (x : Ctx) :
    x.assembly <+: (handleEach body x).ctx.assembly :=
  handleEach_invariant (assembly_prefix_stepInvariant x.assembly) body x (List.prefix_refl _)

theorem loadArg_ok (i : Nat) (arg : JsVal) (x : Ctx) (h : arg ≠ .undefined) :
    ∃ x1, loadArg i arg x = .ok () x1 := by
  unfold loadArg
  split_ifs with hs
  · exact ⟨_, rfl⟩
  · cases arg with
    | undefined => exact absurd rfl h
    | num n => exact ⟨_, rfl⟩
    | str s =>
      simp only
      split_ifs
      · exact ⟨_, rfl⟩
      · exact ⟨_, rfl⟩

theorem loadArgs_ok (args : List JsVal) (h : ∀ a ∈ args, a ≠ JsVal.undefined) :
    ∀ (i : Nat) (x : Ctx), ∃ x1, loadArgs i args x = .ok () x1 := by
  induction args with
  | nil => intro i x; exact ⟨x, rfl⟩
  | cons a rest ih =>
    intro i x
    obtain ⟨x1, h1⟩ := ih (fun b hb => h b (List.mem_cons_of_mem _ hb)) (i + 1) x
    unfold loadArgs
    rw [h1]
    exact loadArg_ok i a x1 (h a (List.mem_cons_self _ _))

theorem call_ok (name : String) (args : List JsVal) (x : Ctx)
    (h : ∀ a ∈ args, a ≠ JsVal.undefined) :
    ∃ x1, call name args x =
      .ok (if (name != "jsvUnLock") = true then stackValue else .undefined) x1 := by
  obtain ⟨x1, h1⟩ := loadArgs_ok args h 0 x
  unfold call
  rw [h1]
  simp only
  split_ifs
  · exact ⟨_, rfl⟩
  · exact ⟨_, rfl⟩

theorem truthy_ne_undefined {v : JsVal} (h : truthy v = true) : v ≠ .undefined := by
  intro hv
  subst hv
  cases h

mutual
theorem handle_supportedExpr : ∀ (node : Node) (x : Ctx), supportedExpr node = true →
    ∃ x1, handle node x = .ok stackValue x1
  | .Identifier name, x, _ => by
    rw [handle]
    cases getLocalOffset x name with
    | some off => exact ⟨_, rfl⟩
    | none => exact call_ok "jspeiFindInScopes" _ _ (by simp)
  | .Literal (.str s), x, _ => by
    rw [handle]
    exact call_ok "jsvNewFromString" _ _ (by simp)
  | .Literal (.num n), x, _ => by
    rw [handle]
    split_ifs
    · exact call_ok "jsvNewFromFloat" _ _ (by simp)
    · exact call_ok "jsvNewFromInteger" _ _ (by simp)
  | .Literal .other, x, h => by simp [supportedExpr] at h
  | .BinaryExpression op l r, x, h => by
    simp only [supportedExpr, Bool.and_eq_true] at h
    obtain ⟨x1, h1⟩ := handle_supportedExpr l x h.1
    obtain ⟨x2, h2⟩ := handle_supportedExpr r x1 h.2
    rw [handle, h1]
    simp only [h2]
    exact call_ok "jsvMathsOp" _ _ (by simp [stackValue])
  | .AssignmentExpression op l r, x, h => by
    simp only [supportedExpr, Bool.and_eq_true] at h
    obtain ⟨x1, h1⟩ := handle_supportedExpr l x h.1
    obtain ⟨x2, h2⟩ := handle_supportedExpr r x1 h.2
    rw [handle, h1]
    simp only [h2]
    exact call_ok "jspReplaceWith" _ _ (by simp [stackValue])
  | .BlockStatement body, x, h => by simp [supportedExpr] at h
  | .ReturnStatement a, x, h => by simp [supportedExpr] at h
  | .ExpressionStatement e, x, h => by simp [supportedExpr] at h
  | .Other t, x, h => by simp [supportedExpr] at h
theorem handle_supportedStmt : ∀ (node : Node) (x : Ctx), supportedStmt node = true →
    ∃ v x1, handle node x = .ok v x1
  | .ExpressionStatement e, x, h => by
    simp only [supportedStmt] at h
    obtain ⟨x1, h1⟩ := handle_supportedExpr e x h
    rw [handle, h1]
    exact ⟨_, _, rfl⟩
  | .ReturnStatement (some a), x, h => by
    simp only [supportedStmt] at h
    obtain ⟨x1, h1⟩ := handle_supportedExpr a x h
    rw [handle, h1]
    exact ⟨_, _, rfl⟩
  | .ReturnStatement none, x, h => by simp [supportedStmt] at h
  | .BlockStatement body, x, h => by
    simp only [supportedStmt] at h
    obtain ⟨x1, h1⟩ := handleEach_supported body x h
    rw [handle, h1]
    exact ⟨_, _, rfl⟩
  | .Identifier name, x, h => by simp [supportedStmt] at h
  | .Literal v, x, h => by simp [supportedStmt] at h
  | .BinaryExpression op l r, x, h => by simp [supportedStmt] at h
  | .AssignmentExpression op l r, x, h => by simp [supportedStmt] at h
  | .Other t, x, h => by simp [supportedStmt] at h
theorem handleEach_supported : ∀ (body : List Node) (x : Ctx), supportedStmts body = true →
    ∃ x1, handleEach body x = .ok () x1
  | [], x, _ => ⟨x, by rw [handleEach]⟩
  | s :: rest, x, h => by
    simp only [supportedStmts, Bool.and_eq_true] at h
    obtain ⟨v, x1, h1⟩ := handle_supportedStmt s x h.1
    rw [handleEach, h1]
    simp only
    split_ifs with ht
    · obtain ⟨x2, h2⟩ := call_ok "jsvUnLock" [v] x1 (by
        intro a ha
        rw [List.mem_singleton] at ha
        subst ha
        exact truthy_ne_undefined ht)
      rw [h2]
      exact handleEach_supported rest x2 h.2
    · exact handleEach_supported rest x1 h.2
end

theorem pushParams_assembly (ps : List String) : ∀ (idx : Nat) (x : Ctx),
    (pushParams ps idx x).assembly = x.assembly ++
      (List.range ps.length).map (fun i => "  push \x7br" ++ toString (idx + i) ++ "\x7d") := by
  induction ps with
  | nil => intro idx x; simp [pushParams]
  | cons p ps ih =>
    intro idx x
    unfold pushParams
    rw [ih]
    simp only [out_assembly, List.length_cons, List.range_succ_eq_map, List.map_cons,
      List.map_map, List.append_assoc, List.singleton_append, Nat.add_zero]
    congr 2
    apply List.map_congr_left
    intro i _
    simp only [Function.comp]
    rw [show idx + 1 + i = idx + (i + 1) by omega]

theorem pushParams_constData (ps : List String) : ∀ (idx : Nat) (x : Ctx),
    (pushParams ps idx x).constData = x.constData := by
  induction ps with
  | nil => intro idx x; rfl
  | cons p ps ih => intro idx x; unfold pushParams; rw [ih]; rfl

theorem popParams_assembly (ps : List String) : ∀ (x : Ctx),
    (popParams ps x).assembly = x.assembly ++ List.replicate ps.length "  pop \x7br3\x7d" := by
  induction ps with
  | nil => intro x; simp [popParams]
  | cons p ps ih =>
    intro x
    unfold popParams
    rw [ih]
    simp [List.replicate_succ]

theorem popParams_constData (ps : List String) : ∀ (x : Ctx),
    (popParams ps x).constData = x.constData := by
  induction ps with
  | nil => intro x; rfl
  | cons p ps ih => intro x; unfold popParams; rw [ih]; rfl

theorem outAll_assembly (lines : List String) : ∀ (x : Ctx),
    (lines.foldl (fun x1 line => out line x1) x).assembly = x.assembly ++ lines := by
  induction lines with
  | nil => intro x; simp
  | cons a rest ih => intro x; rw [List.foldl_cons, ih]; simp

theorem emitConstants_assembly (cs : List (List Nat)) : ∀ (n : Nat) (x : Ctx),
    (emitConstants cs n x).assembly = x.assembly ++ constantLines cs n := by
  induction cs with
  | nil => intro n x; simp [emitConstants, constantLines]
  | cons c cs ih =>
    intro n x
    unfold emitConstants constantLines
    rw [ih, outAll_assembly]
    simp

theorem alignPad_assembly (x : Ctx) :
    ∃ pad : List String, (pad = [] ∨ pad = ["  nop"]) ∧
      (alignPad x).assembly = x.assembly ++ pad := by
  rcases alignPad_cases x with ⟨_, e⟩ | ⟨_, e⟩
  · exact ⟨[], Or.inl rfl, by rw [e]; simp⟩
  · exact ⟨["  nop"], Or.inr rfl, by rw [e]; rfl⟩

theorem bodyStart_assembly (e : Export) (node : FunctionDeclaration) :
    (bodyStart e node).assembly = ["  push \x7br7,lr\x7d"] ++
      (List.range node.params.length).map (fun i => "  push \x7br" ++ toString i ++ "\x7d") := by
  unfold bodyStart
  rw [pushParams_assembly]
  simp [initialCtx]

theorem bodyEnd_assembly (e : Export) (node : FunctionDeclaration) :
    (bodyEnd e node).assembly = ["  push \x7br7,lr\x7d"] ++
      (List.range node.params.length).map (fun i => "  push \x7br" ++ toString i ++ "\x7d") ++
      bodyLowering e node := by
  obtain ⟨t, ht⟩ := handleEach_assembly_extends (node.body.drop 1) (bodyStart e node)
  have hlen : (bodyStart e node).assembly.length = node.params.length + 1 := by
    rw [bodyStart_assembly]; simp
  unfold bodyLowering
  unfold bodyEnd
  rw [← ht, ← hlen, List.drop_left, bodyStart_assembly]

/-- C10. For a function whose statements after the marker are supported, with
the board `EXPORT` present, the body traversal completes and `compileFunction`
returns `var <name> = E.asm("JsVar (JsVar,...)", <lines>)` with one `JsVar` per
parameter, where the lines are, in order: `push {r7,lr}`, one `push {r<i>}` per
parameter, the lowering of the body, `end_of_fn:`, one `pop {r3}` per
parameter, `pop {r7,lr}`, `bx lr`, `trampoline:`, `bx r7`, an optional `nop`,
`exports:`, `.word <base>` and the constant pool. -/
theorem compileFunction_shape (e : Export) (node : FunctionDeclaration)
    (h : supportedStmts (node.body.drop 1) = true) :
    handleEach (node.body.drop 1) (bodyStart e node) = .ok () (bodyEnd e node) ∧
    ∃ pad : List String, (pad = [] ∨ pad = ["  nop"]) ∧
      compileFunction (some e) node = .returned (some (
        "var " ++ node.id ++ " = " ++ "E.asm(\"" ++ ("JsVar (" ++
            String.intercalate "," (List.replicate node.params.length "JsVar") ++ ")") ++
          "\",\n  " ++
          String.intercalate ",\n  " ((expectedStream e node pad).map jsonStringify) ++ ");")) := by
  obtain ⟨x1, h1⟩ := handleEach_supported (node.body.drop 1) (bodyStart e node) h
  have hb : bodyEnd e node = x1 := by
    unfold bodyEnd; rw [h1]; rfl
  refine ⟨by rw [hb]; exact h1, ?_⟩
  have ha := bodyEnd_assembly e node
  rw [hb] at ha
  obtain ⟨pad, hpad, hp⟩ := alignPad_assembly (out "  bx r7" (out "trampoline:" (out "  bx lr"
    (out "  pop \x7br7,lr\x7d" (popParams node.params (out "end_of_fn:" x1))))))
  refine ⟨pad, hpad, ?_⟩
  unfold bodyStart at h1
  unfold compileFunction compileAssembly
  simp only [h1]
  unfold wrapAsm paramSpec finishFunction expectedStream
  simp only [emitConstants_assembly, out_assembly, hp, popParams_assembly, ha, out_constData,
    alignPad_constData, popParams_constData, hb, List.map_const', List.append_assoc]
  rfl

set_option maxRecDepth 1000000 in
/-- C10, witness: `function foo(a,b){"compiled"; return a+b;}` with the exports
`jsvMathsOp,jsvNewFromInteger` at `0x1000` has the signature
`JsVar (JsVar,JsVar)`; `a+b` is lowered to the call of `jsvMathsOp` through the
trampoline with the operator immediate 43, followed by `pop {r0}` and
`b end_of_fn`; there is no `nop` and the constant pool is empty. -/
theorem compileFunction_shape_witness :
    supportedStmts (fooDecl.body.drop 1) = true ∧
    (handleEach (fooDecl.body.drop 1) (bodyStart sampleExport fooDecl) =
        .ok () (bodyEnd sampleExport fooDecl) ∧
      ∃ pad : List String, (pad = [] ∨ pad = ["  nop"]) ∧
        compileFunction (some sampleExport) fooDecl = .returned (some (
          "var " ++ fooDecl.id ++ " = " ++ "E.asm(\"" ++ ("JsVar (" ++
              String.intercalate "," (List.replicate fooDecl.params.length "JsVar") ++ ")") ++
            "\",\n  " ++
            String.intercalate ",\n  "
              ((expectedStream sampleExport fooDecl pad).map jsonStringify) ++ ");"))) ∧
    bodyLowering sampleExport fooDecl =
      ["  ldr r0, [sp,#0]", "  push \x7br0\x7d", "  ldr r0, [sp,#1]", "  push \x7br0\x7d",
        "  movs r2, #43", "  pop \x7br1\x7d", "  pop \x7br0\x7d", "  ldr    r7, exports",
        "  ldr    r7, [r7, #0]", "  bl     trampoline", "  push \x7br0\x7d", "  pop \x7br0\x7d",
        "  b end_of_fn"] ∧
    (bodyEnd sampleExport fooDecl).constData = [] ∧
    compileFunction (some sampleExport) fooDecl = .returned (some (
      "var foo = E.asm(\"JsVar (JsVar,JsVar)\",\n  " ++ String.intercalate ",\n  "
        ((expectedStream sampleExport fooDecl []).map jsonStringify) ++ ");")) :=
  ⟨by decide, compileFunction_shape sampleExport fooDecl (by decide), by decide, by decide,
    by decide⟩


/-! ## Decimal numerals -/

theorem toDigitsCore_append (b : Nat) : ∀ (fuel n : Nat) (ds : List Char),
    Nat.toDigitsCore b fuel n ds = Nat.toDigitsCore b fuel n [] ++ ds := by
  intro fuel
  induction fuel with
  | zero => intro n ds; simp [Nat.toDigitsCore]
  | succ fuel ih =>
    intro n ds
    simp only [Nat.toDigitsCore]
    split_ifs with h
    · rfl
    · rw [ih (n / b) (Nat.digitChar (n % b) :: ds), ih (n / b) [Nat.digitChar (n % b)]]
      simp

/-- The decimal value of a digit character. -/
theorem digitChar_toNat (m : Nat) (h : m < 10) : (Nat.digitChar m).toNat - 48 = m := by
  interval_cases m <;> rfl

theorem digitChar_isDigit (m : Nat) (h : m < 10) : (Nat.digitChar m).isDigit = true := by
  interval_cases m <;> rfl

theorem toDigitsCore_isDigit : ∀ (fuel n : Nat) (ds : List Char),
    (∀ c ∈ ds, c.isDigit = true) → ∀ c ∈ Nat.toDigitsCore 10 fuel n ds, c.isDigit = true := by
  intro fuel
  induction fuel with
  | zero => intro n ds h; simpa [Nat.toDigitsCore] using h
  | succ fuel ih =>
    intro n ds h
    have hd : (Nat.digitChar (n % 10)).isDigit = true :=
      digitChar_isDigit _ (Nat.mod_lt _ (by norm_num))
    have h2 : ∀ c ∈ Nat.digitChar (n % 10) :: ds, c.isDigit = true := by
      intro c hc
      rcases List.mem_cons.mp hc with hc | hc
      · rw [hc]; exact hd
      · exact h c hc
    simp only [Nat.toDigitsCore]
    split_ifs with hz
    · exact h2
    · exact ih _ _ h2

/-- Every character of the decimal numeral of a number is a digit. -/
theorem toString_isDigit (n : Nat) : ∀ c ∈ (toString n).toList, c.isDigit = true :=
  toDigitsCore_isDigit (n + 1) n [] (by simp)

theorem toDigitsCore_value : ∀ (fuel n : Nat), n < fuel →
    (Nat.toDigitsCore 10 fuel n []).foldl (fun acc c => acc * 10 + (c.toNat - 48)) 0 = n := by
  intro fuel
  induction fuel with
  | zero => intro n h; omega
  | succ fuel ih =>
    intro n h
    simp only [Nat.toDigitsCore]
    split_ifs with hz
    · simp only [List.foldl_cons, List.foldl_nil, Nat.zero_mul, Nat.zero_add]
      rw [digitChar_toNat _ (Nat.mod_lt _ (by norm_num))]
      omega
    · rw [toDigitsCore_append, List.foldl_append, ih (n / 10) (by omega)]
      simp only [List.foldl_cons, List.foldl_nil]
      rw [digitChar_toNat _ (Nat.mod_lt _ (by norm_num))]
      omega

/-- The decimal numeral determines the number. -/
theorem toString_nat_inj {n m : Nat} (h : toString n = toString m) : n = m := by
  have h1 := toDigitsCore_value (n + 1) n (by omega)
  have h2 := toDigitsCore_value (m + 1) m (by omega)
  have h3 : Nat.toDigitsCore 10 (n + 1) n [] = Nat.toDigitsCore 10 (m + 1) m [] :=
    congrArg String.toList h
  rw [h3] at h1
  omega

/-! ## Call lowering -/

theorem loadArg_kind (i : Nat) (a : ArgKind) (x : Ctx) :
    loadArg i a.toJsVal x =
      .ok () (out (a.loadLine i) (if a.isRef = true then alignPad x else x)) := by
  cases a with
  | onStack => rfl
  | number n => rfl
  | pointerRef k => rfl
  | scalarRef k => rfl

theorem loadLine_ne_nop (i : Nat) (a : ArgKind) : (a.loadLine i != "  nop") = true := by
  cases a with
  | onStack => rfl
  | number n => rfl
  | pointerRef k => rfl
  | scalarRef k => rfl

theorem loadArgs_kinds (args : List ArgKind) : ∀ (i : Nat) (x : Ctx),
    ∃ (x1 : Ctx) (emitted : List String),
      loadArgs i (args.map ArgKind.toJsVal) x = .ok () x1 ∧
      x1.assembly = x.assembly ++ emitted ∧
      emitted.filter (fun l => l != "  nop") = expectedLoads i args := by
  induction args with
  | nil => intro i x; exact ⟨x, [], rfl, by simp, rfl⟩
  | cons a rest ih =>
    intro i x
    obtain ⟨x1, em, h1, h2, h3⟩ := ih (i + 1) x
    simp only [List.map_cons, loadArgs, h1, loadArg_kind]
    obtain ⟨pad, hpad, hp⟩ := alignPad_assembly x1
    by_cases hr : a.isRef = true
    · refine ⟨_, em ++ pad ++ [a.loadLine i], rfl, ?_, ?_⟩
      · rw [if_pos hr, out_assembly, hp, h2]
        simp
      · rw [List.filter_append, List.filter_append, h3]
        simp only [expectedLoads]
        have hf : pad.filter (fun l => l != "  nop") = [] := by
          rcases hpad with hpad | hpad <;> (subst hpad; rfl)
        rw [hf, List.append_nil]
        simp [loadLine_ne_nop i a]
    · refine ⟨_, em ++ [a.loadLine i], rfl, ?_, ?_⟩
      · rw [if_neg hr, out_assembly, h2]
        simp
      · rw [List.filter_append, h3]
        simp [expectedLoads, loadLine_ne_nop i a]

/-- C11. Each argument of `call` that is the on-stack value, a number, `*const_k`
or `const_k` is loaded by one line into the register of its position: `pop`,
`movs`, `adr` or `ldr`, the last two right after the pad statement; the
arguments are loaded from the last to the first, so that apart from the `nop`
pads the lines emitted are the load lines for positions `m-1` down to 0; the
branch to the callee follows. -/
theorem call_loads_arguments (name : String) (args : List ArgKind) (x : Ctx) :
    (∀ (i : Nat) (a : ArgKind) (y : Ctx), loadArg i a.toJsVal y =
      .ok () (out (a.loadLine i) (if a.isRef = true then alignPad y else y))) ∧
    ∃ (x1 : Ctx) (emitted : List String),
      loadArgs 0 (args.map ArgKind.toJsVal) x = .ok () x1 ∧
      x1.assembly = x.assembly ++ emitted ∧
      emitted.filter (fun l => l != "  nop") =
        ((args.enum).reverse).map (fun p => p.2.loadLine p.1) ∧
      call name (args.map ArgKind.toJsVal) x =
        if (name != "jsvUnLock") = true then
          .ok stackValue (out "  push \x7br0\x7d" (emitBranch name x1))
        else .ok .undefined (emitBranch name x1) := by
  refine ⟨loadArg_kind, ?_⟩
  obtain ⟨x1, em, h1, h2, h3⟩ := loadArgs_kinds args 0 x
  refine ⟨x1, em, h1, h2, ?_, ?_⟩
  · rw [h3]
    have key : ∀ (l : List ArgKind) (i : Nat),
        expectedLoads i l = ((l.enumFrom i).reverse).map (fun p => p.2.loadLine p.1) := by
      intro l
      induction l with
      | nil => intro i; rfl
      | cons a rest ih =>
        intro i
        simp only [expectedLoads, List.enumFrom_cons, List.reverse_cons, List.map_append,
          List.map_cons, List.map_nil]
        rw [ih (i + 1)]
    exact key args 0
  · unfold call
    rw [h1]

theorem exportNames_stepInvariant (names : List String) :
    StepInvariant fun y => y.exportNames = names where
  plain := fun _ _ _ h => h
  pad := fun x h => by rw [alignPad_exportNames]; exact h
  load := fun _ x _ h => by rw [out_exportNames, alignPad_exportNames]; exact h
  pool := fun d x h => by rw [addBinaryData_exportNames]; exact h

/-- C12. Once the arguments are loaded: a callee whose first index in the
export names is `i` is reached by `ldr r7, exports`, `ldr r7, [r7, #4*i]` and
`bl trampoline`, after the pad when needed, and by nothing else; a callee that
is not among the export names is reached by the one line `bl <name>`; then
`push {r0}` is emitted and the on-stack value returned, except for
`jsvUnLock`, where nothing is pushed and `undefined` is returned. -/
theorem call_resolves_callee (name : String) (args : List JsVal) (x x1 : Ctx)
    (h : loadArgs 0 args x = .ok () x1) :
    x1.exportNames = x.exportNames ∧
    (∀ i : Nat, firstIndex? name x.exportNames = some i →
      ∃ pad : List String, (pad = [] ∨ pad = ["  nop"]) ∧
        (emitBranch name x1).assembly = x1.assembly ++ pad ++
          ["  ldr    r7, exports", "  ldr    r7, [r7, #" ++ toString (4 * i) ++ "]",
            "  bl     trampoline"]) ∧
    (firstIndex? name x.exportNames = none →
      (emitBranch name x1).assembly = x1.assembly ++ ["  bl " ++ name]) ∧
    (name ≠ "jsvUnLock" →
      call name args x = .ok stackValue (out "  push \x7br0\x7d" (emitBranch name x1))) ∧
    (name = "jsvUnLock" → call name args x = .ok .undefined (emitBranch name x1)) := by
  have he : x1.exportNames = x.exportNames := by
    have := loadArgs_invariant (exportNames_stepInvariant x.exportNames) args 0 x rfl
    rw [h] at this
    exact this
  refine ⟨he, ?_, ?_, ?_, ?_⟩
  · intro i hi
    obtain ⟨pad, hpad, hp⟩ := alignPad_assembly x1
    refine ⟨pad, hpad, ?_⟩
    unfold emitBranch
    rw [he, hi]
    simp only [out_assembly, hp, Nat.mul_comm i 4]
    simp
  · intro hn
    unfold emitBranch
    rw [he, hn]
    rfl
  · intro hne
    unfold call
    rw [h]
    simp [hne]
  · intro heq
    unfold call
    rw [h]
    simp [heq]

/-- C12, witness: `jsvMathsOp` has index 0 in the sample export names and
`jsvUnLock` is not among them. -/
theorem call_resolves_callee_witness :
    loadArgs 0 [] (initialCtx sampleExport) = .ok () (initialCtx sampleExport) ∧
    (emitBranch "jsvMathsOp" (initialCtx sampleExport)).assembly =
      ["  ldr    r7, exports", "  ldr    r7, [r7, #0]", "  bl     trampoline"] ∧
    call "jsvUnLock" [] (initialCtx sampleExport) =
      .ok .undefined (emitBranch "jsvUnLock" (initialCtx sampleExport)) ∧
    (emitBranch "jsvUnLock" (initialCtx sampleExport)).assembly = ["  bl jsvUnLock"] :=
  ⟨rfl, by decide,
    (call_resolves_callee "jsvUnLock" [] (initialCtx sampleExport) (initialCtx sampleExport)
      rfl).2.2.2.2 rfl,
    (call_resolves_callee "jsvUnLock" [] (initialCtx sampleExport) (initialCtx sampleExport)
      rfl).2.2.1 (by decide)⟩

/-! ## Operators -/

set_option maxRecDepth 1000000 in
/-- C13, failing input `function h(a,b){"compiled"; a += b;}`: an assignment
with any operator is lowered exactly as the plain assignment of the same
operands, so the stream for `a += b` is the stream for `a = b` and holds the
call of `jspReplaceWith`. -/
theorem compound_assignment_lowered :
    (∀ (op : String) (l r : Node) (x : Ctx),
      handle (.AssignmentExpression op l r) x = handle (.AssignmentExpression "=" l r) x) ∧
    compileFunction (some sampleExport) compoundAssignDecl =
      compileFunction (some sampleExport) plainAssignDecl ∧
    bodyLowering sampleExport compoundAssignDecl =
      ["  ldr r0, [sp,#0]", "  push \x7br0\x7d", "  ldr r0, [sp,#1]", "  push \x7br0\x7d",
        "  pop \x7br1\x7d", "  pop \x7br0\x7d", "  bl jspReplaceWith", "  push \x7br0\x7d",
        "  pop \x7br0\x7d", "  bl jsvUnLock"] := by
  refine ⟨?_, by decide, by decide⟩
  intro op l r x
  rw [handle, handle]

set_option maxRecDepth 1000000 in
/-- C18. The operator `<=` is not treated as unsupported:
`function h(a,b){"compiled"; return a<=b;}` and the same function with `a<b`
compile to the same declaration; the lowering of `a<=b` calls `jsvMathsOp`
through the trampoline with the immediate 60, the code of `<`. -/
theorem less_equal_compiles_as_less :
    compileFunction (some sampleExport) lessEqualDecl =
      compileFunction (some sampleExport) lessDecl ∧
    bodyLowering sampleExport lessEqualDecl =
      ["  ldr r0, [sp,#0]", "  push \x7br0\x7d", "  ldr r0, [sp,#1]", "  push \x7br0\x7d",
        "  movs r2, #60", "  pop \x7br1\x7d", "  pop \x7br0\x7d", "  ldr    r7, exports",
        "  ldr    r7, [r7, #0]", "  bl     trampoline", "  push \x7br0\x7d", "  pop \x7br0\x7d",
        "  b end_of_fn"] := by
  decide

/-- The `BinaryExpression` handler reads only `node.operator.charCodeAt(0)`:
after the operands, `jsvMathsOp` is called with the code of the first
character of the operator as third argument, so two operators with the same
first character give the same result on the same operands. -/
theorem binary_operator_first_char (op1 op2 : String) (l r : Node) (x : Ctx)
    (h : charCodeAt0 op1 = charCodeAt0 op2) :
    handle (.BinaryExpression op1 l r) x = handle (.BinaryExpression op2 l r) x ∧
    (∀ (lv rv : JsVal) (x1 x2 : Ctx), handle l x = .ok lv x1 → handle r x1 = .ok rv x2 →
      handle (.BinaryExpression op1 l r) x =
        call "jsvMathsOp" [lv, rv, .num (charCodeAt0 op1)] x2) := by
  constructor
  · rw [handle, handle, h]
  · intro lv rv x1 x2 h1 h2
    rw [handle, h1]
    simp only [h2]

/-- The operators `<=` and `<` on the parameters of `function h(a,b)` have the
same lowering. -/
theorem binary_operator_first_char_witness :
    charCodeAt0 "<=" = charCodeAt0 "<" ∧
    handle (.BinaryExpression "<=" (.Identifier "a") (.Identifier "b"))
        (bodyStart sampleExport lessDecl) =
      handle (.BinaryExpression "<" (.Identifier "a") (.Identifier "b"))
        (bodyStart sampleExport lessDecl) :=
  ⟨by decide, (binary_operator_first_char "<=" "<" (.Identifier "a") (.Identifier "b")
    (bodyStart sampleExport lessDecl) (by decide)).1⟩

/-! ## Statements without handler -/

theorem handleEach_skip_other (t : String) (post : List Node) : ∀ (pre : List Node) (x : Ctx),
    handleEach (pre ++ .Other t :: post) x = handleEach (pre ++ post) x := by
  intro pre
  induction pre with
  | nil =>
    intro x
    rw [List.nil_append, List.nil_append, handleEach, handle]
    rfl
  | cons s rest ih =>
    intro x
    rw [List.cons_append, List.cons_append, handleEach, handleEach]
    cases handle s x with
    | threw x1 => rfl
    | ok v x1 =>
      simp only
      split_ifs
      · cases call "jsvUnLock" [v] x1 with
        | threw x2 => rfl
        | ok w x2 => exact ih x2
      · exact ih x1

/-- C14. A statement of a node type without handler emits nothing and yields
`undefined`; inserted at any position after the first statement of a function
body it changes neither the outcome of the traversal nor the emitted stream nor
the constant pool, and the declaration returned is the same. -/
theorem unsupported_statement_skipped (board : Option Export) (e : Export)
    (node : FunctionDeclaration) (s0 : Node) (pre post : List Node) (t : String) :
    (∀ x : Ctx, handle (.Other t) x = .ok .undefined x) ∧
    (∀ x : Ctx, handleEach (pre ++ .Other t :: post) x = handleEach (pre ++ post) x) ∧
    compileAssembly e { node with body := s0 :: (pre ++ .Other t :: post) } =
      compileAssembly e { node with body := s0 :: (pre ++ post) } ∧
    compileFunction board { node with body := s0 :: (pre ++ .Other t :: post) } =
      compileFunction board { node with body := s0 :: (pre ++ post) } := by
  have h1 : ∀ x : Ctx, handle (.Other t) x = .ok .undefined x := by
    intro x
    rw [handle]
  have h2 := handleEach_skip_other t post pre
  have h3 : ∀ e2 : Export,
      compileAssembly e2 { node with body := s0 :: (pre ++ .Other t :: post) } =
        compileAssembly e2 { node with body := s0 :: (pre ++ post) } := by
    intro e2
    unfold compileAssembly
    simp only [List.drop_succ_cons, List.drop_zero, h2]
    rfl
  refine ⟨h1, h2, h3 e, ?_⟩
  cases board with
  | none => rfl
  | some e2 =>
    unfold compileFunction
    simp only [h3 e2]
    rfl

/-! ## Parameters -/

theorem locals_stepInvariant (l : List (String × Nat)) :
    StepInvariant fun y => y.locals = l where
  plain := fun _ _ _ h => h
  pad := fun x h => by rw [alignPad_locals]; exact h
  load := fun _ x _ h => by rw [out_locals, alignPad_locals]; exact h
  pool := fun d x h => by rw [addBinaryData_locals]; exact h

theorem getLocalOffset_pushParams_of_not_mem (name : String) : ∀ (ps : List String) (idx : Nat)
    (x : Ctx), name ∉ ps →
      getLocalOffset (pushParams ps idx x) name = getLocalOffset x name := by
  intro ps
  induction ps with
  | nil => intro idx x _; rfl
  | cons p ps ih =>
    intro idx x h
    have hp : name ≠ p := fun hc => h (hc ▸ List.mem_cons_self _ _)
    have hps : name ∉ ps := fun hc => h (List.mem_cons_of_mem _ hc)
    have hb : (name == p) = false := by simpa using hp
    unfold pushParams
    rw [ih _ _ hps]
    simp [getLocalOffset, List.lookup, hb]

theorem getLocalOffset_pushParams : ∀ (ps : List String) (idx : Nat) (x : Ctx), ps.Nodup →
    ∀ (i : Nat) (hi : i < ps.length),
      getLocalOffset (pushParams ps idx x) (ps.get ⟨i, hi⟩) = some (idx + i) := by
  intro ps
  induction ps with
  | nil => intro idx x _ i hi; simp at hi
  | cons p ps ih =>
    intro idx x hnd i hi
    have hp : p ∉ ps := (List.nodup_cons.mp hnd).1
    have hps : ps.Nodup := (List.nodup_cons.mp hnd).2
    cases i with
    | zero =>
      show getLocalOffset (pushParams (p :: ps) idx x) p = some (idx + 0)
      unfold pushParams
      rw [getLocalOffset_pushParams_of_not_mem p ps _ _ hp]
      show List.lookup p ((p, idx) :: x.locals) = some (idx + 0)
      simp [List.lookup]
    | succ i =>
      have hi2 : i < ps.length := by simpa using hi
      show getLocalOffset (pushParams (p :: ps) idx x) (ps.get ⟨i, hi2⟩) = some (idx + (i + 1))
      unfold pushParams
      rw [ih (idx + 1) _ hps i hi2]
      congr 1
      omega

/-- C15. For pairwise distinct parameter names, when the body traversal starts
`getLocalOffset` gives the position of every parameter and nothing for every
other name; handling a node or a statement list never changes `locals`; and in
any context with these `locals` an identifier naming parameter `i` is lowered
to `ldr r0, [sp,#i]` and `push {r0}` and yields the on-stack value, while any
other identifier is lowered to the call of `jspeiFindInScopes` on the
reference of its interned name. -/
theorem parameter_offsets (e : Export) (node : FunctionDeclaration) (hnd : node.params.Nodup) :
    (∀ (i : Nat) (hi : i < node.params.length),
      getLocalOffset (bodyStart e node) (node.params.get ⟨i, hi⟩) = some i) ∧
    (∀ name : String, name ∉ node.params → getLocalOffset (bodyStart e node) name = none) ∧
    (∀ (n : Node) (y : Ctx), (handle n y).ctx.locals = y.locals) ∧
    (∀ (l : List Node) (y : Ctx), (handleEach l y).ctx.locals = y.locals) ∧
    (∀ (y : Ctx) (i : Nat) (hi : i < node.params.length),
      y.locals = (bodyStart e node).locals →
      handle (.Identifier (node.params.get ⟨i, hi⟩)) y =
        .ok stackValue (out "  push \x7br0\x7d"
          (out ("  ldr r0, [sp,#" ++ toString i ++ "]") y))) ∧
    (∀ (y : Ctx) (name : String),
      y.locals = (bodyStart e node).locals → name ∉ node.params →
      handle (.Identifier name) y =
        call "jspeiFindInScopes" [.str (addBinaryData (.str name) y).1]
          (addBinaryData (.str name) y).2) := by
  have h1 : ∀ (i : Nat) (hi : i < node.params.length),
      getLocalOffset (bodyStart e node) (node.params.get ⟨i, hi⟩) = some i := by
    intro i hi
    unfold bodyStart
    rw [getLocalOffset_pushParams node.params 0 _ hnd i hi, Nat.zero_add]
  have h2 : ∀ name : String, name ∉ node.params →
      getLocalOffset (bodyStart e node) name = none := by
    intro name hn
    unfold bodyStart
    rw [getLocalOffset_pushParams_of_not_mem name node.params 0 _ hn]
    rfl
  refine ⟨h1, h2, fun n y => handle_invariant (locals_stepInvariant y.locals) n y rfl,
    fun l y => handleEach_invariant (locals_stepInvariant y.locals) l y rfl, ?_, ?_⟩
  · intro y i hi hy
    have : getLocalOffset y (node.params.get ⟨i, hi⟩) = some i := by
      rw [← h1 i hi]
      unfold getLocalOffset
      rw [hy]
    rw [handle, this]
  · intro y name hy hn
    have : getLocalOffset y name = none := by
      rw [← h2 name hn]
      unfold getLocalOffset
      rw [hy]
    rw [handle, this]

/-- C15, witness: the parameters `[a, b, c]` get the offsets 0, 1, 2. -/
theorem parameter_offsets_witness :
    threeParamsDecl.params.Nodup ∧
    getLocalOffset (bodyStart sampleExport threeParamsDecl) "a" = some 0 ∧
    getLocalOffset (bodyStart sampleExport threeParamsDecl) "b" = some 1 ∧
    getLocalOffset (bodyStart sampleExport threeParamsDecl) "c" = some 2 :=
  ⟨by decide,
    (parameter_offsets sampleExport threeParamsDecl (by decide)).1 0 (by decide),
    (parameter_offsets sampleExport threeParamsDecl (by decide)).1 1 (by decide),
    (parameter_offsets sampleExport threeParamsDecl (by decide)).1 2 (by decide)⟩

/-! ## Literals -/

theorem wrap32_eq_self_iff (v : Int) :
    JsNumber.wrap32 v = v ↔ (-2 ^ 31 ≤ v ∧ v ≤ 2 ^ 31 - 1) := by
  unfold JsNumber.wrap32
  split_ifs with h <;> constructor <;> intro h2 <;> omega

/-- A number with an integral value is an integer for `isFloat` exactly when the
value is in the signed 32-bit range. -/
theorem isFloat_of_intValue (n : JsNumber) (v : Int) (hv : n.intValue? = some v) :
    isFloat n = false ↔ (-2 ^ 31 ≤ v ∧ v ≤ 2 ^ 31 - 1) := by
  unfold JsNumber.intValue? at hv
  split_ifs at hv with hi
  have hv2 : n.applySign n.magnitudeTrunc = v := Option.some.inj hv
  have hfin : n.isFinite = true := by
    unfold JsNumber.isInteger at hi
    exact (Bool.and_eq_true _ _ ▸ hi).1
  have hnan : n.isNaN = false := by
    unfold JsNumber.isFinite at hfin
    unfold JsNumber.isNaN
    simp only [bne_iff_ne, ne_eq] at hfin
    simp [hfin]
  have h32 : n.toInt32 = JsNumber.wrap32 v := by
    unfold JsNumber.toInt32
    rw [if_pos hfin, hv2]
  unfold isFloat JsNumber.intValue?
  rw [if_pos hi, hnan, h32, hv2, ← wrap32_eq_self_iff]
  simp only [Bool.not_false, Bool.true_and, bne_eq_false_iff_eq, Option.some.injEq]
  exact eq_comm

theorem poolIndex_get (d : Data) (x : Ctx) :
    (addBinaryData d x).2.constData.get? (poolIndex (encode d) x.constData) =
      some (encode d) :=
  ((firstIndex?_eq_some _ _ _).mp (poolIndex_stable d x (List.prefix_refl _))).1

/-- C16. A numeric literal with an integral value is an integer for the handler
exactly when the value is in the signed 32-bit range; then `jsvNewFromInteger`
is called on the scalar reference `const_k` of an entry of 4 bytes, the
little-endian bytes of the value modulo `2^32`; outside the range
`jsvNewFromFloat` is called on the scalar reference of an entry of 8 bytes, the
bytes of the double. For a string literal `jsvNewFromString` is called on the
pointer reference `*const_k` of the entry holding the code units of the string
and one zero. -/
theorem literal_classification (n : JsNumber) (v : Int) (hv : n.intValue? = some v)
    (s : String) (x : Ctx) :
    (isFloat n = false ↔ (-2 ^ 31 ≤ v ∧ v ≤ 2 ^ 31 - 1)) ∧
    ((-2 ^ 31 ≤ v ∧ v ≤ 2 ^ 31 - 1) → ∃ k : Nat,
      handle (.Literal (.num n)) x =
        call "jsvNewFromInteger" [.str ("const_" ++ toString k)] (addBinaryData (.num n) x).2 ∧
      (addBinaryData (.num n) x).2.constData.get? k = some (bytesLE 4 (v % 2 ^ 32).toNat) ∧
      (bytesLE 4 (v % 2 ^ 32).toNat).length = 4) ∧
    (¬ (-2 ^ 31 ≤ v ∧ v ≤ 2 ^ 31 - 1) → ∃ k : Nat,
      handle (.Literal (.num n)) x =
        call "jsvNewFromFloat" [.str ("const_" ++ toString k)] (addBinaryData (.num n) x).2 ∧
      (addBinaryData (.num n) x).2.constData.get? k = some (bytesLE 8 (n.bits % 2 ^ 64)) ∧
      (bytesLE 8 (n.bits % 2 ^ 64)).length = 8) ∧
    (∃ k : Nat,
      handle (.Literal (.str s)) x =
        call "jsvNewFromString" [.str ("*const_" ++ toString k)] (addBinaryData (.str s) x).2 ∧
      (addBinaryData (.str s) x).2.constData.get? k = some (codeUnits s ++ [0])) := by
  have hiff := isFloat_of_intValue n v hv
  refine ⟨hiff, ?_, ?_, ?_⟩
  · intro hr
    have hf : isFloat n = false := hiff.mpr hr
    have h32 : n.toInt32 = v := by
      unfold JsNumber.intValue? at hv
      split_ifs at hv with hi
      have hv2 : n.applySign n.magnitudeTrunc = v := Option.some.inj hv
      have hfin : n.isFinite = true := by
        unfold JsNumber.isInteger at hi
        exact (Bool.and_eq_true _ _ ▸ hi).1
      unfold JsNumber.toInt32
      rw [if_pos hfin, hv2]
      exact (wrap32_eq_self_iff v).mpr hr
    have he : encode (.num n) = bytesLE 4 (v % 2 ^ 32).toNat := by
      unfold encode int32Bytes
      simp only [hf, h32]
      rfl
    refine ⟨poolIndex (encode (.num n)) x.constData, ?_, ?_, by simp [bytesLE]⟩
    · rw [handle, hf, addBinaryData_fst]
      rfl
    · rw [← he]
      exact poolIndex_get _ _
  · intro hr
    have hf : isFloat n = true := by
      cases hc : isFloat n with
      | true => rfl
      | false => exact absurd (hiff.mp hc) hr
    have he : encode (.num n) = bytesLE 8 (n.bits % 2 ^ 64) := by
      unfold encode float64Bytes
      simp only [hf]
      rfl
    refine ⟨poolIndex (encode (.num n)) x.constData, ?_, ?_, by simp [bytesLE]⟩
    · rw [handle, hf, addBinaryData_fst]
      rfl
    · rw [← he]
      exact poolIndex_get _ _
  · refine ⟨poolIndex (encode (.str s)) x.constData, ?_, ?_⟩
    · rw [handle, addBinaryData_fst]
      rfl
    · exact poolIndex_get (.str s) x

/-- C16, witness: the literal `1` has the integral value 1 and is lowered to a
call of `jsvNewFromInteger`; the literal `2147483648` has an integral value
outside the range and is lowered to a call of `jsvNewFromFloat`. -/
theorem literal_classification_witness :
    one.intValue? = some 1 ∧ isFloat one = false ∧
    twoPow31.intValue? = some 2147483648 ∧ isFloat twoPow31 = true ∧
    (compileAssembly sampleExport { tenthDecl with
      body := [marker, .ReturnStatement (some (.Literal (.num one)))] }).ctx.assembly.drop 1 =
      ["  nop", "  ldr r0, const_0", "  nop", "  ldr    r7, exports", "  ldr    r7, [r7, #4]",
        "  bl     trampoline", "  push \x7br0\x7d", "  pop \x7br0\x7d", "  b end_of_fn",
        "end_of_fn:", "  pop \x7br7,lr\x7d", "  bx lr", "trampoline:", "  bx r7",
        "exports:", "  .word 4096", "const_0:", "  .word 0x1"] :=
  ⟨by decide, ((literal_classification one 1 (by decide) "" (initialCtx sampleExport)).1).mpr
      (by decide),
    by decide, by decide, by decide⟩

/-! ## Sizes of data lines -/

theorem lineSize_const_label (t : String) : lineSize ("const_" ++ t ++ ":") = 0 := by
  have hcs : ("const_" ++ t ++ ":").toList =
      'c' :: ('o' :: 'n' :: 's' :: 't' :: '_' :: t.toList ++ [':']) := by
    simp [String.toList, String.data_append]
  have htrim : trim ("const_" ++ t ++ ":").toList = ("const_" ++ t ++ ":").toList := by
    unfold trim
    rw [hcs]
    have h1 : isJsWhitespace 'c' = false := by decide
    have h2 : isJsWhitespace ':' = false := by decide
    rw [List.dropWhile_cons_of_neg (by simp [h1])]
    rw [List.reverse_cons, List.reverse_append, List.reverse_singleton, List.singleton_append,
      List.cons_append, List.dropWhile_cons_of_neg (by simp [h2])]
    simp
  unfold lineSize isLabel
  rw [htrim, hcs]
  have : ('c' :: ('o' :: 'n' :: 's' :: 't' :: '_' :: t.toList ++ [':'])).getLast? = some ':' := by
    rw [← List.cons_append, List.getLast?_concat]
  rw [this]
  simp

theorem firstToken_trim_word (s : String) :
    firstToken (trim ("  .word " ++ s).toList) = ".word".toList := by
  have hcs : ("  .word " ++ s).toList =
      ' ' :: ' ' :: '.' :: 'w' :: 'o' :: 'r' :: 'd' :: ' ' :: s.toList := rfl
  have hsp : isJsWhitespace ' ' = true := by decide
  have hdot : isJsWhitespace '.' = false := by decide
  have hd : isJsWhitespace 'd' = false := by decide
  unfold trim
  rw [hcs, List.dropWhile_cons_of_pos hsp, List.dropWhile_cons_of_pos hsp,
    List.dropWhile_cons_of_neg (by simp [hdot])]
  have hrev : ('.' :: 'w' :: 'o' :: 'r' :: 'd' :: ' ' :: s.toList).reverse =
      s.toList.reverse ++ [' ', 'd', 'r', 'o', 'w', '.'] := by
    simp
  rw [hrev, List.dropWhile_append]
  split_ifs with he
  · rw [List.dropWhile_cons_of_pos hsp, List.dropWhile_cons_of_neg (by simp [hd])]
    rfl
  · rw [List.reverse_append]
    rfl

/-- A `.word` line counts for 4 bytes, or for none if it ends in a colon. -/
theorem lineSize_word (s : String) : lineSize ("  .word " ++ s) % 4 = 0 := by
  unfold lineSize
  rw [firstToken_trim_word]
  split_ifs with h1 h2
  · rfl
  · rfl
  · exact absurd (by decide) h2

theorem getCodeSize_outAll_words (c : List Nat) (lines : List String)
    (h : getCodeSize lines % 4 = 0) : getCodeSize (lines ++ wordLines c) % 4 = 0 := by
  have key : ∀ (ws : List String), (∀ w ∈ ws, ∃ s : String, w = "  .word " ++ s) →
      ∀ ls : List String, getCodeSize ls % 4 = 0 → getCodeSize (ls ++ ws) % 4 = 0 := by
    intro ws
    induction ws with
    | nil => intro _ ls hls; simpa using hls
    | cons w ws ih =>
      intro hw ls hls
      obtain ⟨s, hs⟩ := hw w (List.mem_cons_self _ _)
      have : ls ++ w :: ws = (ls ++ [w]) ++ ws := by simp
      rw [this]
      apply ih (fun w2 h2 => hw w2 (List.mem_cons_of_mem _ h2))
      rw [getCodeSize_snoc, hs]
      have := lineSize_word s
      omega
  apply key _ _ _ h
  intro w hw
  unfold wordLines at hw
  rw [List.mem_map] at hw
  obtain ⟨j, _, rfl⟩ := hw
  exact ⟨"0x" ++ toString16 (word c (4 * j)), rfl⟩

/-! ## The lines of the body -/

theorem goodLine_mono {n m : Nat} {line : String} (h : GoodLine n line) (hnm : n ≤ m) :
    GoodLine m line :=
  ⟨h.1, fun t ht => by
    obtain ⟨k, hk, hkt⟩ := h.2 t ht
    exact ⟨k, Nat.lt_of_lt_of_le hk hnm, hkt⟩⟩

theorem goodLine_of_plain {n : Nat} {line : String} (h1 : isIndented line = true)
    (h2 : refTarget line = none) : GoodLine n line :=
  ⟨h1, fun t ht => by rw [h2] at ht; cases ht⟩

theorem bodyGood_out {x : Ctx} {line : String} (h : BodyGood x)
    (hl : GoodLine x.constData.length line) : BodyGood (out line x) := by
  intro l hm
  rw [out_assembly, List.mem_append, List.mem_singleton] at hm
  rcases hm with hm | hm
  · exact h l hm
  · rw [hm]; exact hl

theorem bodyGood_out_plain {x : Ctx} {line : String} (h : BodyGood x)
    (h1 : isIndented line = true) (h2 : refTarget line = none) : BodyGood (out line x) :=
  bodyGood_out h (goodLine_of_plain h1 h2)

theorem bodyGood_alignPad {x : Ctx} (h : BodyGood x) : BodyGood (alignPad x) := by
  rcases alignPad_cases x with ⟨_, e⟩ | ⟨_, e⟩
  · rw [e]; exact h
  · rw [e]; exact bodyGood_out_plain h rfl rfl

theorem bodyGood_addBinaryData (d : Data) {x : Ctx} (h : BodyGood x) :
    BodyGood (addBinaryData d x).2 := by
  intro l hm
  rw [addBinaryData_assembly] at hm
  exact goodLine_mono (h l hm) (addBinaryData_extends d x).length_le

theorem call_valueOk (name : String) (args : List JsVal) (x : Ctx) :
    ValueOk (call name args x) := by
  unfold call
  cases loadArgs 0 args x with
  | threw x1 => trivial
  | ok v x1 =>
    simp only
    split_ifs
    · exact Or.inl rfl
    · exact Or.inr rfl

theorem loadArg_good (i : Nat) (arg : JsVal) (x : Ctx) (ha : IsValueArg arg) (h : BodyGood x) :
    BodyGood (loadArg i arg x).ctx := by
  rcases ha with ha | ha | ⟨n, ha⟩
  · subst ha
    exact bodyGood_out_plain h rfl rfl
  · subst ha
    exact bodyGood_alignPad h
  · subst ha
    exact bodyGood_out_plain h rfl rfl

theorem loadArgs_good (args : List JsVal) (ha : ∀ a ∈ args, IsValueArg a) :
    ∀ (i : Nat) (x : Ctx), BodyGood x → BodyGood (loadArgs i args x).ctx := by
  induction args with
  | nil => intro i x h; exact h
  | cons a rest ih =>
    intro i x h
    have h1 := ih (fun b hb => ha b (List.mem_cons_of_mem _ hb)) (i + 1) x h
    unfold loadArgs
    cases hr : loadArgs (i + 1) rest x with
    | threw x1 => rw [hr] at h1; exact h1
    | ok v x1 =>
      rw [hr] at h1
      exact loadArg_good i a x1 (ha a (List.mem_cons_self _ _)) h1

theorem emitBranch_good (name : String) (x : Ctx) (h : BodyGood x) :
    BodyGood (emitBranch name x) := by
  unfold emitBranch
  cases firstIndex? name x.exportNames with
  | some exportIdx =>
    exact bodyGood_out_plain (bodyGood_out_plain
      (bodyGood_out_plain (bodyGood_alignPad h) rfl rfl) rfl rfl) rfl rfl
  | none => exact bodyGood_out_plain h rfl rfl

theorem call_tail_good (name : String) (x1 : Ctx) (h1 : BodyGood x1) :
    BodyGood (if (name != "jsvUnLock") = true then
      Outcome.ok stackValue (out "  push \x7br0\x7d" (emitBranch name x1))
      else Outcome.ok JsVal.undefined (emitBranch name x1)).ctx := by
  split_ifs
  · exact bodyGood_out_plain (emitBranch_good name x1 h1) rfl rfl
  · exact emitBranch_good name x1 h1

theorem call_good (name : String) (args : List JsVal) (x : Ctx)
    (ha : ∀ a ∈ args, IsValueArg a) (h : BodyGood x) : BodyGood (call name args x).ctx := by
  have h1 := loadArgs_good args ha 0 x h
  unfold call
  cases hr : loadArgs 0 args x with
  | threw x1 => rw [hr] at h1; exact h1
  | ok v x1 =>
    rw [hr] at h1
    exact call_tail_good name x1 h1

theorem poolIndex_lt (d : Data) (x : Ctx) :
    poolIndex (encode d) x.constData < (addBinaryData d x).2.constData.length := by
  have h := poolIndex_get d x
  by_contra hc
  have : (addBinaryData d x).2.constData.get? (poolIndex (encode d) x.constData) = none := by
    simp only [List.get?_eq_getElem?]
    exact List.getElem?_eq_none (Nat.le_of_not_lt hc)
  rw [this] at h
  cases h

/-- The load of the reference that `addBinaryData` has just returned. -/
theorem loadArgs_ref (d : Data) (x : Ctx) :
    loadArgs 0 [.str (addBinaryData d x).1] (addBinaryData d x).2 =
      .ok () (out ((match d with
          | .str _ => "  adr r0, "
          | .num _ => "  ldr r0, ") ++
            ("const_" ++ toString (poolIndex (encode d) x.constData)))
        (alignPad (addBinaryData d x).2)) := by
  rw [addBinaryData_fst]
  cases d with
  | str s => rfl
  | num n => rfl

theorem call_ref_good (name : String) (d : Data) (x : Ctx) (h : BodyGood x) :
    BodyGood (call name [.str (addBinaryData d x).1] (addBinaryData d x).2).ctx := by
  have hx : BodyGood (addBinaryData d x).2 := bodyGood_addBinaryData d h
  have hk := poolIndex_lt d x
  have hlen : (alignPad (addBinaryData d x).2).constData.length =
      (addBinaryData d x).2.constData.length := by rw [alignPad_constData]
  unfold call
  rw [loadArgs_ref]
  apply call_tail_good
  apply bodyGood_out (bodyGood_alignPad hx)
  rw [hlen]
  cases d with
  | str s =>
    refine ⟨rfl, ?_⟩
    intro t ht
    refine ⟨_, hk, ?_⟩
    have : refTarget ("  adr r0, " ++
        ("const_" ++ toString (poolIndex (encode (Data.str s)) x.constData))) =
        some (toString (poolIndex (encode (Data.str s)) x.constData)).toList := rfl
    rw [this] at ht
    exact (Option.some.inj ht).symm
  | num n =>
    refine ⟨rfl, ?_⟩
    intro t ht
    refine ⟨_, hk, ?_⟩
    have : refTarget ("  ldr r0, " ++
        ("const_" ++ toString (poolIndex (encode (Data.num n)) x.constData))) =
        some (toString (poolIndex (encode (Data.num n)) x.constData)).toList := rfl
    rw [this] at ht
    exact (Option.some.inj ht).symm

theorem valueOk_isValueArg {v : JsVal} {x1 : Ctx} {o : Outcome JsVal} (h : ValueOk o)
    (ho : o = .ok v x1) : IsValueArg v := by
  subst ho
  rcases h with h | h
  · exact Or.inl h
  · exact Or.inr (Or.inl h)

mutual
theorem handle_good : ∀ (node : Node) (x : Ctx), BodyGood x →
    BodyGood (handle node x).ctx ∧ ValueOk (handle node x)
  | .BlockStatement body, x, h => by
    have h1 := handleEach_good body x h
    rw [handle]
    cases hr : handleEach body x with
    | threw x1 => rw [hr] at h1; exact ⟨h1, trivial⟩
    | ok v x1 => rw [hr] at h1; exact ⟨h1, Or.inr rfl⟩
  | .ReturnStatement none, x, h => by
    rw [handle]; exact ⟨h, trivial⟩
  | .ReturnStatement (some a), x, h => by
    have h1 := (handle_good a x h).1
    rw [handle]
    cases hr : handle a x with
    | threw x1 => rw [hr] at h1; exact ⟨h1, trivial⟩
    | ok v x1 =>
      rw [hr] at h1
      refine ⟨?_, Or.inr rfl⟩
      simp only [Outcome.ctx]
      split_ifs
      · exact bodyGood_out_plain (bodyGood_out_plain h1 rfl rfl) rfl rfl
      · exact bodyGood_out_plain h1 rfl rfl
  | .ExpressionStatement e, x, h => by
    rw [handle]; exact handle_good e x h
  | .AssignmentExpression op l r, x, h => by
    have h1 := handle_good l x h
    rw [handle]
    cases hl : handle l x with
    | threw x1 => rw [hl] at h1; exact ⟨h1.1, trivial⟩
    | ok lv x1 =>
      have h2 := handle_good r x1 (by have := h1.1; rw [hl] at this; exact this)
      simp only
      cases hr : handle r x1 with
      | threw x2 => rw [hr] at h2; exact ⟨h2.1, trivial⟩
      | ok rv x2 =>
        refine ⟨call_good _ _ x2 ?_ (by have := h2.1; rw [hr] at this; exact this),
          call_valueOk _ _ _⟩
        intro a ha
        simp only [List.mem_cons, List.mem_singleton, List.not_mem_nil, or_false] at ha
        rcases ha with ha | ha
        · rw [ha]; exact valueOk_isValueArg h1.2 hl
        · rw [ha]; exact valueOk_isValueArg h2.2 hr
  | .BinaryExpression op l r, x, h => by
    have h1 := handle_good l x h
    rw [handle]
    cases hl : handle l x with
    | threw x1 => rw [hl] at h1; exact ⟨h1.1, trivial⟩
    | ok lv x1 =>
      have h2 := handle_good r x1 (by have := h1.1; rw [hl] at this; exact this)
      simp only
      cases hr : handle r x1 with
      | threw x2 => rw [hr] at h2; exact ⟨h2.1, trivial⟩
      | ok rv x2 =>
        refine ⟨call_good _ _ x2 ?_ (by have := h2.1; rw [hr] at this; exact this),
          call_valueOk _ _ _⟩
        intro a ha
        simp only [List.mem_cons, List.mem_singleton, List.not_mem_nil, or_false] at ha
        rcases ha with ha | ha | ha
        · rw [ha]; exact valueOk_isValueArg h1.2 hl
        · rw [ha]; exact valueOk_isValueArg h2.2 hr
        · rw [ha]; exact Or.inr (Or.inr ⟨_, rfl⟩)
  | .Literal (.str s), x, h => by
    rw [handle]
    exact ⟨call_ref_good _ _ _ h, call_valueOk _ _ _⟩
  | .Literal (.num n), x, h => by
    rw [handle]
    split_ifs
    · exact ⟨call_ref_good _ _ _ h, call_valueOk _ _ _⟩
    · exact ⟨call_ref_good _ _ _ h, call_valueOk _ _ _⟩
  | .Literal .other, x, h => by
    rw [handle]; exact ⟨h, Or.inr rfl⟩
  | .Identifier name, x, h => by
    rw [handle]
    cases hg : getLocalOffset x name with
    | some off =>
      exact ⟨bodyGood_out_plain (bodyGood_out_plain h rfl rfl) rfl rfl, Or.inl rfl⟩
    | none => exact ⟨call_ref_good _ _ _ h, call_valueOk _ _ _⟩
  | .Other t, x, h => by
    rw [handle]; exact ⟨h, Or.inr rfl⟩
theorem handleEach_good : ∀ (body : List Node) (x : Ctx), BodyGood x →
    BodyGood (handleEach body x).ctx
  | [], x, h => by rw [handleEach]; exact h
  | s :: rest, x, h => by
    have h1 := handle_good s x h
    rw [handleEach]
    cases hs : handle s x with
    | threw x1 => rw [hs] at h1; exact h1.1
    | ok v x1 =>
      have hx1 : BodyGood x1 := by have := h1.1; rw [hs] at this; exact this
      simp only
      split_ifs
      · have h2 := call_good "jsvUnLock" [v] x1 (by
          intro a ha
          rw [List.mem_singleton] at ha
          rw [ha]
          exact valueOk_isValueArg h1.2 hs) hx1
        cases hc : call "jsvUnLock" [v] x1 with
        | threw x2 => rw [hc] at h2; exact h2
        | ok w x2 =>
          rw [hc] at h2
          exact handleEach_good rest x2 h2
      · exact handleEach_good rest x1 hx1
end

theorem pushParams_good (ps : List String) : ∀ (idx : Nat) (x : Ctx),
    BodyGood x → BodyGood (pushParams ps idx x) := by
  induction ps with
  | nil => intro idx x h; exact h
  | cons p ps ih =>
    intro idx x h
    unfold pushParams
    apply ih
    exact bodyGood_out_plain (x := { x with locals := (p, idx) :: x.locals }) h rfl rfl

theorem bodyStart_good (e : Export) (node : FunctionDeclaration) :
    BodyGood (bodyStart e node) := by
  unfold bodyStart
  apply pushParams_good
  have h0 : BodyGood (initialCtx e) := by
    intro l hl
    simp [initialCtx] at hl
  exact bodyGood_out_plain h0 rfl rfl

/-- Every line of the body, and of the two pushes before it, is indented, and
every constant label loaded there is the label of a pool entry. -/
theorem bodyEnd_good (e : Export) (node : FunctionDeclaration) : BodyGood (bodyEnd e node) :=
  handleEach_good _ _ (bodyStart_good e node)

/-! ## Data alignment -/

theorem dataAligned_snoc {lines : List String} {line : String} (h : DataAligned lines)
    (h1 : isDataLabel line = true → getCodeSize lines % 4 = 0) :
    DataAligned (lines ++ [line]) := by
  intro i l hl hd
  rcases Nat.lt_or_ge i lines.length with hi | hi
  · have e1 : (lines ++ [line]).get? i = lines.get? i := by
      simp [List.getElem?_append_left hi]
    have e2 : (lines ++ [line]).take i = lines.take i := by
      rw [List.take_append_of_le_length (Nat.le_of_lt hi)]
    rw [e1] at hl
    rw [e2]
    exact h i l hl hd
  · have hi2 : i = lines.length := by
      have : i < (lines ++ [line]).length := by
        by_contra hc
        have : (lines ++ [line]).get? i = none := by
          simp only [List.get?_eq_getElem?]
          exact List.getElem?_eq_none (Nat.le_of_not_lt hc)
        rw [this] at hl
        cases hl
      simp at this
      omega
    subst hi2
    have e1 : (lines ++ [line]).get? lines.length = some line := by
      simp
    have e2 : (lines ++ [line]).take lines.length = lines := by
      simp
    rw [e1] at hl
    cases hl
    rw [e2]
    exact h1 hd

theorem dataAligned_append_plain (ws : List String) (hw : ∀ w ∈ ws, isDataLabel w = false) :
    ∀ lines : List String, DataAligned lines → DataAligned (lines ++ ws) := by
  induction ws with
  | nil => intro lines h; simpa using h
  | cons w ws ih =>
    intro lines h
    have : lines ++ w :: ws = (lines ++ [w]) ++ ws := by simp
    rw [this]
    apply ih (fun w2 h2 => hw w2 (List.mem_cons_of_mem _ h2))
    apply dataAligned_snoc h
    intro hd
    rw [hw w (List.mem_cons_self _ _)] at hd
    cases hd

theorem not_dataLabel_of_indented {line : String} (h : isIndented line = true) :
    isDataLabel line = false := by
  unfold isIndented at h
  unfold isDataLabel
  have h2 : line.toList.take 2 = "  ".toList := by simpa using h
  have h6 : ¬ (line.toList.take 6 = "const_".toList) := by
    intro hc
    have : (line.toList.take 6).take 2 = ("const_".toList).take 2 := by rw [hc]
    rw [List.take_take] at this
    simp only [Nat.reduceLeDiff, min_eq_left] at this
    rw [h2] at this
    revert this
    decide
  have h1 : ¬ (line = "exports:") := by
    intro hc
    rw [hc] at h2
    revert h2
    decide
  have h1b : (line == "exports:") = false := by simpa using h1
  have h6b : (line.toList.take 6 == "const_".toList) = false := by simpa using h6
  rw [h1b, h6b]
  rfl

theorem dataAligned_of_bodyGood {x : Ctx} (h : BodyGood x) : DataAligned x.assembly := by
  have := dataAligned_append_plain x.assembly
    (fun w hw => not_dataLabel_of_indented (h w hw).1) [] (by intro i l hl; simp at hl)
  simpa using this

theorem wordLines_not_dataLabel (c : List Nat) : ∀ w ∈ wordLines c, isDataLabel w = false := by
  intro w hw
  unfold wordLines at hw
  rw [List.mem_map] at hw
  obtain ⟨j, _, rfl⟩ := hw
  rfl

theorem constantLines_dataAligned (cs : List (List Nat)) : ∀ (n : Nat) (lines : List String),
    DataAligned lines → getCodeSize lines % 4 = 0 →
      DataAligned (lines ++ constantLines cs n) := by
  induction cs with
  | nil => intro n lines h _; simpa [constantLines] using h
  | cons c cs ih =>
    intro n lines h hs
    unfold constantLines
    have e : lines ++ ("const_" ++ toString n ++ ":") :: (wordLines c ++ constantLines cs (n + 1)) =
        ((lines ++ ["const_" ++ toString n ++ ":"]) ++ wordLines c) ++
          constantLines cs (n + 1) := by simp
    rw [e]
    have hs1 : getCodeSize (lines ++ ["const_" ++ toString n ++ ":"]) % 4 = 0 := by
      rw [getCodeSize_snoc, lineSize_const_label]
      exact hs
    apply ih
    · apply dataAligned_append_plain _ (wordLines_not_dataLabel c)
      exact dataAligned_snoc h (fun _ => hs)
    · exact getCodeSize_outAll_words c _ hs1

/-- The lines `finishFunction` appends, with the code size at the pad. -/
theorem finishFunction_assembly (e : Export) (node : FunctionDeclaration) (x : Ctx) :
    ∃ pad : List String, (pad = [] ∨ pad = ["  nop"]) ∧
      getCodeSize (x.assembly ++ (["end_of_fn:"] ++
        List.replicate node.params.length "  pop \x7br3\x7d" ++
        ["  pop \x7br7,lr\x7d", "  bx lr", "trampoline:", "  bx r7"] ++ pad)) % 4 = 0 ∧
      (finishFunction e node x).assembly = x.assembly ++ (["end_of_fn:"] ++
        List.replicate node.params.length "  pop \x7br3\x7d" ++
        ["  pop \x7br7,lr\x7d", "  bx lr", "trampoline:", "  bx r7"] ++ pad) ++
        ["exports:", "  .word " ++ toString e.ptr] ++ constantLines x.constData 0 := by
  obtain ⟨pad, hpad, hp⟩ := alignPad_assembly (out "  bx r7" (out "trampoline:" (out "  bx lr"
    (out "  pop \x7br7,lr\x7d" (popParams node.params (out "end_of_fn:" x))))))
  have hs := getCodeSize_alignPad (out "  bx r7" (out "trampoline:" (out "  bx lr"
    (out "  pop \x7br7,lr\x7d" (popParams node.params (out "end_of_fn:" x))))))
  rw [hp] at hs
  simp only [out_assembly, popParams_assembly, List.append_assoc] at hs
  refine ⟨pad, hpad, ?_, ?_⟩
  · simpa [List.append_assoc] using hs
  · unfold finishFunction
    simp only [emitConstants_assembly, out_assembly, hp, popParams_assembly, out_constData,
      alignPad_constData, popParams_constData, List.append_assoc]
    rfl

theorem finish_lines_not_dataLabel (n : Nat) (pad : List String)
    (hpad : pad = [] ∨ pad = ["  nop"]) :
    ∀ w ∈ ["end_of_fn:"] ++ List.replicate n "  pop \x7br3\x7d" ++
      ["  pop \x7br7,lr\x7d", "  bx lr", "trampoline:", "  bx r7"] ++ pad,
      isDataLabel w = false := by
  intro w hw
  simp only [List.mem_append, List.mem_cons, List.mem_singleton, List.not_mem_nil, or_false,
    List.mem_replicate] at hw
  rcases hw with ((hw | ⟨_, hw⟩) | hw | hw | hw | hw) | hw
  · subst hw; decide
  · subst hw; decide
  · subst hw; decide
  · subst hw; decide
  · subst hw; decide
  · subst hw; decide
  · rcases hpad with hpad | hpad
    · subst hpad; simp at hw
    · subst hpad
      simp only [List.mem_singleton] at hw
      subst hw; decide

theorem finishFunction_dataAligned (e : Export) (node : FunctionDeclaration) (x : Ctx)
    (h : BodyGood x) : DataAligned (finishFunction e node x).assembly := by
  obtain ⟨pad, hpad, hs, ha⟩ := finishFunction_assembly e node x
  rw [ha]
  have h1 := dataAligned_append_plain _ (finish_lines_not_dataLabel node.params.length pad hpad)
    x.assembly (dataAligned_of_bodyGood h)
  have h2 := @dataAligned_snoc _ "exports:" h1 (fun _ => hs)
  have hs2 : getCodeSize (x.assembly ++ (["end_of_fn:"] ++
        List.replicate node.params.length "  pop \x7br3\x7d" ++
        ["  pop \x7br7,lr\x7d", "  bx lr", "trampoline:", "  bx r7"] ++ pad) ++
        ["exports:"]) % 4 = 0 := by
    rw [getCodeSize_snoc]
    have : lineSize "exports:" = 0 := by decide
    omega
  have h3 := @dataAligned_snoc _ ("  .word " ++ toString e.ptr) h2 (fun hd => by
    have : isDataLabel ("  .word " ++ toString e.ptr) = false := rfl
    rw [this] at hd
    cases hd)
  have hs3 : getCodeSize (x.assembly ++ (["end_of_fn:"] ++
        List.replicate node.params.length "  pop \x7br3\x7d" ++
        ["  pop \x7br7,lr\x7d", "  bx lr", "trampoline:", "  bx r7"] ++ pad) ++
        ["exports:"] ++ ["  .word " ++ toString e.ptr]) % 4 = 0 := by
    rw [getCodeSize_snoc]
    have := lineSize_word (toString e.ptr)
    omega
  have h4 := constantLines_dataAligned x.constData 0 _ h3 hs3
  have e2 : x.assembly ++ (["end_of_fn:"] ++
        List.replicate node.params.length "  pop \x7br3\x7d" ++
        ["  pop \x7br7,lr\x7d", "  bx lr", "trampoline:", "  bx r7"] ++ pad) ++
        ["exports:", "  .word " ++ toString e.ptr] ++ constantLines x.constData 0 =
      x.assembly ++ (["end_of_fn:"] ++
        List.replicate node.params.length "  pop \x7br3\x7d" ++
        ["  pop \x7br7,lr\x7d", "  bx lr", "trampoline:", "  bx r7"] ++ pad) ++
        ["exports:"] ++ ["  .word " ++ toString e.ptr] ++ constantLines x.constData 0 := by
    simp
  rw [e2]
  exact h4

/-- C17. In the stream emitted for any function, whether the compilation
completes or an exception stops it, the code size of the lines before the
label `exports:` and before every label starting with `const_` is a multiple
of 4. -/
theorem compileAssembly_data_aligned (e : Export) (node : FunctionDeclaration) :
    DataAligned (compileAssembly e node).ctx.assembly := by
  have hb := bodyEnd_good e node
  unfold bodyEnd bodyStart at hb
  unfold compileAssembly
  cases hr : handleEach (node.body.drop 1)
      (pushParams node.params 0 (out "  push \x7br7,lr\x7d" (initialCtx e))) with
  | threw x1 =>
    rw [hr] at hb
    exact dataAligned_of_bodyGood hb
  | ok v x1 =>
    rw [hr] at hb
    exact finishFunction_dataAligned e node x1 hb

/-! ## Labels and references -/

theorem not_isDigit_comma : Char.isDigit ',' = false := by decide

theorem refTarget_of_refersTo {line : String} {k : Nat} (h : RefersTo line k) :
    refTarget line = some (toString k).toList := by
  obtain ⟨i, h | h⟩ := h
  · have hl : line.toList = ' ' :: ' ' :: 'a' :: 'd' :: 'r' :: ' ' :: 'r' ::
        ((toString i).toList ++ ',' :: ' ' :: 'c' :: 'o' :: 'n' :: 's' :: 't' :: '_' ::
          (toString k).toList) := by
      rw [h]
      simp [String.toList, String.data_append]
    unfold refTarget
    rw [hl]
    simp only [List.take_succ_cons, List.take_zero, List.drop_succ_cons, List.drop_zero]
    rw [List.dropWhile_append_of_pos (toString_isDigit i),
      List.dropWhile_cons_of_neg (by simp [not_isDigit_comma])]
    rfl
  · have hl : line.toList = ' ' :: ' ' :: 'l' :: 'd' :: 'r' :: ' ' :: 'r' ::
        ((toString i).toList ++ ',' :: ' ' :: 'c' :: 'o' :: 'n' :: 's' :: 't' :: '_' ::
          (toString k).toList) := by
      rw [h]
      simp [String.toList, String.data_append]
    unfold refTarget
    rw [hl]
    simp only [List.take_succ_cons, List.take_zero, List.drop_succ_cons, List.drop_zero]
    rw [List.dropWhile_append_of_pos (toString_isDigit i),
      List.dropWhile_cons_of_neg (by simp [not_isDigit_comma])]
    rfl

theorem toString_nat_inj_of_toList {n m : Nat} (h : (toString n).toList = (toString m).toList) :
    n = m :=
  toString_nat_inj (String.ext h)

/-- A good line that loads `const_k` loads the label of an entry below `n`. -/
theorem lt_of_goodLine_refersTo {n k : Nat} {line : String} (hg : GoodLine n line)
    (hr : RefersTo line k) : k < n := by
  obtain ⟨k2, hk2, ht⟩ := hg.2 _ (refTarget_of_refersTo hr)
  rw [toString_nat_inj_of_toList ht]
  exact hk2

theorem not_refersTo_of_refTarget_none {line : String} (h : refTarget line = none) (k : Nat) :
    ¬ RefersTo line k := by
  intro hr
  rw [refTarget_of_refersTo hr] at h
  cases h

/-- The lines of the constant pool are the labels of the entries and indented
`.word` lines. -/
theorem mem_constantLines (cs : List (List Nat)) : ∀ (n : Nat) (l : String),
    l ∈ constantLines cs n →
      (∃ k : Nat, n ≤ k ∧ k < n + cs.length ∧ l = "const_" ++ toString k ++ ":") ∨
      (∃ s : String, l = "  .word " ++ s) := by
  induction cs with
  | nil => intro n l hl; simp [constantLines] at hl
  | cons c cs ih =>
    intro n l hl
    unfold constantLines at hl
    rw [List.mem_cons, List.mem_append] at hl
    rcases hl with hl | hl | hl
    · exact Or.inl ⟨n, Nat.le_refl _, by simp, hl⟩
    · unfold wordLines at hl
      rw [List.mem_map] at hl
      obtain ⟨j, _, rfl⟩ := hl
      exact Or.inr ⟨"0x" ++ toString16 (word c (4 * j)), rfl⟩
    · rcases ih (n + 1) l hl with ⟨k, h1, h2, h3⟩ | h
      · exact Or.inl ⟨k, by omega, by simp only [List.length_cons]; omega, h3⟩
      · exact Or.inr h

theorem const_label_inj {n k : Nat}
    (h : "const_" ++ toString n ++ ":" = "const_" ++ toString k ++ ":") : n = k := by
  have h2 := congrArg String.toList h
  simp only [String.toList, String.data_append, List.append_assoc, List.append_cancel_left_eq,
    List.append_cancel_right_eq] at h2
  exact toString_nat_inj (String.ext h2)

theorem count_constantLines (k : Nat) (cs : List (List Nat)) : ∀ n : Nat,
    (constantLines cs n).count ("const_" ++ toString k ++ ":") =
      if n ≤ k ∧ k < n + cs.length then 1 else 0 := by
  induction cs with
  | nil =>
    intro n
    rw [if_neg (by simp only [List.length_nil]; omega)]
    rfl
  | cons c cs ih =>
    intro n
    unfold constantLines
    rw [List.count_cons, List.count_append, ih (n + 1)]
    have hw : (wordLines c).count ("const_" ++ toString k ++ ":") = 0 := by
      rw [List.count_eq_zero]
      intro hm
      unfold wordLines at hm
      rw [List.mem_map] at hm
      obtain ⟨j, _, hj⟩ := hm
      have h1 : ("  .word 0x" ++ toString16 (word c (4 * j))).toList.head? = some ' ' := rfl
      have h2 : ("const_" ++ toString k ++ ":").toList.head? = some 'c' := rfl
      rw [hj, h2] at h1
      revert h1
      decide
    rw [hw]
    simp only [List.length_cons]
    by_cases hnk : n = k
    · subst hnk
      have hL : ¬ (n + 1 ≤ n ∧ n < n + 1 + cs.length) := by omega
      have hR : n ≤ n ∧ n < n + (cs.length + 1) := by omega
      simp only [hL, hR, if_false, if_true, beq_self_eq_true, and_self]
    · have hne : (("const_" ++ toString n ++ ":") == ("const_" ++ toString k ++ ":")) = false := by
        cases hc : (("const_" ++ toString n ++ ":") == ("const_" ++ toString k ++ ":")) with
        | false => rfl
        | true => exact absurd (const_label_inj (by simpa using hc)) hnk
      have hR : (n ≤ k ∧ k < n + (cs.length + 1)) ↔ (n + 1 ≤ k ∧ k < n + 1 + cs.length) := by
        omega
      simp only [hne, hR, Bool.false_eq_true, if_false, Nat.add_zero, Nat.zero_add]

theorem count_eq_zero_of_forall_ne {L : String} {lines : List String}
    (h : ∀ l ∈ lines, l ≠ L) : lines.count L = 0 := by
  rw [List.count_eq_zero]
  intro hm
  exact h L hm rfl

theorem ne_of_indented {l L : String} (hl : isIndented l = true) (hL : isIndented L = false) :
    l ≠ L := by
  intro h
  rw [h, hL] at hl
  cases hl

theorem outAll_constData (lines : List String) : ∀ (x : Ctx),
    (lines.foldl (fun x1 line => out line x1) x).constData = x.constData := by
  induction lines with
  | nil => intro x; rfl
  | cons a rest ih => intro x; rw [List.foldl_cons, ih]; rfl

theorem emitConstants_constData (cs : List (List Nat)) : ∀ (n : Nat) (x : Ctx),
    (emitConstants cs n x).constData = x.constData := by
  induction cs with
  | nil => intro n x; rfl
  | cons c cs ih =>
    intro n x
    unfold emitConstants
    rw [ih, outAll_constData]
    rfl

theorem finishFunction_constData (e : Export) (node : FunctionDeclaration) (x : Ctx) :
    (finishFunction e node x).constData = x.constData := by
  unfold finishFunction
  simp only [emitConstants_constData, out_constData, alignPad_constData, popParams_constData]

/-- The lines between the body and the export word are among eight fixed
lines. -/
theorem finish_lines_mem (n : Nat) (pad : List String) (hpad : pad = [] ∨ pad = ["  nop"]) :
    ∀ w ∈ ["end_of_fn:"] ++ List.replicate n "  pop \x7br3\x7d" ++
      ["  pop \x7br7,lr\x7d", "  bx lr", "trampoline:", "  bx r7"] ++ pad ++ ["exports:"],
      w ∈ ["end_of_fn:", "  pop \x7br3\x7d", "  pop \x7br7,lr\x7d", "  bx lr", "trampoline:",
        "  bx r7", "  nop", "exports:"] := by
  intro w hw
  simp only [List.mem_append, List.mem_cons, List.mem_singleton, List.not_mem_nil, or_false,
    List.mem_replicate] at hw
  rcases hw with (((hw | ⟨_, hw⟩) | hw | hw | hw | hw) | hw) | hw
  · subst hw; decide
  · subst hw; decide
  · subst hw; decide
  · subst hw; decide
  · subst hw; decide
  · subst hw; decide
  · rcases hpad with hpad | hpad
    · subst hpad; simp at hw
    · subst hpad
      simp only [List.mem_singleton] at hw
      subst hw; decide
  · subst hw; decide

theorem count_finish_lines (n : Nat) (pad : List String) (hpad : pad = [] ∨ pad = ["  nop"]) :
    (["end_of_fn:"] ++ List.replicate n "  pop \x7br3\x7d" ++
      ["  pop \x7br7,lr\x7d", "  bx lr", "trampoline:", "  bx r7"] ++ pad ++
      ["exports:"]).count "end_of_fn:" = 1 ∧
    (["end_of_fn:"] ++ List.replicate n "  pop \x7br3\x7d" ++
      ["  pop \x7br7,lr\x7d", "  bx lr", "trampoline:", "  bx r7"] ++ pad ++
      ["exports:"]).count "trampoline:" = 1 ∧
    (["end_of_fn:"] ++ List.replicate n "  pop \x7br3\x7d" ++
      ["  pop \x7br7,lr\x7d", "  bx lr", "trampoline:", "  bx r7"] ++ pad ++
      ["exports:"]).count "exports:" = 1 := by
  rcases hpad with hpad | hpad <;> subst hpad <;>
    simp [List.count_append, List.count_cons, List.count_replicate]

theorem head_of_indented {m : String} (h : isIndented m = true) :
    m.toList.head? = some ' ' := by
  unfold isIndented at h
  have h2 : m.toList.take 2 = "  ".toList := by simpa using h
  cases hm : m.toList with
  | nil => rw [hm] at h2; cases h2
  | cons a l =>
    rw [hm] at h2
    cases l with
    | nil => cases h2
    | cons b l2 =>
      simp only [List.take_succ_cons, List.take_zero] at h2
      have : a = ' ' := by
        have := congrArg List.head? h2
        simpa using this
      rw [this]
      rfl

theorem count_eq_zero_of_head {L : String} {c : Char} {lines : List String}
    (hL : L.toList.head? = some c) (h : ∀ m ∈ lines, m.toList.head? ≠ some c) :
    lines.count L = 0 := by
  rw [List.count_eq_zero]
  intro hm
  exact h L hm hL

theorem head_constantLines (cs : List (List Nat)) (n : Nat) :
    ∀ m ∈ constantLines cs n, m.toList.head? = some 'c' ∨ m.toList.head? = some ' ' := by
  intro m hm
  rcases mem_constantLines cs n m hm with ⟨k, _, _, rfl⟩ | ⟨s, rfl⟩
  · exact Or.inl rfl
  · exact Or.inr rfl

theorem refTarget_constantLines (cs : List (List Nat)) (n : Nat) :
    ∀ m ∈ constantLines cs n, refTarget m = none := by
  intro m hm
  rcases mem_constantLines cs n m hm with ⟨k, _, _, rfl⟩ | ⟨s, rfl⟩
  · rfl
  · rfl

theorem not_const_of_indented {m : String} (h : isIndented m = true) :
    ¬ (m.toList.take 6 = "const_".toList) := by
  intro hc
  have h1 := head_of_indented h
  have h2 : (m.toList.take 6).head? = some 'c' := by rw [hc]; rfl
  cases hm : m.toList with
  | nil => rw [hm] at h1; cases h1
  | cons a l =>
    rw [hm] at h1 h2
    simp only [List.take_succ_cons, List.head?_cons, Option.some.injEq] at h1 h2
    rw [h1] at h2
    revert h2
    decide

theorem fixed_lines_props :
    ∀ m ∈ ["end_of_fn:", "  pop \x7br3\x7d", "  pop \x7br7,lr\x7d", "  bx lr", "trampoline:",
        "  bx r7", "  nop", "exports:"],
      m.toList.head? ≠ some 'c' ∧ refTarget m = none ∧
        ¬ (m.toList.take 6 = "const_".toList) := by
  decide

/-- C20. For a function whose statements after the marker are supported, the
compilation completes and in its stream each of the lines `end_of_fn:`,
`trampoline:` and `exports:` occurs exactly once; the line `const_k:` occurs
exactly once when `k` is below the final pool size and not at all otherwise;
every line starting with `const_` is one of these labels; and every line
`adr rN, const_k` or `ldr rN, const_k` has `k` below the final pool size. -/
theorem labels_well_formed (e : Export) (node : FunctionDeclaration)
    (h : supportedStmts (node.body.drop 1) = true) :
    ∃ x : Ctx, compileAssembly e node = .ok () x ∧
      x.assembly.count "end_of_fn:" = 1 ∧
      x.assembly.count "trampoline:" = 1 ∧
      x.assembly.count "exports:" = 1 ∧
      (∀ k : Nat, x.assembly.count ("const_" ++ toString k ++ ":") =
        if k < x.constData.length then 1 else 0) ∧
      (∀ line ∈ x.assembly, line.toList.take 6 = "const_".toList →
        ∃ k : Nat, k < x.constData.length ∧ line = "const_" ++ toString k ++ ":") ∧
      (∀ line ∈ x.assembly, ∀ k : Nat, RefersTo line k → k < x.constData.length) := by
  obtain ⟨x1, h1⟩ := handleEach_supported (node.body.drop 1) (bodyStart e node) h
  have hb : bodyEnd e node = x1 := by
    unfold bodyEnd; rw [h1]; rfl
  have hok : handleEach (node.body.drop 1) (bodyStart e node) = .ok () (bodyEnd e node) := by
    rw [hb]; exact h1
  have hgood := bodyEnd_good e node
  obtain ⟨pad, hpad, _, ha⟩ := finishFunction_assembly e node (bodyEnd e node)
  have hc := finishFunction_constData e node (bodyEnd e node)
  have hcomp : compileAssembly e node = .ok () (finishFunction e node (bodyEnd e node)) := by
    unfold compileAssembly
    unfold bodyStart at hok
    rw [hok]
  refine ⟨_, hcomp, ?_⟩
  rw [hc]
  obtain ⟨c1, c2, c3⟩ := count_finish_lines node.params.length pad hpad
  have hfix := finish_lines_mem node.params.length pad hpad
  obtain ⟨F, hF⟩ : ∃ F : List String, F = ["end_of_fn:"] ++
      List.replicate node.params.length "  pop \x7br3\x7d" ++
      ["  pop \x7br7,lr\x7d", "  bx lr", "trampoline:", "  bx r7"] ++ pad ++ ["exports:"] :=
    ⟨_, rfl⟩
  rw [← hF] at c1 c2 c3 hfix
  have hstream : (finishFunction e node (bodyEnd e node)).assembly =
      (bodyEnd e node).assembly ++ (F ++
        (["  .word " ++ toString e.ptr] ++ constantLines (bodyEnd e node).constData 0)) := by
    rw [ha, hF]
    simp
  rw [hstream]
  have hB : ∀ m ∈ (bodyEnd e node).assembly, m.toList.head? = some ' ' :=
    fun m hm => head_of_indented (hgood m hm).1
  have hC := head_constantLines (bodyEnd e node).constData 0
  have hword : ("  .word " ++ toString e.ptr).toList.head? = some ' ' := rfl
  have houter : ∀ (L : String) (c : Char), L.toList.head? = some c → c ≠ ' ' → c ≠ 'c' →
      (bodyEnd e node).assembly.count L = 0 ∧
      (["  .word " ++ toString e.ptr] ++
        constantLines (bodyEnd e node).constData 0).count L = 0 := by
    intro L c hL h1 h2
    constructor
    · apply count_eq_zero_of_head hL
      intro m hm hmc
      rw [hB m hm] at hmc
      exact h1 (Option.some.inj hmc).symm
    · apply count_eq_zero_of_head hL
      intro m hm hmc
      rw [List.mem_append, List.mem_singleton] at hm
      rcases hm with hm | hm
      · rw [hm, hword] at hmc
        exact h1 (Option.some.inj hmc).symm
      · rcases hC m hm with hh | hh
        · rw [hh] at hmc
          exact h2 (Option.some.inj hmc).symm
        · rw [hh] at hmc
          exact h1 (Option.some.inj hmc).symm
  refine ⟨?_, ?_, ?_, ?_, ?_, ?_⟩
  · obtain ⟨o1, o2⟩ := houter "end_of_fn:" 'e' rfl (by decide) (by decide)
    rw [List.count_append, List.count_append, o1, o2, c1]
  · obtain ⟨o1, o2⟩ := houter "trampoline:" 't' rfl (by decide) (by decide)
    rw [List.count_append, List.count_append, o1, o2, c2]
  · obtain ⟨o1, o2⟩ := houter "exports:" 'e' rfl (by decide) (by decide)
    rw [List.count_append, List.count_append, o1, o2, c3]
  · intro k
    have hL : ("const_" ++ toString k ++ ":").toList.head? = some 'c' := rfl
    have o1 : (bodyEnd e node).assembly.count ("const_" ++ toString k ++ ":") = 0 := by
      apply count_eq_zero_of_head hL
      intro m hm hmc
      rw [hB m hm] at hmc
      revert hmc
      decide
    have o2 : F.count ("const_" ++ toString k ++ ":") = 0 :=
      count_eq_zero_of_head hL (fun m hm => (fixed_lines_props m (hfix m hm)).1)
    have o3 : (["  .word " ++ toString e.ptr]).count ("const_" ++ toString k ++ ":") = 0 := by
      apply count_eq_zero_of_head hL
      intro m hm hmc
      rw [List.mem_singleton] at hm
      rw [hm, hword] at hmc
      revert hmc
      decide
    rw [List.count_append, List.count_append, List.count_append, o1, o2, o3,
      count_constantLines]
    simp
  · intro line hl hc6
    rw [List.mem_append, List.mem_append, List.mem_append, List.mem_singleton] at hl
    rcases hl with hl | hl | hl | hl
    · exact absurd hc6 (not_const_of_indented (hgood line hl).1)
    · exact absurd hc6 (fixed_lines_props line (hfix line hl)).2.2
    · rw [hl] at hc6
      exact absurd hc6 (not_const_of_indented rfl)
    · rcases mem_constantLines _ _ _ hl with ⟨k, _, hk, rfl⟩ | ⟨s, rfl⟩
      · exact ⟨k, by simpa using hk, rfl⟩
      · exact absurd hc6 (not_const_of_indented rfl)
  · intro line hl k hr
    rw [List.mem_append, List.mem_append, List.mem_append, List.mem_singleton] at hl
    rcases hl with hl | hl | hl | hl
    · exact lt_of_goodLine_refersTo (hgood line hl) hr
    · exact absurd hr
        (not_refersTo_of_refTarget_none (fixed_lines_props line (hfix line hl)).2.1 k)
    · exfalso
      have hn : refTarget line = none := by rw [hl]; rfl
      exact not_refersTo_of_refTarget_none hn k hr
    · exact absurd hr
        (not_refersTo_of_refTarget_none (refTarget_constantLines _ _ line hl) k)

/-- C20, witness: `function h(){"compiled"; return 0.1;}` compiles, its stream
has each of `end_of_fn:`, `trampoline:`, `exports:` and `const_0:` once and no
`const_1:`, and its `ldr r0, const_0` refers to the one entry of the pool. -/
theorem labels_well_formed_witness :
    supportedStmts (tenthDecl.body.drop 1) = true ∧
    ∃ x : Ctx, compileAssembly sampleExport tenthDecl = .ok () x ∧
      x.constData.length = 1 ∧
      "  ldr r0, const_0" ∈ x.assembly ∧
      x.assembly.count "end_of_fn:" = 1 ∧
      x.assembly.count "trampoline:" = 1 ∧
      x.assembly.count "exports:" = 1 ∧
      x.assembly.count ("const_" ++ toString 0 ++ ":") =
        (if 0 < x.constData.length then 1 else 0) ∧
      x.assembly.count ("const_" ++ toString 1 ++ ":") =
        (if 1 < x.constData.length then 1 else 0) :=
  ⟨by decide,
    match labels_well_formed sampleExport tenthDecl (by decide) with
    | ⟨x, hx, c1, c2, c3, c4, _, _⟩ =>
      have hx2 : x = (compileAssembly sampleExport tenthDecl).ctx := by rw [hx]; rfl
      ⟨x, hx, by rw [hx2]; decide, by rw [hx2]; decide, c1, c2, c3, c4 0, c4 1⟩⟩

/-! ## Stack balance -/

theorem stackDelta_append (l1 l2 : List String) :
    stackDelta (l1 ++ l2) = stackDelta l1 + stackDelta l2 := by
  simp [stackDelta, List.map_append, List.sum_append]

theorem stackDelta_nil : stackDelta [] = 0 := rfl

theorem stackDelta_singleton (l : String) : stackDelta [l] = stackEffect l := by
  simp [stackDelta]

theorem runs_nil {s : Int} (h : 0 ≤ s) : Runs s [] 0 := by
  refine ⟨rfl, fun k => ?_⟩
  simp [stackDelta_nil, h]

theorem runs_append {s d1 d2 : Int} {l1 l2 : List String} (h1 : Runs s l1 d1)
    (h2 : Runs (s + d1) l2 d2) : Runs s (l1 ++ l2) (d1 + d2) := by
  refine ⟨by rw [stackDelta_append, h1.1, h2.1], fun k => ?_⟩
  rw [List.take_append_eq_append_take, stackDelta_append]
  rcases Nat.le_total k l1.length with hk | hk
  · have : k - l1.length = 0 := Nat.sub_eq_zero_of_le hk
    rw [this, List.take_zero, stackDelta_nil, Int.add_zero]
    exact h1.2 k
  · rw [List.take_of_length_le hk, h1.1, ← Int.add_assoc]
    exact h2.2 _

theorem runs_single {s : Int} (l : String) (h0 : 0 ≤ s) (h1 : 0 ≤ s + stackEffect l) :
    Runs s [l] (stackEffect l) := by
  refine ⟨stackDelta_singleton l, fun k => ?_⟩
  cases k with
  | zero => simp [stackDelta_nil, h0]
  | succ k =>
    rw [List.take_succ_cons, List.take_nil, stackDelta_singleton]
    exact h1

theorem runs_neutral {s : Int} (ls : List String) (h0 : 0 ≤ s)
    (h : ∀ l ∈ ls, stackEffect l = 0) : Runs s ls 0 := by
  induction ls with
  | nil => exact runs_nil h0
  | cons a rest ih =>
    have ha : stackEffect a = 0 := h a (List.mem_cons_self _ _)
    have h1 : Runs s [a] (stackEffect a) := runs_single a h0 (by rw [ha]; simpa using h0)
    rw [ha] at h1
    have h2 : Runs (s + 0) rest 0 := by
      rw [Int.add_zero]
      exact ih (fun l hl => h l (List.mem_cons_of_mem _ hl))
    have := runs_append h1 h2
    simpa using this

theorem runs_mono {s s2 d : Int} {ls : List String} (h : Runs s ls d) (hs : s ≤ s2) :
    Runs s2 ls d :=
  ⟨h.1, fun k => le_trans (h.2 k) (by omega)⟩

/-- The lines of the branch to the callee leave the stack alone. -/
theorem emitBranch_lines (name : String) (x : Ctx) :
    ∃ bl : List String, (emitBranch name x).assembly = x.assembly ++ bl ∧
      ∀ l ∈ bl, stackEffect l = 0 := by
  unfold emitBranch
  cases firstIndex? name x.exportNames with
  | some exportIdx =>
    obtain ⟨pad, hpad, hp⟩ := alignPad_assembly x
    refine ⟨pad ++ ["  ldr    r7, exports",
      "  ldr    r7, [r7, #" ++ toString (exportIdx * 4) ++ "]", "  bl     trampoline"], ?_, ?_⟩
    · simp only [out_assembly, hp]
      simp
    · intro l hl
      rw [List.mem_append] at hl
      rcases hl with hl | hl
      · rcases hpad with hpad | hpad
        · subst hpad; simp at hl
        · subst hpad
          rw [List.mem_singleton] at hl
          subst hl
          decide
      · simp only [List.mem_cons, List.mem_singleton, List.not_mem_nil, or_false] at hl
        rcases hl with hl | hl | hl
        · subst hl; decide
        · subst hl; rfl
        · subst hl; decide
  | none =>
    refine ⟨["  bl " ++ name], rfl, ?_⟩
    intro l hl
    rw [List.mem_singleton] at hl
    subst hl
    rfl

theorem stackEffect_push_r0 : stackEffect "  push \x7br0\x7d" = 1 := by decide

theorem stackEffect_pop_r0 : stackEffect "  pop \x7br0\x7d" = -1 := by decide

theorem stackEffect_pop_r1 : stackEffect "  pop \x7br1\x7d" = -1 := by decide

/-- The tail of a call that returns a value: the branch lines and `push {r0}`. -/
theorem call_tail_lines (name : String) (x : Ctx) {s : Int} (hs : 0 ≤ s) :
    ∃ ls : List String,
      (out "  push \x7br0\x7d" (emitBranch name x)).assembly = x.assembly ++ ls ∧
      Runs s ls 1 := by
  obtain ⟨bl, hb, hn⟩ := emitBranch_lines name x
  refine ⟨bl ++ ["  push \x7br0\x7d"], by rw [out_assembly, hb, List.append_assoc], ?_⟩
  have h1 := runs_neutral (s := s) bl hs hn
  have h2 : Runs (s + 0) ["  push \x7br0\x7d"] (stackEffect "  push \x7br0\x7d") :=
    runs_single _ (by simpa using hs) (by rw [stackEffect_push_r0]; omega)
  rw [stackEffect_push_r0] at h2
  have := runs_append h1 h2
  simpa using this

theorem loadArgs_ref_line (d : Data) (x : Ctx) :
    ∃ rl : String, loadArgs 0 [.str (addBinaryData d x).1] (addBinaryData d x).2 =
      .ok () (out rl (alignPad (addBinaryData d x).2)) ∧ stackEffect rl = 0 :=
  ⟨_, loadArgs_ref d x, by cases d <;> rfl⟩

/-- The call on the reference just returned by `addBinaryData` pushes one
value. -/
theorem call_ref_lines (name : String) (hname : (name != "jsvUnLock") = true) (d : Data)
    (x : Ctx) :
    ∃ (x1 : Ctx) (ls : List String),
      call name [.str (addBinaryData d x).1] (addBinaryData d x).2 = .ok stackValue x1 ∧
      x1.assembly = x.assembly ++ ls ∧ Runs 0 ls 1 := by
  obtain ⟨pad, hpad, hp⟩ := alignPad_assembly (addBinaryData d x).2
  obtain ⟨rl, hrl, hz⟩ := loadArgs_ref_line d x
  obtain ⟨tl, ht, hr⟩ := call_tail_lines name (out rl (alignPad (addBinaryData d x).2))
    (s := 0) (le_refl _)
  refine ⟨out "  push \x7br0\x7d" (emitBranch name (out rl (alignPad (addBinaryData d x).2))),
    (pad ++ [rl]) ++ tl, ?_, ?_, ?_⟩
  · unfold call
    rw [hrl]
    simp only [hname, if_true]
  · rw [ht, out_assembly, hp, addBinaryData_assembly]
    simp
  · have hn : Runs 0 (pad ++ [rl]) 0 := by
      apply runs_neutral _ (le_refl _)
      intro l hl
      rw [List.mem_append, List.mem_singleton] at hl
      rcases hl with hl | hl
      · rcases hpad with hpad | hpad
        · subst hpad; simp at hl
        · subst hpad
          rw [List.mem_singleton] at hl
          subst hl
          decide
      · subst hl
        exact hz
    have := runs_append hn (by simpa using hr)
    simpa using this

/-- A call on two on-stack values pops both and pushes the result. -/
theorem call_stack2_lines (name : String) (hname : (name != "jsvUnLock") = true) (x : Ctx) :
    ∃ (x1 : Ctx) (ls : List String),
      call name [stackValue, stackValue] x = .ok stackValue x1 ∧
      x1.assembly = x.assembly ++ ls ∧ Runs 2 ls (-1) := by
  have hl : loadArgs 0 [stackValue, stackValue] x =
      .ok () (out "  pop \x7br0\x7d" (out "  pop \x7br1\x7d" x)) := rfl
  obtain ⟨tl, ht, hr⟩ := call_tail_lines name (out "  pop \x7br0\x7d" (out "  pop \x7br1\x7d" x))
    (s := 0) (le_refl _)
  refine ⟨out "  push \x7br0\x7d" (emitBranch name
    (out "  pop \x7br0\x7d" (out "  pop \x7br1\x7d" x))),
    ["  pop \x7br1\x7d", "  pop \x7br0\x7d"] ++ tl, ?_, ?_, ?_⟩
  · unfold call
    rw [hl]
    simp only [hname, if_true]
  · rw [ht]
    simp
  · have h1 : Runs 2 ["  pop \x7br1\x7d"] (-1) := by
      have := runs_single (s := 2) "  pop \x7br1\x7d" (by omega)
        (by rw [stackEffect_pop_r1]; omega)
      rwa [stackEffect_pop_r1] at this
    have h2 : Runs (2 + -1) ["  pop \x7br0\x7d"] (-1) := by
      have := runs_single (s := 2 + -1) "  pop \x7br0\x7d" (by omega)
        (by rw [stackEffect_pop_r0]; omega)
      rwa [stackEffect_pop_r0] at this
    have h3 := runs_append h1 h2
    have h4 : Runs (2 + (-1 + -1)) tl 1 := by simpa using hr
    have := runs_append h3 h4
    simpa using this

/-- A call on two on-stack values and a number pops both values and pushes the
result. -/
theorem call_stack3_lines (name : String) (hname : (name != "jsvUnLock") = true)
    (c : Option Nat) (x : Ctx) :
    ∃ (x1 : Ctx) (ls : List String),
      call name [stackValue, stackValue, .num c] x = .ok stackValue x1 ∧
      x1.assembly = x.assembly ++ ls ∧ Runs 2 ls (-1) := by
  have hl : loadArgs 0 [stackValue, stackValue, .num c] x =
      .ok () (out "  pop \x7br0\x7d" (out "  pop \x7br1\x7d"
        (out ("  movs r2, #" ++ numToString c) x))) := rfl
  obtain ⟨tl, ht, hr⟩ := call_tail_lines name (out "  pop \x7br0\x7d" (out "  pop \x7br1\x7d"
    (out ("  movs r2, #" ++ numToString c) x))) (s := 0) (le_refl _)
  refine ⟨out "  push \x7br0\x7d" (emitBranch name (out "  pop \x7br0\x7d"
    (out "  pop \x7br1\x7d" (out ("  movs r2, #" ++ numToString c) x)))),
    ["  movs r2, #" ++ numToString c, "  pop \x7br1\x7d", "  pop \x7br0\x7d"] ++ tl,
    ?_, ?_, ?_⟩
  · unfold call
    rw [hl]
    simp only [hname, if_true]
  · rw [ht]
    simp
  · have h0 : Runs 2 ["  movs r2, #" ++ numToString c] 0 :=
      runs_neutral _ (by omega) (fun l hl => by
        rw [List.mem_singleton] at hl
        subst hl
        rfl)
    have h1 : Runs (2 + 0) ["  pop \x7br1\x7d"] (-1) := by
      have := runs_single (s := 2 + 0) "  pop \x7br1\x7d" (by omega)
        (by rw [stackEffect_pop_r1]; omega)
      rwa [stackEffect_pop_r1] at this
    have h2 : Runs (2 + (0 + -1)) ["  pop \x7br0\x7d"] (-1) := by
      have := runs_single (s := 2 + (0 + -1)) "  pop \x7br0\x7d" (by omega)
        (by rw [stackEffect_pop_r0]; omega)
      rwa [stackEffect_pop_r0] at this
    have h3 := runs_append (runs_append h0 h1) h2
    have h4 : Runs (2 + (0 + -1 + -1)) tl 1 := by simpa using hr
    have := runs_append h3 h4
    simpa using this

/-- The release call pops the value and pushes nothing. -/
theorem release_lines (x : Ctx) :
    ∃ (x1 : Ctx) (ls : List String),
      call "jsvUnLock" [stackValue] x = .ok .undefined x1 ∧
      x1.assembly = x.assembly ++ ls ∧ Runs 1 ls (-1) := by
  obtain ⟨bl, hb, hn⟩ := emitBranch_lines "jsvUnLock" (out "  pop \x7br0\x7d" x)
  refine ⟨emitBranch "jsvUnLock" (out "  pop \x7br0\x7d" x), ["  pop \x7br0\x7d"] ++ bl, rfl, ?_, ?_⟩
  · rw [hb]
    simp
  · have h1 : Runs 1 ["  pop \x7br0\x7d"] (-1) := by
      have := runs_single (s := 1) "  pop \x7br0\x7d" (by omega)
        (by rw [stackEffect_pop_r0]; omega)
      rwa [stackEffect_pop_r0] at this
    have h2 : Runs (1 + -1) bl 0 := runs_neutral bl (by omega) hn
    have := runs_append h1 h2
    simpa using this

mutual
theorem handle_expr_balanced : ∀ (node : Node) (x : Ctx), supportedExpr node = true →
    ∃ (x1 : Ctx) (ls : List String),
      handle node x = .ok stackValue x1 ∧ x1.assembly = x.assembly ++ ls ∧ Runs 0 ls 1
  | .Identifier name, x, _ => by
    rw [handle]
    cases getLocalOffset x name with
    | some off =>
      refine ⟨out "  push \x7br0\x7d" (out ("  ldr r0, [sp,#" ++ toString off ++ "]") x),
        ["  ldr r0, [sp,#" ++ toString off ++ "]", "  push \x7br0\x7d"], rfl, by simp, ?_⟩
      have h0 : Runs 0 ["  ldr r0, [sp,#" ++ toString off ++ "]"] 0 :=
        runs_neutral _ (le_refl _) (fun l hl => by
          rw [List.mem_singleton] at hl
          subst hl
          rfl)
      have h1 : Runs (0 + 0) ["  push \x7br0\x7d"] 1 := by
        have := runs_single (s := 0 + 0) "  push \x7br0\x7d" (by omega)
          (by rw [stackEffect_push_r0]; omega)
        rwa [stackEffect_push_r0] at this
      have := runs_append h0 h1
      simpa using this
    | none => exact call_ref_lines "jspeiFindInScopes" (by decide) _ x
  | .Literal (.str s), x, _ => by
    rw [handle]
    exact call_ref_lines "jsvNewFromString" (by decide) _ x
  | .Literal (.num n), x, _ => by
    rw [handle]
    split_ifs
    · exact call_ref_lines "jsvNewFromFloat" (by decide) _ x
    · exact call_ref_lines "jsvNewFromInteger" (by decide) _ x
  | .Literal .other, x, h => by simp [supportedExpr] at h
  | .BinaryExpression op l r, x, h => by
    simp only [supportedExpr, Bool.and_eq_true] at h
    obtain ⟨x1, l1, h1, a1, r1⟩ := handle_expr_balanced l x h.1
    obtain ⟨x2, l2, h2, a2, r2⟩ := handle_expr_balanced r x1 h.2
    obtain ⟨x3, l3, h3, a3, r3⟩ := call_stack3_lines "jsvMathsOp" (by decide)
      (charCodeAt0 op) x2
    refine ⟨x3, l1 ++ l2 ++ l3, ?_, ?_, ?_⟩
    · rw [handle, h1]
      simp only [h2]
      exact h3
    · rw [a3, a2, a1]
      simp
    · have := runs_append (runs_append r1 (runs_mono r2 (by omega))) (by simpa using r3)
      simpa using this
  | .AssignmentExpression op l r, x, h => by
    simp only [supportedExpr, Bool.and_eq_true] at h
    obtain ⟨x1, l1, h1, a1, r1⟩ := handle_expr_balanced l x h.1
    obtain ⟨x2, l2, h2, a2, r2⟩ := handle_expr_balanced r x1 h.2
    obtain ⟨x3, l3, h3, a3, r3⟩ := call_stack2_lines "jspReplaceWith" (by decide) x2
    refine ⟨x3, l1 ++ l2 ++ l3, ?_, ?_, ?_⟩
    · rw [handle, h1]
      simp only [h2]
      exact h3
    · rw [a3, a2, a1]
      simp
    · have := runs_append (runs_append r1 (runs_mono r2 (by omega))) (by simpa using r3)
      simpa using this
  | .BlockStatement body, x, h => by simp [supportedExpr] at h
  | .ReturnStatement a, x, h => by simp [supportedExpr] at h
  | .ExpressionStatement e, x, h => by simp [supportedExpr] at h
  | .Other t, x, h => by simp [supportedExpr] at h
theorem handle_stmt_balanced : ∀ (node : Node) (x : Ctx), supportedStmt node = true →
    ∃ (v : JsVal) (x1 : Ctx) (ls : List String),
      handle node x = .ok v x1 ∧ x1.assembly = x.assembly ++ ls ∧
      ((v = stackValue ∧ Runs 0 ls 1) ∨ (v = JsVal.undefined ∧ Runs 0 ls 0))
  | .ExpressionStatement e, x, h => by
    simp only [supportedStmt] at h
    obtain ⟨x1, l1, h1, a1, r1⟩ := handle_expr_balanced e x h
    exact ⟨stackValue, x1, l1, by rw [handle, h1], a1, Or.inl ⟨rfl, r1⟩⟩
  | .ReturnStatement (some a), x, h => by
    simp only [supportedStmt] at h
    obtain ⟨x1, l1, h1, a1, r1⟩ := handle_expr_balanced a x h
    refine ⟨.undefined, out "  b end_of_fn" (out "  pop \x7br0\x7d" x1),
      l1 ++ ["  pop \x7br0\x7d", "  b end_of_fn"], ?_, ?_, Or.inr ⟨rfl, ?_⟩⟩
    · rw [handle, h1]
      rfl
    · simp [a1]
    · have h2 : Runs (0 + 1) ["  pop \x7br0\x7d"] (-1) := by
        have := runs_single (s := 0 + 1) "  pop \x7br0\x7d" (by omega)
          (by rw [stackEffect_pop_r0]; omega)
        rwa [stackEffect_pop_r0] at this
      have h3 : Runs (0 + (1 + -1)) ["  b end_of_fn"] 0 :=
        runs_neutral _ (by omega) (fun l hl => by
          rw [List.mem_singleton] at hl
          subst hl
          decide)
      have := runs_append (runs_append r1 h2) h3
      simpa using this
  | .ReturnStatement none, x, h => by simp [supportedStmt] at h
  | .BlockStatement body, x, h => by
    simp only [supportedStmt] at h
    obtain ⟨x1, l1, h1, a1, r1⟩ := handleEach_balanced body x h
    exact ⟨.undefined, x1, l1, by rw [handle, h1], a1, Or.inr ⟨rfl, r1⟩⟩
  | .Identifier name, x, h => by simp [supportedStmt] at h
  | .Literal v, x, h => by simp [supportedStmt] at h
  | .BinaryExpression op l r, x, h => by simp [supportedStmt] at h
  | .AssignmentExpression op l r, x, h => by simp [supportedStmt] at h
  | .Other t, x, h => by simp [supportedStmt] at h
theorem handleEach_balanced : ∀ (body : List Node) (x : Ctx), supportedStmts body = true →
    ∃ (x1 : Ctx) (ls : List String),
      handleEach body x = .ok () x1 ∧ x1.assembly = x.assembly ++ ls ∧ Runs 0 ls 0
  | [], x, _ => ⟨x, [], by rw [handleEach], by simp, runs_nil (le_refl _)⟩
  | s :: rest, x, h => by
    simp only [supportedStmts, Bool.and_eq_true] at h
    obtain ⟨v, x1, l1, h1, a1, hv⟩ := handle_stmt_balanced s x h.1
    rcases hv with ⟨hv, r1⟩ | ⟨hv, r1⟩
    · subst hv
      obtain ⟨x2, l2, h2, a2, r2⟩ := release_lines x1
      obtain ⟨x3, l3, h3, a3, r3⟩ := handleEach_balanced rest x2 h.2
      refine ⟨x3, l1 ++ l2 ++ l3, ?_, ?_, ?_⟩
      · rw [handleEach, h1]
        have ht : truthy stackValue = true := by decide
        simp only [ht, if_true, h2]
        exact h3
      · rw [a3, a2, a1]
        simp
      · have := runs_append (runs_append r1 (by simpa using r2)) (by simpa using r3)
        simpa using this
    · subst hv
      obtain ⟨x3, l3, h3, a3, r3⟩ := handleEach_balanced rest x1 h.2
      refine ⟨x3, l1 ++ l3, ?_, ?_, ?_⟩
      · rw [handleEach, h1]
        have ht : truthy JsVal.undefined = false := rfl
        simp only [ht]
        exact h3
      · rw [a3, a1]
        simp
      · have := runs_append r1 (by simpa using r3)
        simpa using this
end

theorem not_pop_of_push {l : String} (h : isSinglePush l = true) : isSinglePop l = false := by
  unfold isSinglePush at h
  unfold isSinglePop
  have h1 : l.toList.take 9 = "  push \x7br".toList := by
    simp only [Bool.and_eq_true, beq_iff_eq] at h
    exact h.1
  have h2 : ¬ (l.toList.take 8 = "  pop \x7br".toList) := by
    intro hc
    have e1 : (l.toList.take 9).take 4 = ("  push \x7br".toList).take 4 := by rw [h1]
    have e2 : (l.toList.take 8).take 4 = ("  pop \x7br".toList).take 4 := by rw [hc]
    rw [List.take_take] at e1 e2
    simp only [Nat.reduceLeDiff, min_eq_left] at e1 e2
    rw [e1] at e2
    revert e2
    decide
  have h3 : (l.toList.take 8 == "  pop \x7br".toList) = false := by simpa using h2
  rw [h3]
  rfl

/-- The balance of a list of lines is its number of single-register pushes
minus its number of single-register pops. -/
theorem stackDelta_eq_counts (ls : List String) :
    stackDelta ls = (ls.countP isSinglePush : Int) - (ls.countP isSinglePop : Int) := by
  induction ls with
  | nil => rfl
  | cons a rest ih =>
    have e : stackDelta (a :: rest) = stackEffect a + stackDelta rest := by
      simp [stackDelta]
    rw [e, ih, List.countP_cons, List.countP_cons]
    unfold stackEffect
    cases hp : isSinglePush a with
    | true =>
      rw [not_pop_of_push hp]
      simp
      omega
    | false =>
      cases hq : isSinglePop a with
      | true => simp; omega
      | false => simp

theorem counts_of_runs {s d : Int} {ls : List String} (h : Runs s ls d) :
    (ls.countP isSinglePush : Int) = (ls.countP isSinglePop : Int) + d := by
  have := stackDelta_eq_counts ls
  rw [h.1] at this
  omega

/-- C19. For a function whose statements after the marker are supported:
every supported expression is lowered to lines that contain exactly one more
single-register push than pop, and yields the on-stack value; every supported
statement, with the release call the statement loop adds for its value, is
lowered to lines with as many pushes as pops; in both cases the running
push-minus-pop count never becomes negative; and the lines of the body,
between the parameter pushes and `end_of_fn:`, have as many single-register
pushes as pops and a running count that never becomes negative. -/
theorem body_stack_balanced (e : Export) (node : FunctionDeclaration)
    (h : supportedStmts (node.body.drop 1) = true) :
    (∀ (expr : Node) (x : Ctx), supportedExpr expr = true →
      ∃ (x1 : Ctx) (ls : List String), handle expr x = .ok stackValue x1 ∧
        x1.assembly = x.assembly ++ ls ∧
        ls.countP isSinglePush = ls.countP isSinglePop + 1 ∧ Runs 0 ls 1) ∧
    (∀ (s : Node) (x : Ctx), supportedStmt s = true →
      ∃ (x1 : Ctx) (ls : List String), handleEach [s] x = .ok () x1 ∧
        x1.assembly = x.assembly ++ ls ∧
        ls.countP isSinglePush = ls.countP isSinglePop ∧ Runs 0 ls 0) ∧
    (bodyEnd e node).assembly = (bodyStart e node).assembly ++ bodyLowering e node ∧
    handleEach (node.body.drop 1) (bodyStart e node) = .ok () (bodyEnd e node) ∧
    (bodyLowering e node).countP isSinglePush = (bodyLowering e node).countP isSinglePop ∧
    Runs 0 (bodyLowering e node) 0 := by
  obtain ⟨x1, ls, h1, a1, r1⟩ := handleEach_balanced (node.body.drop 1) (bodyStart e node) h
  have hb : bodyEnd e node = x1 := by
    unfold bodyEnd; rw [h1]; rfl
  have ha := bodyEnd_assembly e node
  rw [← bodyStart_assembly] at ha
  have hls : ls = bodyLowering e node := by
    rw [hb, a1] at ha
    exact List.append_cancel_left ha
  have hbody : Runs 0 (bodyLowering e node) 0 := by
    rw [← hls]
    exact r1
  refine ⟨?_, ?_, ha, by rw [hb]; exact h1, ?_, hbody⟩
  · intro expr x hs
    obtain ⟨x2, l2, h2, a2, r2⟩ := handle_expr_balanced expr x hs
    have := counts_of_runs r2
    exact ⟨x2, l2, h2, a2, by omega, r2⟩
  · intro s x hs
    obtain ⟨x2, l2, h2, a2, r2⟩ := handleEach_balanced [s] x (by simp [supportedStmts, hs])
    have := counts_of_runs r2
    exact ⟨x2, l2, h2, a2, by omega, r2⟩
  · have := counts_of_runs hbody
    omega

set_option maxRecDepth 1000000 in
/-- C19, witness: in `function foo(a,b){"compiled"; return a+b;}` the body
lines are the loads and pushes of `a` and `b`, the call of `jsvMathsOp` with
its two pops and one push, `pop {r0}` and `b end_of_fn`: three single-register
pushes and three pops. -/
theorem body_stack_balanced_witness :
    supportedStmts (fooDecl.body.drop 1) = true ∧
    (bodyLowering sampleExport fooDecl).countP isSinglePush = 3 ∧
    (bodyLowering sampleExport fooDecl).countP isSinglePush =
      (bodyLowering sampleExport fooDecl).countP isSinglePop ∧
    Runs 0 (bodyLowering sampleExport fooDecl) 0 :=
  ⟨by decide, by decide,
    (body_stack_balanced sampleExport fooDecl (by decide)).2.2.2.2.1,
    (body_stack_balanced sampleExport fooDecl (by decide)).2.2.2.2.2⟩

end Compiler
